import Mathlib

/-!
Verification development for the slvcodec core: the symbolic math engine
(`slvcodec/math_parser.py`), the dependency resolver (`slvcodec/resolution.py`
and `slvcodec/package.py`), and the typed codec (`slvcodec/typs.py`,
`slvcodec/conversions.py`).

Modelling conventions:
* Python numbers are modelled by `PyNum`: either an `int` (arbitrary precision
  `Int`) or a `float`.  Floats are modelled as exact rationals; the places
  where IEEE-754 rounding could differ from exact rational arithmetic
  (e.g. `math.log` inside `logceil`, or `float('...')` parsing of very long
  literals) are noted at the definitions concerned.
* Python exceptions are modelled with `Option`/`Except`; `none`/`.error`
  means the corresponding Python code raises.
* Python `==` on the parsed-expression namedtuples compares field tuples and
  ignores the class, so e.g. `Term(1, 'x') == Power(1, 'x')` is `True`; this
  is modelled by erasing expressions to `PyObj` trees (`toPyObj`) and is used
  wherever the source uses `==` on expressions (`pyEq`).
* The plain classes `Generic` and `Constant` compare by object identity in
  Python; the model compares them structurally (by name, and expression),
  which agrees with identity for the distinct-name environments used here.
-/

namespace Slvcodec

/-- A Python number: `int` or `float` (floats modelled as exact rationals). -/
inductive PyNum where
  | i : Int → PyNum
  | f : Rat → PyNum
deriving DecidableEq, Repr

namespace PyNum

/-- Numeric value of a `PyNum`. -/
def toRat : PyNum → Rat
  | .i n => (n : Rat)
  | .f q => q

/-- Python `==` between numbers compares values across int/float. -/
def numEq (a b : PyNum) : Bool := a.toRat == b.toRat

/-- Python `+`: `int + int` is `int`, anything involving a float is a float. -/
def add : PyNum → PyNum → PyNum
  | .i a, .i b => .i (a + b)
  | a, b => .f (a.toRat + b.toRat)

/-- Python `*`: `int * int` is `int`, anything involving a float is a float. -/
def mul : PyNum → PyNum → PyNum
  | .i a, .i b => .i (a * b)
  | a, b => .f (a.toRat * b.toRat)

/-- Python `pow(base, exponent)` with an integer exponent.  A negative
exponent yields a float (`pow(2, -1) == 0.5`), and `pow(0, -1)` raises
`ZeroDivisionError` (modelled as `none`). -/
def pyPow (base : PyNum) (e : Int) : Option PyNum :=
  if 0 ≤ e then
    match base with
    | .i a => some (.i (a ^ e.toNat))
    | .f q => some (.f (q ^ e.toNat))
  else
    if base.toRat = 0 then none
    else some (.f (base.toRat ^ e))

/-- Python `int(x)`: truncation toward zero. -/
def trunc (a : PyNum) : Int :=
  match a with
  | .i n => n
  | .f q => if q < 0 then -((-q).floor) else q.floor

/-- Python `math.ceil`. -/
def pyCeil (a : PyNum) : Int :=
  match a with
  | .i n => n
  | .f q => q.ceil

/-- `math_parser.as_number` restricted to numbers: a float equal to its own
integer truncation becomes that integer. -/
def asNumber (a : PyNum) : PyNum :=
  match a with
  | .i n => .i n
  | .f q => if q.den = 1 then .i q.num else .f q

/-- Is this `PyNum` an integer-valued number equal to the given `Int`? -/
def isInt (a : PyNum) (n : Int) : Prop := a.toRat = (n : Rat)

instance : Decidable (isInt a n) := by unfold isInt; infer_instance

end PyNum

/-- Model of Python `float(s)` for decimal literals: an optional sign,
digits and at most one decimal point (at least one digit overall).
Exponent notation, underscores, `inf`/`nan` are not modelled (those inputs
are treated as unparseable, i.e. `ValueError`). -/
def pyFloatOfString (s : String) : Option Rat :=
  let chars := s.toList
  let (sign, rest) :=
    match chars with
    | '-' :: cs => ((-1 : Int), cs)
    | '+' :: cs => ((1 : Int), cs)
    | cs => ((1 : Int), cs)
  let parts := (rest.foldr
    (fun c acc =>
      match acc with
      | none => none
      | some (intPart, fracPart, seenDot) =>
        if c = '.' then
          if seenDot then none else some ([], intPart, true)
        else if c.isDigit then
          some (c :: intPart, fracPart, seenDot)
        else none)
    (some ([], [], false)))
  match parts with
  | none => none
  | some (intDigits, fracDigits, seenDot) =>
    if intDigits.isEmpty ∧ (¬ seenDot ∨ fracDigits.isEmpty) then none
    else
      let intVal : Nat := intDigits.foldl (fun a c => a * 10 + (c.toNat - 48)) 0
      let fracVal : Nat := fracDigits.foldl (fun a c => a * 10 + (c.toNat - 48)) 0
      let den : Nat := 10 ^ fracDigits.length
      some ((sign : Rat) * ((intVal : Rat) + (fracVal : Rat) / (den : Rat)))

/-- The parsed-expression tree of `math_parser.py`.
`mult` holds the `Power` pairs of a `Multiplication`, `add` holds the `Term`
pairs of an `Addition`; standalone `Power`/`Term` objects are `pow`/`term`.
`generic`/`const` are the `typs.Generic`/`typs.Constant` leaf objects that
resolution splices into width expressions.  `Power.number` is restricted to
`Int`, which covers everything the parser and simplifier construct. -/
inductive MathItem where
  | str : String → MathItem
  | num : PyNum → MathItem
  | expr : List MathItem → MathItem
  | unk : List MathItem → MathItem
  | func : String → List MathItem → MathItem
  | pow : Int → MathItem → MathItem
  | mult : List (Int × MathItem) → MathItem
  | term : PyNum → MathItem → MathItem
  | add : List (PyNum × MathItem) → MathItem
  | generic : String → MathItem
  | const : String → MathItem → MathItem

/-- Erasure of expression trees to plain Python objects, for modelling
Python `==`: namedtuples compare as their field tuples regardless of class. -/
inductive PyObj where
  | n : Rat → PyObj
  | s : String → PyObj
  | t : List PyObj → PyObj
  | gen : String → PyObj
  | con : String → PyObj → PyObj

mutual

/-- Structural equality of erased Python objects (numbers by value). -/
def PyObj.beq : PyObj → PyObj → Bool
  | .n a, .n b => a == b
  | .s a, .s b => a == b
  | .t a, .t b => beqObjList a b
  | .gen a, .gen b => a == b
  | .con a x, .con b y => a == b && x.beq y
  | _, _ => false

def beqObjList : List PyObj → List PyObj → Bool
  | [], [] => true
  | x :: xs, y :: ys => x.beq y && beqObjList xs ys
  | _, _ => false

end

mutual

/-- Erase a `MathItem` to the `PyObj` that Python `==` effectively compares. -/
def MathItem.toPyObj : MathItem → PyObj
  | .str s => .s s
  | .num p => .n p.toRat
  | .expr xs => .t [.t (eraseList xs)]
  | .unk xs => .t [.t (eraseList xs)]
  | .func name args => .t [.s name, .t (eraseList args)]
  | .pow n e => .t [.n (n : Rat), e.toPyObj]
  | .mult ps => .t [.t (erasePowList ps)]
  | .term n e => .t [.n n.toRat, e.toPyObj]
  | .add ts => .t [.t (eraseTermList ts)]
  | .generic name => .gen name
  | .const name e => .con name e.toPyObj

def eraseList : List MathItem → List PyObj
  | [] => []
  | x :: xs => x.toPyObj :: eraseList xs

def erasePowList : List (Int × MathItem) → List PyObj
  | [] => []
  | (n, e) :: xs => .t [.n (n : Rat), e.toPyObj] :: erasePowList xs

def eraseTermList : List (PyNum × MathItem) → List PyObj
  | [] => []
  | (n, e) :: xs => .t [.n n.toRat, e.toPyObj] :: eraseTermList xs

end

/-- Model of Python `==` on parsed expressions. -/
def pyEq (a b : MathItem) : Bool := a.toPyObj.beq b.toPyObj

/-- `math_parser.as_number`: `int` stays, a float (or a string parsing as a
decimal) equal to its own integer truncation is converted to that integer,
other floats stay floats, anything else is `None`. -/
def as_number : MathItem → Option PyNum
  | .num p => some p.asNumber
  | .str s => (pyFloatOfString s).map (fun q => PyNum.asNumber (.f q))
  | _ => none

/-- `math_parser.is_number`. -/
def is_number (x : MathItem) : Bool := (as_number x).isSome

/-- `math_parser.logceil`, which Python computes as
`int(math.ceil(math.log(n)/math.log(2)))` for `n > 2`; modelled exactly on
rationals (the float computation agrees for all widths arising here). -/
def logceilNum (a : PyNum) : PyNum :=
  let q := a.toRat
  if q ≤ 2 then .i 1 else .i (Nat.clog 2 q.ceil.toNat)

/-- `math_parser.logceil_1to0`. -/
def logceil1to0Num (a : PyNum) : PyNum :=
  let q := a.toRat
  if q < 2 then .i 0 else .i (Nat.clog 2 q.ceil.toNat)

/-- Python `max(*args)` on numbers: the first maximal argument; `TypeError`
with fewer than two arguments (modelled as `none`). -/
def pyMax : List PyNum → Option PyNum
  | a :: b :: rest =>
    some ((b :: rest).foldl (fun acc v => if acc.toRat < v.toRat then v else acc) a)
  | _ => none

/-- Python `min(*args)` on numbers: the first minimal argument. -/
def pyMin : List PyNum → Option PyNum
  | a :: b :: rest =>
    some ((b :: rest).foldl (fun acc v => if v.toRat < acc.toRat then v else acc) a)
  | _ => none

/-- The `REGISTERED_FUNCTIONS` table of `math_parser.py`, applied to numeric
arguments.  A wrong arity or an unregistered name raises in Python
(modelled as `none`); `pow2` of a float exponent is outside the rational
model and also maps to `none`. -/
def registered : String → List PyNum → Option PyNum
  | "logceil", [a] => some (logceilNum a)
  | "clog2", [a] => some (logceilNum a)
  | "slvcodec_logceil", [a] => some (logceilNum a)
  | "logceil_1to0", [a] => some (logceil1to0Num a)
  | "real", [a] => some a
  | "integer", [a] => some a
  | "ceil", [a] => some (.i a.pyCeil)
  | "pow2", [a] =>
    match a with
    | .i n => PyNum.pyPow (.i 2) n
    | .f _ => none
  | "maximum", args => pyMax args
  | "minimum", args => pyMin args
  | _, _ => none

mutual

/-- `math_parser.get_value`: `as_number` of the item itself when it is a
number, otherwise `as_number(item.value())`; `none` models a raised
exception or a non-numeric result.  The `.value()` cases follow
`Expression`/`Unknown` (raise), `Function`, `Power`, `Multiplication`,
`Term`, `Addition` and `typs.Constant`/`typs.Generic`. -/
def get_value : MathItem → Option PyNum
  | .num p => some p.asNumber
  | .str s => as_number (.str s)
  | .expr _ => none
  | .unk _ => none
  | .func name args => do
    let vs ← valueList args
    let v ← registered name vs
    pure v.asNumber
  | .pow n e => do
    let v ← get_value e
    let w ← PyNum.pyPow v n
    pure w.asNumber
  | .mult ps => do
    let v ← powerProduct ps (.i 1)
    pure v.asNumber
  | .term n e => do
    let v ← get_value e
    pure (n.mul v).asNumber
  | .add ts => do
    let v ← termTotal ts (.i 0)
    pure v.asNumber
  | .generic _ => none
  | .const _ e => do
    let v ← get_value e
    pure v.asNumber

/-- `[get_value(arg) for arg in arguments]`. -/
def valueList : List MathItem → Option (List PyNum)
  | [] => some []
  | x :: xs => do
    let v ← get_value x
    let vs ← valueList xs
    pure (v :: vs)

/-- `Multiplication.value`: the running product of
`get_value(power)` over the `Power` members. -/
def powerProduct : List (Int × MathItem) → PyNum → Option PyNum
  | [], acc => some acc
  | (n, e) :: ps, acc => do
    let v ← get_value e
    let w ← PyNum.pyPow v n
    powerProduct ps (acc.mul w.asNumber)

/-- `Addition.value`: `sum(get_value(term) for term in terms)` starting
from Python's integer `0`. -/
def termTotal : List (PyNum × MathItem) → PyNum → Option PyNum
  | [], acc => some acc
  | (n, e) :: ts, acc => do
    let v ← get_value e
    termTotal ts (acc.add (n.mul v).asNumber)

end

mutual

/-- `make_substitute_function(d)`: replace string leaves that are keys of
`d`; everything else is rebuilt through its `transform` method
(`Expression.transform` collapses singleton item lists; `Unknown`,
`Generic` and `Constant` are left untouched). -/
def substitute (d : List (String × MathItem)) : MathItem → MathItem
  | .str s =>
    match d.lookup s with
    | some v => v
    | none => .str s
  | .num p => .num p
  | .expr xs =>
    let ys := substList d xs
    match ys with
    | [y] => y
    | _ => .expr ys
  | .unk xs => .unk xs
  | .func name args => .func name (substList d args)
  | .pow n e => .pow n (substitute d e)
  | .mult ps => .mult (substPowList d ps)
  | .term n e => .term n (substitute d e)
  | .add ts => .add (substTermList d ts)
  | .generic name => .generic name
  | .const name e => .const name e

/-- Item-list part of `substitute`. -/
def substList (d : List (String × MathItem)) : List MathItem → List MathItem
  | [] => []
  | x :: xs => substitute d x :: substList d xs

/-- `Power`-list part of `substitute`. -/
def substPowList (d : List (String × MathItem)) :
    List (Int × MathItem) → List (Int × MathItem)
  | [] => []
  | (n, e) :: xs => (n, substitute d e) :: substPowList d xs

/-- `Term`-list part of `substitute`. -/
def substTermList (d : List (String × MathItem)) :
    List (PyNum × MathItem) → List (PyNum × MathItem)
  | [] => []
  | (n, e) :: xs => (n, substitute d e) :: substTermList d xs

end

mutual

/-- `typs.make_substitute_generics_function(d)`: replace `Generic` leaves
that are keys of `d`; everything else is rebuilt through `transform`. -/
def substituteGenerics (d : List (String × MathItem)) : MathItem → MathItem
  | .generic name =>
    match d.lookup name with
    | some v => v
    | none => .generic name
  | .str s => .str s
  | .num p => .num p
  | .expr xs =>
    let ys := substGenList d xs
    match ys with
    | [y] => y
    | _ => .expr ys
  | .unk xs => .unk xs
  | .func name args => .func name (substGenList d args)
  | .pow n e => .pow n (substituteGenerics d e)
  | .mult ps => .mult (substGenPowList d ps)
  | .term n e => .term n (substituteGenerics d e)
  | .add ts => .add (substGenTermList d ts)
  | .const name e => .const name e

/-- Item-list part of `substituteGenerics`. -/
def substGenList (d : List (String × MathItem)) : List MathItem → List MathItem
  | [] => []
  | x :: xs => substituteGenerics d x :: substGenList d xs

/-- `Power`-list part of `substituteGenerics`. -/
def substGenPowList (d : List (String × MathItem)) :
    List (Int × MathItem) → List (Int × MathItem)
  | [] => []
  | (n, e) :: xs => (n, substituteGenerics d e) :: substGenPowList d xs

/-- `Term`-list part of `substituteGenerics`. -/
def substGenTermList (d : List (String × MathItem)) :
    List (PyNum × MathItem) → List (PyNum × MathItem)
  | [] => []
  | (n, e) :: xs => (n, substituteGenerics d e) :: substGenTermList d xs

end

/-- `typs.apply_generics`: substitute the generics and take `get_value`. -/
def apply_generics (g : List (String × MathItem)) (e : MathItem) : Option PyNum :=
  get_value (substituteGenerics g e)

mutual

/-- `math_parser.parse_integers`: convert every item that can be a number
into that number; other items are rebuilt through `transform`. -/
def parse_integers (x : MathItem) : MathItem :=
  match as_number x with
  | some n => .num n
  | none =>
    match x with
    | .str s => .str s
    | .num p => .num p
    | .expr xs =>
      let ys := parseIntList xs
      match ys with
      | [y] => y
      | _ => .expr ys
    | .unk xs => .unk xs
    | .func name args => .func name (parseIntList args)
    | .pow n e => .pow n (parse_integers e)
    | .mult ps => .mult (parseIntPowList ps)
    | .term n e => .term n (parse_integers e)
    | .add ts => .add (parseIntTermList ts)
    | .generic name => .generic name
    | .const name e => .const name e

/-- Item-list part of `parse_integers`. -/
def parseIntList : List MathItem → List MathItem
  | [] => []
  | x :: xs => parse_integers x :: parseIntList xs

/-- `Power`-list part of `parse_integers`. -/
def parseIntPowList : List (Int × MathItem) → List (Int × MathItem)
  | [] => []
  | (n, e) :: xs => (n, parse_integers e) :: parseIntPowList xs

/-- `Term`-list part of `parse_integers`. -/
def parseIntTermList : List (PyNum × MathItem) → List (PyNum × MathItem)
  | [] => []
  | (n, e) :: xs => (n, parse_integers e) :: parseIntTermList xs

end

/-- Python `int(s)` for strings: an optional sign followed by digits. -/
def pyIntOfString (s : String) : Option Int :=
  let chars := s.toList
  let (sign, rest) :=
    match chars with
    | '-' :: cs => ((-1 : Int), cs)
    | '+' :: cs => ((1 : Int), cs)
    | cs => ((1 : Int), cs)
  if rest.isEmpty ∨ ¬ rest.all Char.isDigit then none
  else some (sign * (rest.foldl (fun a c => a * 10 + ((c.toNat : Int) - 48)) 0))

/-- Python `int(e)` as used by `Addition.simplify` on a numeric item:
truncation for numbers, `int(s)` for numeric strings (`int('3.2')` raises
`ValueError`). -/
def pyIntOf : MathItem → Option Int
  | .num p => some p.trunc
  | .str s => pyIntOfString s
  | _ => none

/-- An ordered dict keyed by expressions under Python `==`, accumulating
`Int` exponents: absent keys are appended with the given value, present
keys are updated in place. -/
def dictAddInt (d : List (MathItem × Int)) (k : MathItem) (v : Int) :
    List (MathItem × Int) :=
  match d with
  | [] => [(k, v)]
  | (k0, v0) :: rest =>
    if pyEq k0 k then (k0, v0 + v) :: rest
    else (k0, v0) :: dictAddInt rest k v

/-- As `dictAddInt` but accumulating `PyNum` coefficients. -/
def dictAddNum (d : List (MathItem × PyNum)) (k : MathItem) (v : PyNum) :
    List (MathItem × PyNum) :=
  match d with
  | [] => [(k, v)]
  | (k0, v0) :: rest =>
    if pyEq k0 k then (k0, v0.add v) :: rest
    else (k0, v0) :: dictAddNum rest k v

/-- `d[k] = v` on an ordered dict keyed under Python `==`. -/
def dictSetNum (d : List (MathItem × PyNum)) (k : MathItem) (v : PyNum) :
    List (MathItem × PyNum) :=
  match d with
  | [] => [(k, v)]
  | (k0, v0) :: rest =>
    if pyEq k0 k then (k0, v) :: rest
    else (k0, v0) :: dictSetNum rest k v

/-- Does `k != 0` hold in Python, where `k` may be a number or a tree? -/
def itemNonzero (k : MathItem) : Bool :=
  match as_number k with
  | some p => p.toRat != 0
  | none => true

/-- The combination part of `Multiplication.simplify`, applied after the
member `Power` expressions have been simplified: numeric powers are folded
into `pure` via `power.value()` (which can raise on `pow(0, -1)`), the rest
are grouped by expression with exponents added, and the result is rebuilt
as in the source. -/
def multCombine (powers : List (Int × MathItem)) : Option MathItem := do
  let st ← powers.foldlM
    (fun (acc : PyNum × List (MathItem × Int)) (p : Int × MathItem) => do
      if is_number p.2 then
        let v ← get_value p.2
        let w ← PyNum.pyPow v p.1
        pure (acc.1.mul w, acc.2)
      else
        pure (acc.1, dictAddInt acc.2 p.2 p.1))
    ((.i 1), [])
  let relevant := st.2.filter (fun kv => kv.2 ≠ 0)
  let m : MathItem :=
    match relevant with
    | [] => .num (.i 1)
    | [(e, n)] => if n = 1 then e else .pow n e
    | _ => .mult (relevant.map (fun kv => (kv.2, kv.1)))
  if st.1.toRat ≠ 1 then
    if pyEq m (.num (.i 1)) then pure (.num st.1)
    else pure (.add [(st.1, m)])
  else pure m

/-- The expansion and combination parts of `Addition.simplify`, applied
after the member `Term`s have been simplified: terms whose expression is an
`Addition` or `Term` are flattened one level, numeric expressions are folded
(with `int()` truncation) into `int_part`, the rest are grouped by
expression with coefficients added, `d[int_part] = 1` is appended, and
zero coefficients and a zero key are dropped. -/
def addCombine (terms : List (PyNum × MathItem)) : Option MathItem := do
  let expanded := terms.foldl
    (fun (acc : List (PyNum × MathItem)) (t : PyNum × MathItem) =>
      match t.2 with
      | .add inner => acc ++ inner.map (fun it => (t.1.mul it.1, it.2))
      | .term n2 e2 => acc ++ [(t.1.mul n2, e2)]
      | _ => acc ++ [t])
    []
  let st ← expanded.foldlM
    (fun (acc : PyNum × List (MathItem × PyNum)) (t : PyNum × MathItem) => do
      if is_number t.2 then
        let k ← pyIntOf t.2
        pure (acc.1.add ((PyNum.i k).mul t.1), acc.2)
      else
        pure (acc.1, dictAddNum acc.2 t.2 t.1))
    ((.i 0), [])
  let cleaned := (dictSetNum st.2 (.num st.1) (.i 1)).filter
    (fun kv => kv.2.toRat ≠ 0 ∧ itemNonzero kv.1)
  match cleaned with
  | [] => pure (.num (.i 0))
  | [(e, n)] => if n.toRat = 1 then pure e else pure (.add [(n, e)])
  | _ => pure (.add (cleaned.map (fun kv => (kv.2, kv.1))))

/-- The names present in `REGISTERED_FUNCTIONS`. -/
def isRegisteredName (name : String) : Bool :=
  name ∈ ["logceil", "logceil_1to0", "clog2", "slvcodec_logceil", "real",
          "integer", "ceil", "pow2", "maximum", "minimum"]

/-- The evaluation part of `Function.simplify`, applied after the arguments
have been simplified: if every argument is a number and the name is
registered, the registered function is applied (applying an arithmetic
function to a numeric *string* raises in Python, modelled as `none`);
otherwise the `Function` is rebuilt. -/
def funcCombine (name : String) (args : List MathItem) : Option MathItem :=
  if args.all is_number ∧ isRegisteredName name then do
    let ps ← args.mapM (fun a => match a with | .num p => some p | _ => none)
    let v ← registered name ps
    pure (.num v)
  else
    pure (.func name args)

mutual

/-- `math_parser.simplify`: up to five passes of one simplification step,
stopping as soon as a pass returns a tree that is Python-`==` to its input;
the value of the final pass is returned either way (the source merely logs
a warning when the budget is exhausted).  `fuel` bounds the recursion depth
of nested `simplify` calls; every theorem instantiates it large enough to
be saturated at the inputs concerned. -/
def simplifyF : Nat → MathItem → Option MathItem
  | 0, _ => none
  | fuel + 1, x => simpLoop fuel 5 x
termination_by fuel _ => (fuel, 0, 0)

/-- The pass loop of `math_parser.simplify`. -/
def simpLoop : Nat → Nat → MathItem → Option MathItem
  | _, 0, old => some old
  | fuel, n + 1, old => do
    let new ← simpStep fuel old
    if pyEq old new then pure new
    else if n = 0 then pure new
    else simpLoop fuel n new
termination_by fuel n _ => (fuel, 3, n)

/-- One simplification pass: `old.simplify()` for `Function`,
`Multiplication` and `Addition`, `transform(old, simplify)` for everything
else (`Unknown.transform` returns itself; `Expression.transform` collapses
a singleton list). -/
def simpStep : Nat → MathItem → Option MathItem
  | _, .str s => some (.str s)
  | _, .num p => some (.num p)
  | _, .generic name => some (.generic name)
  | _, .const name e => some (.const name e)
  | _, .unk xs => some (.unk xs)
  | fuel, .expr xs => do
    let ys ← simpList fuel xs
    match ys with
    | [y] => pure y
    | _ => pure (.expr ys)
  | fuel, .pow n e => do
    let e' ← simplifyF fuel e
    pure (.pow n e')
  | fuel, .term n e => do
    let e' ← simplifyF fuel e
    pure (.term n e')
  | fuel, .func name args => do
    let args' ← simpList fuel args
    funcCombine name args'
  | fuel, .mult ps => do
    let ps' ← powSimpList fuel ps
    multCombine ps'
  | fuel, .add ts => do
    let ts' ← termSimpList fuel ts
    addCombine ts'
termination_by fuel _ => (fuel, 2, 0)

/-- `[simplify(item) for item in items]`. -/
def simpList : Nat → List MathItem → Option (List MathItem)
  | _, [] => some []
  | fuel, x :: xs => do
    let y ← simplifyF fuel x
    let ys ← simpList fuel xs
    pure (y :: ys)
termination_by fuel xs => (fuel, 1, xs.length)

/-- `[transform(power, simplify) for power in powers]`. -/
def powSimpList : Nat → List (Int × MathItem) → Option (List (Int × MathItem))
  | _, [] => some []
  | fuel, (n, e) :: xs => do
    let e' ← simplifyF fuel e
    let ys ← powSimpList fuel xs
    pure ((n, e') :: ys)
termination_by fuel xs => (fuel, 1, xs.length)

/-- `[simplify(term) for term in terms]`, reading back the `number` and
`expression` attributes of each result (`Power` shares those attribute
names; any other shape would raise `AttributeError` in the source). -/
def termSimpList : Nat → List (PyNum × MathItem) → Option (List (PyNum × MathItem))
  | _, [] => some []
  | fuel, (n, e) :: xs => do
    let r ← simplifyF fuel (.term n e)
    let p ← (match r with
      | .term n' e' => some (n', e')
      | .pow n' e' => some ((PyNum.i n'), e')
      | _ => none)
    let ys ← termSimpList fuel xs
    pure (p :: ys)
termination_by fuel xs => (fuel, 1, xs.length)

end

mutual

/-- Structural size of an expression tree (used only to pick a saturated
recursion budget for `simplify`). -/
def msize : MathItem → Nat
  | .str _ => 1
  | .num _ => 1
  | .generic _ => 1
  | .expr xs => msizeList xs + 1
  | .unk xs => msizeList xs + 1
  | .func _ args => msizeList args + 1
  | .pow _ e => msize e + 1
  | .mult ps => msizePowList ps + 1
  | .term _ e => msize e + 1
  | .add ts => msizeTermList ts + 1
  | .const _ e => msize e + 1

def msizeList : List MathItem → Nat
  | [] => 0
  | x :: xs => msize x + msizeList xs + 1

def msizePowList : List (Int × MathItem) → Nat
  | [] => 0
  | (_, e) :: xs => msize e + msizePowList xs + 1

def msizeTermList : List (PyNum × MathItem) → Nat
  | [] => 0
  | (_, e) :: xs => msize e + msizeTermList xs + 1

end

/-- The top-level `math_parser.simplify`, with a recursion budget that is
saturated at every input it is applied to in this development (the
non-convergence warning that the source logs is not modelled). -/
def simplify (x : MathItem) : Option MathItem := simplifyF (msize x + 10) x

/-!  ## The dependency resolver

`resolution.py:resolve_dependencies` and the older copy in
`slvcodec/package.py` (which differs by calling `resolve_function` once
*outside* its `try` block).  Dictionaries are modelled as association
lists in insertion order; the `list(set(...) - set(...) - set(...))`
recomputation of the remaining names is modelled as an order-preserving
filter.  `resolve_function` may raise (`Except.error`); the resolver's own
`assert` statements and `dict[...]` lookups are modelled by `RunError`. -/

/-- An exception escaping a `resolve_dependencies` run itself. -/
inductive RunError where
  | assertionError : RunError
  | keyError : RunError
  | resolveError : RunError
deriving DecidableEq, Repr

/-- The mutable state threaded through one pass of the resolver loop. -/
structure RState (α β : Type) where
  updatedAvailable : List (String × β)
  availableNames : List String
  failedNames : List String
  resolved : List (String × β)
  failed : List (String × α)
  anyChanges : Bool

/-- One iteration of `for unresolved_name in unresolved_names` in
`resolution.py:resolve_dependencies` (the version that wraps the whole
`resolve_function` call in `try`/`except`). -/
def resolveBody (unresolved : List (String × α))
    (dependencies : List (String × List String))
    (resolve_function : String → α → List (String × β) → Except Unit β)
    (name : String) (st : RState α β) : Except RunError (RState α β) :=
  match unresolved.lookup name, dependencies.lookup name with
  | none, _ => Except.error .keyError
  | some _, none => Except.error .keyError
  | some item, some itemDeps =>
  if itemDeps.any (fun d => st.failedNames.contains d) then
    pure { st with
      anyChanges := true
      failed := st.failed ++ [(name, item)]
      failedNames := st.failedNames ++ [name] }
  else if itemDeps.all (fun d => st.availableNames.contains d) then
    match resolve_function name item st.updatedAvailable with
    | .error _ =>
      pure { st with
        anyChanges := true
        failed := st.failed ++ [(name, item)]
        failedNames := st.failedNames ++ [name] }
    | .ok r =>
      if (st.resolved.lookup name).isSome ∨
          (st.updatedAvailable.lookup name).isSome ∨
          st.availableNames.contains name then
        Except.error .assertionError
      else
        pure { st with
          anyChanges := true
          resolved := st.resolved ++ [(name, r)]
          updatedAvailable := st.updatedAvailable ++ [(name, r)]
          availableNames := st.availableNames ++ [name] }
  else
    pure st

/-- One full pass over the remaining unresolved names. -/
def onePass (unresolved : List (String × α))
    (dependencies : List (String × List String))
    (resolve_function : String → α → List (String × β) → Except Unit β) :
    List String → RState α β → Except RunError (RState α β)
  | [], st => pure st
  | name :: rest, st => do
    let st' ← resolveBody unresolved dependencies resolve_function name st
    onePass unresolved dependencies resolve_function rest st'

/-- The `if not any_changes` fallback: record every remaining name as
failed. -/
def dumpFailures (unresolved : List (String × α)) :
    List String → RState α β → Except RunError (RState α β)
  | [], st => pure st
  | name :: rest, st =>
    match unresolved.lookup name with
    | none => Except.error .keyError
    | some item =>
      dumpFailures unresolved rest
        { st with
          failed := st.failed ++ [(name, item)]
          failedNames := st.failedNames ++ [name] }

/-- A pass appends to the name lists, sets `anyChanges` only when it
appends, and never unsets it. -/
theorem resolveBody_shape {α β : Type}
    {unresolved : List (String × α)} {dependencies : List (String × List String)}
    {resolve_function : String → α → List (String × β) → Except Unit β}
    {name : String} {st st' : RState α β}
    (h : resolveBody unresolved dependencies resolve_function name st = .ok st') :
    (∀ n, n ∈ st.availableNames → n ∈ st'.availableNames) ∧
    (∀ n, n ∈ st.failedNames → n ∈ st'.failedNames) ∧
    (st.anyChanges = true → st'.anyChanges = true) ∧
    (st'.anyChanges = true →
      st.anyChanges = true ∨ name ∈ st'.availableNames ∨ name ∈ st'.failedNames) := by
  unfold resolveBody at h
  split at h
  · exact Except.noConfusion h
  · exact Except.noConfusion h
  split at h
  · simp only [pure, Except.pure] at h
    cases h
    refine ⟨fun n hn => hn, fun n hn => by simp [List.mem_append, hn], by simp, ?_⟩
    intro _
    right; right; simp [List.mem_append]
  split at h
  · split at h
    · simp only [pure, Except.pure] at h
      cases h
      refine ⟨fun n hn => hn, fun n hn => by simp [List.mem_append, hn], by simp, ?_⟩
      intro _
      right; right; simp [List.mem_append]
    · split at h
      · exact Except.noConfusion h
      · simp only [pure, Except.pure] at h
        cases h
        refine ⟨fun n hn => by simp [List.mem_append, hn], fun n hn => hn, by simp, ?_⟩
        intro _
        right; left; simp [List.mem_append]
  · simp only [pure, Except.pure] at h
    cases h
    exact ⟨fun n hn => hn, fun n hn => hn, fun hc => hc, fun hc => Or.inl hc⟩

/-- `onePass` accumulates: available/failed names persist, and if the pass
reports a change then some processed name entered one of the two lists. -/
theorem onePass_progress {α β : Type}
    {unresolved : List (String × α)} {dependencies : List (String × List String)}
    {resolve_function : String → α → List (String × β) → Except Unit β} :
    ∀ {names : List String} {st st' : RState α β},
    onePass unresolved dependencies resolve_function names st = .ok st' →
    (∀ n, n ∈ st.availableNames → n ∈ st'.availableNames) ∧
    (∀ n, n ∈ st.failedNames → n ∈ st'.failedNames) ∧
    (st'.anyChanges = true →
      st.anyChanges = true ∨
      ∃ n ∈ names, n ∈ st'.availableNames ∨ n ∈ st'.failedNames) := by
  intro names
  induction names with
  | nil =>
    intro st st' h
    unfold onePass at h
    simp only [pure, Except.pure] at h
    cases h
    exact ⟨fun n hn => hn, fun n hn => hn, fun hc => Or.inl hc⟩
  | cons name rest ih =>
    intro st st' h
    unfold onePass at h
    simp only [bind, Except.bind] at h
    rcases hb : resolveBody unresolved dependencies resolve_function name st
      with e | st1 <;> rw [hb] at h
    · simp at h
    obtain ⟨hb1, hb2, hb3, hb4⟩ := resolveBody_shape hb
    obtain ⟨ih1, ih2, ih3⟩ := ih h
    refine ⟨fun n hn => ih1 n (hb1 n hn), fun n hn => ih2 n (hb2 n hn), ?_⟩
    intro hc
    rcases ih3 hc with h1 | ⟨n, hn, hmem⟩
    · rcases hb4 h1 with h2 | h2 | h2
      · exact Or.inl h2
      · exact Or.inr ⟨name, by simp, Or.inl (ih1 _ h2)⟩
      · exact Or.inr ⟨name, by simp, Or.inr (ih2 _ h2)⟩
    · exact Or.inr ⟨n, by simp [hn], hmem⟩

/-- After `dumpFailures`, every dumped name is in the failed-name list. -/
theorem dumpFailures_all {α β : Type} {unresolved : List (String × α)} :
    ∀ {names : List String} {st st' : RState α β},
    dumpFailures unresolved names st = .ok st' →
    (∀ n, n ∈ st.failedNames → n ∈ st'.failedNames) ∧
    (∀ n, n ∈ names → n ∈ st'.failedNames) := by
  intro names
  induction names with
  | nil =>
    intro st st' h
    unfold dumpFailures at h
    simp only [pure, Except.pure] at h
    cases h
    exact ⟨fun n hn => hn, by simp⟩
  | cons name rest ih =>
    intro st st' h
    unfold dumpFailures at h
    split at h
    · exact Except.noConfusion h
    obtain ⟨ih1, ih2⟩ := ih h
    constructor
    · intro n hn
      exact ih1 n (by simp [List.mem_append, hn])
    · intro n hn
      rcases List.mem_cons.mp hn with rfl | hn
      · exact ih1 n (by simp [List.mem_append])
      · exact ih2 n hn

/-- If some member of `l` fails the filter predicate, filtering shrinks. -/
theorem filter_length_lt {γ : Type} {p : γ → Bool} {l : List γ} {x : γ}
    (hx : x ∈ l) (hpx : p x = false) : (l.filter p).length < l.length := by
  induction l with
  | nil => cases hx
  | cons a as ih =>
    rcases List.mem_cons.mp hx with rfl | hx
    · simp only [List.filter_cons, hpx, Bool.false_eq_true, if_false, List.length_cons]
      exact Nat.lt_succ_of_le (List.length_filter_le _ _)
    · by_cases hpa : p a = true
      · simp only [List.filter_cons, hpa, if_true, List.length_cons]
        exact Nat.succ_lt_succ (ih hx)
      · have hpa' : p a = false := Bool.eq_false_iff.mpr hpa
        simp only [List.filter_cons, hpa', Bool.false_eq_true, if_false, List.length_cons]
        exact Nat.lt_succ_of_lt (ih hx)

/-- The `while unresolved_names:` loop of
`resolution.py:resolve_dependencies`.  Each iteration reruns a pass, dumps
all remaining names into `failed` when the pass made no change, and
recomputes the remaining names; the recursion is well-founded because a
changing pass moves at least one name into the available or failed lists
and the dump branch empties the remainder. -/
def resolveLoop (unresolved : List (String × α))
    (dependencies : List (String × List String))
    (resolve_function : String → α → List (String × β) → Except Unit β)
    (names : List String) (st : RState α β) :
    Except RunError (List (String × β) × List (String × α)) :=
  match hn : names with
  | [] => pure (st.resolved, st.failed)
  | name :: rest =>
    match hp : onePass unresolved dependencies resolve_function (name :: rest)
        { st with anyChanges := false } with
    | .error e => .error e
    | .ok st' =>
      if hc : st'.anyChanges then
        resolveLoop unresolved dependencies resolve_function
          ((name :: rest).filter
            (fun n => !(st'.availableNames.contains n) &&
                      !(st'.failedNames.contains n))) st'
      else
        match hd : dumpFailures unresolved (name :: rest) st' with
        | .error e => .error e
        | .ok st'' =>
          resolveLoop unresolved dependencies resolve_function
            ((name :: rest).filter
              (fun n => !(st''.availableNames.contains n) &&
                        !(st''.failedNames.contains n))) st''
termination_by names.length
decreasing_by
  · obtain ⟨h1, h2, h3⟩ := onePass_progress hp
    rcases h3 hc with hfalse | ⟨n, hn, hmem⟩
    · simp at hfalse
    · refine filter_length_lt hn ?_
      rcases hmem with hmem | hmem
      · have hc2 : st'.availableNames.contains n = true := List.elem_eq_true_of_mem hmem
        simp only [hc2, Bool.not_true, Bool.false_and]
      · have hc2 : st'.failedNames.contains n = true := List.elem_eq_true_of_mem hmem
        simp only [hc2, Bool.not_true, Bool.and_false]
  · obtain ⟨hd1, hd2⟩ := dumpFailures_all hd
    refine filter_length_lt (List.mem_cons_self name rest) ?_
    have hc2 : st''.failedNames.contains name = true :=
      List.elem_eq_true_of_mem (hd2 name (by simp))
    simp only [hc2, Bool.not_true, Bool.and_false]

/-- One iteration of the loop body of the `resolve_dependencies` in
`slvcodec/package.py`: identical to `resolution.py` except that
`resolve_function` is first called *outside* the `try` block, so an
exception from it propagates out of the whole run (when that first call
succeeds, the immediately repeated call inside `try` returns the same
result and the `except` branch is dead). -/
def resolveBodyPkg (unresolved : List (String × α))
    (dependencies : List (String × List String))
    (resolve_function : String → α → List (String × β) → Except Unit β)
    (name : String) (st : RState α β) : Except RunError (RState α β) :=
  match unresolved.lookup name, dependencies.lookup name with
  | none, _ => Except.error .keyError
  | some _, none => Except.error .keyError
  | some item, some itemDeps =>
  if itemDeps.any (fun d => st.failedNames.contains d) then
    pure { st with
      anyChanges := true
      failed := st.failed ++ [(name, item)]
      failedNames := st.failedNames ++ [name] }
  else if itemDeps.all (fun d => st.availableNames.contains d) then
    match resolve_function name item st.updatedAvailable with
    | .error _ => Except.error .resolveError
    | .ok r =>
      if (st.resolved.lookup name).isSome ∨
          (st.updatedAvailable.lookup name).isSome ∨
          st.availableNames.contains name then
        Except.error .assertionError
      else
        pure { st with
          anyChanges := true
          resolved := st.resolved ++ [(name, r)]
          updatedAvailable := st.updatedAvailable ++ [(name, r)]
          availableNames := st.availableNames ++ [name] }
  else
    pure st

/-- One full pass of the `slvcodec/package.py` resolver. -/
def onePassPkg (unresolved : List (String × α))
    (dependencies : List (String × List String))
    (resolve_function : String → α → List (String × β) → Except Unit β) :
    List String → RState α β → Except RunError (RState α β)
  | [], st => pure st
  | name :: rest, st => do
    let st' ← resolveBodyPkg unresolved dependencies resolve_function name st
    onePassPkg unresolved dependencies resolve_function rest st'

/-- The analogue of `resolveBody_shape` for the `slvcodec/package.py`
variant. -/
theorem resolveBodyPkg_shape {α β : Type}
    {unresolved : List (String × α)} {dependencies : List (String × List String)}
    {resolve_function : String → α → List (String × β) → Except Unit β}
    {name : String} {st st' : RState α β}
    (h : resolveBodyPkg unresolved dependencies resolve_function name st = .ok st') :
    (∀ n, n ∈ st.availableNames → n ∈ st'.availableNames) ∧
    (∀ n, n ∈ st.failedNames → n ∈ st'.failedNames) ∧
    (st.anyChanges = true → st'.anyChanges = true) ∧
    (st'.anyChanges = true →
      st.anyChanges = true ∨ name ∈ st'.availableNames ∨ name ∈ st'.failedNames) := by
  unfold resolveBodyPkg at h
  split at h
  · exact Except.noConfusion h
  · exact Except.noConfusion h
  split at h
  · simp only [pure, Except.pure] at h
    cases h
    refine ⟨fun n hn => hn, fun n hn => by simp [List.mem_append, hn], by simp, ?_⟩
    intro _
    right; right; simp [List.mem_append]
  split at h
  · split at h
    · exact Except.noConfusion h
    · split at h
      · exact Except.noConfusion h
      · simp only [pure, Except.pure] at h
        cases h
        refine ⟨fun n hn => by simp [List.mem_append, hn], fun n hn => hn, by simp, ?_⟩
        intro _
        right; left; simp [List.mem_append]
  · simp only [pure, Except.pure] at h
    cases h
    exact ⟨fun n hn => hn, fun n hn => hn, fun hc => hc, fun hc => Or.inl hc⟩

/-- The analogue of `onePass_progress` for the `slvcodec/package.py`
variant. -/
theorem onePassPkg_progress {α β : Type}
    {unresolved : List (String × α)} {dependencies : List (String × List String)}
    {resolve_function : String → α → List (String × β) → Except Unit β} :
    ∀ {names : List String} {st st' : RState α β},
    onePassPkg unresolved dependencies resolve_function names st = .ok st' →
    (∀ n, n ∈ st.availableNames → n ∈ st'.availableNames) ∧
    (∀ n, n ∈ st.failedNames → n ∈ st'.failedNames) ∧
    (st'.anyChanges = true →
      st.anyChanges = true ∨
      ∃ n ∈ names, n ∈ st'.availableNames ∨ n ∈ st'.failedNames) := by
  intro names
  induction names with
  | nil =>
    intro st st' h
    unfold onePassPkg at h
    simp only [pure, Except.pure] at h
    cases h
    exact ⟨fun n hn => hn, fun n hn => hn, fun hc => Or.inl hc⟩
  | cons name rest ih =>
    intro st st' h
    unfold onePassPkg at h
    simp only [bind, Except.bind] at h
    rcases hb : resolveBodyPkg unresolved dependencies resolve_function name st
      with e | st1 <;> rw [hb] at h
    · simp at h
    obtain ⟨hb1, hb2, hb3, hb4⟩ := resolveBodyPkg_shape hb
    obtain ⟨ih1, ih2, ih3⟩ := ih h
    refine ⟨fun n hn => ih1 n (hb1 n hn), fun n hn => ih2 n (hb2 n hn), ?_⟩
    intro hc
    rcases ih3 hc with h1 | ⟨n, hn, hmem⟩
    · rcases hb4 h1 with h2 | h2 | h2
      · exact Or.inl h2
      · exact Or.inr ⟨name, by simp, Or.inl (ih1 _ h2)⟩
      · exact Or.inr ⟨name, by simp, Or.inr (ih2 _ h2)⟩
    · exact Or.inr ⟨n, by simp [hn], hmem⟩

/-- The `while` loop of the `slvcodec/package.py` `resolve_dependencies`. -/
def resolveLoopPkg (unresolved : List (String × α))
    (dependencies : List (String × List String))
    (resolve_function : String → α → List (String × β) → Except Unit β)
    (names : List String) (st : RState α β) :
    Except RunError (List (String × β) × List (String × α)) :=
  match hn : names with
  | [] => pure (st.resolved, st.failed)
  | name :: rest =>
    match hp : onePassPkg unresolved dependencies resolve_function (name :: rest)
        { st with anyChanges := false } with
    | .error e => .error e
    | .ok st' =>
      if hc : st'.anyChanges then
        resolveLoopPkg unresolved dependencies resolve_function
          ((name :: rest).filter
            (fun n => !(st'.availableNames.contains n) &&
                      !(st'.failedNames.contains n))) st'
      else
        match hd : dumpFailures unresolved (name :: rest) st' with
        | .error e => .error e
        | .ok st'' =>
          resolveLoopPkg unresolved dependencies resolve_function
            ((name :: rest).filter
              (fun n => !(st''.availableNames.contains n) &&
                        !(st''.failedNames.contains n))) st''
termination_by names.length
decreasing_by
  · obtain ⟨h1, h2, h3⟩ := onePassPkg_progress hp
    rcases h3 hc with hfalse | ⟨n, hn, hmem⟩
    · simp at hfalse
    · refine filter_length_lt hn ?_
      rcases hmem with hmem | hmem
      · have hc2 : st'.availableNames.contains n = true := List.elem_eq_true_of_mem hmem
        simp only [hc2, Bool.not_true, Bool.false_and]
      · have hc2 : st'.failedNames.contains n = true := List.elem_eq_true_of_mem hmem
        simp only [hc2, Bool.not_true, Bool.and_false]
  · obtain ⟨hd1, hd2⟩ := dumpFailures_all hd
    refine filter_length_lt (List.mem_cons_self name rest) ?_
    have hc2 : st''.failedNames.contains name = true :=
      List.elem_eq_true_of_mem (hd2 name (by simp))
    simp only [hc2, Bool.not_true, Bool.and_false]

/-- The `resolve_dependencies` of `slvcodec/package.py`. -/
def package_resolve_dependencies (available : List (String × β))
    (unresolved : List (String × α))
    (dependencies : List (String × List String))
    (resolve_function : String → α → List (String × β) → Except Unit β) :
    Except RunError (List (String × β) × List (String × α)) :=
  let unresolved_names := unresolved.map Prod.fst
  let available_names := available.map Prod.fst
  if unresolved_names.any (fun n => available_names.contains n) then
    Except.error .assertionError
  else
    resolveLoopPkg unresolved dependencies resolve_function unresolved_names
      { updatedAvailable := available
        availableNames := available_names
        failedNames := []
        resolved := []
        failed := []
        anyChanges := false }

/-- `resolution.py:resolve_dependencies`. -/
def resolve_dependencies (available : List (String × β))
    (unresolved : List (String × α))
    (dependencies : List (String × List String))
    (resolve_function : String → α → List (String × β) → Except Unit β) :
    Except RunError (List (String × β) × List (String × α)) :=
  let unresolved_names := unresolved.map Prod.fst
  let available_names := available.map Prod.fst
  if unresolved_names.any (fun n => available_names.contains n) then
    Except.error .assertionError
  else
    resolveLoop unresolved dependencies resolve_function unresolved_names
      { updatedAvailable := available
        availableNames := available_names
        failedNames := []
        resolved := []
        failed := []
        anyChanges := false }

/-!  ## The typed codec (`typs.py`, `conversions.py`)

Python values passed to `to_slv`/returned by `from_slv` are modelled by
`Val`; a raised `ToSlvError` is `.slv` with a structured payload carrying
the same information as the formatted message, and other exception classes
(`AssertionError`, `TypeError`, ...) are separate constructors.  A failure
while evaluating a width expression (any exception inside
`apply_generics`/`get_value`, or `int(None)` on their `None` result) is
collapsed into `.evalError`. -/

/-- A Python value handled by the codec. -/
inductive Val where
  | none : Val
  | int : Int → Val
  | str : String → Val
  | list : List Val → Val
  | dict : List (String × Val) → Val

/-- The structured content of a raised `ToSlvError`. -/
inductive SlvErr where
  | badStdLogic : SlvErr
  | range : Int → Rat → Rat → Option String → SlvErr
  | notNatural : SlvErr
  | lengthMismatch : Int → Rat → SlvErr
  | noLength : Rat → SlvErr
  | unconstrainedNone : SlvErr
  | unknownElems : List String → Option String → SlvErr
  | element : String → Option String → SlvErr → SlvErr
  | enumMissing : String → List String → SlvErr

/-- An exception escaping a codec call. -/
inductive PyError where
  | slv : SlvErr → PyError
  | assertionError : PyError
  | typeError : PyError
  | indexError : PyError
  | zeroDivisionError : PyError
  | attributeError : PyError
  | evalError : PyError

/-- The resolved types of `typs.py` that take part in encoding:
`StdLogic`, `ConstrainedStdLogicVector`/`ConstrainedUnsigned` (identical
codec behaviour), `ConstrainedSigned`, `ConstrainedArray` (over the
unconstrained `Array` of its element subtype), `Record` and
`Enumeration`. -/
inductive Typ where
  | std_logic : Typ
  | cslv : Option String → MathItem → Typ
  | csigned : Option String → MathItem → Typ
  | carray : Option String → Typ → MathItem → Typ
  | record : Option String → List (String × Typ) → Typ
  | enumeration : Option String → List String → Typ

/-- The generics mapping supplied to `to_slv`/`from_slv`. -/
def Generics := List (String × MathItem)

mutual

/-- Structural size of a type (for termination only). -/
def tsize : Typ → Nat
  | .std_logic => 1
  | .cslv _ _ => 1
  | .csigned _ _ => 1
  | .carray _ sub _ => tsize sub + 1
  | .record _ fields => tsizeFields fields + 1
  | .enumeration _ _ => 1

def tsizeFields : List (String × Typ) → Nat
  | [] => 0
  | (_, t) :: fs => tsize t + tsizeFields fs + 1

end

/-- `math_parser.logceil` on a list length. -/
def logceilNat (n : Nat) : Nat := if n ≤ 2 then 1 else Nat.clog 2 n

mutual

/-- The `width` attribute of each resolved type: `1` for `std_logic`, the
size expression for constrained vectors, `Multiplication(size, subtype
width)` for a constrained array, `simplify(Addition(field widths))` for a
record and `logceil(len(literals))` for an enumeration.  `none` models a
type whose construction would already have raised. -/
def widthOf : Typ → Option MathItem
  | .std_logic => some (.num (.i 1))
  | .cslv _ size => some size
  | .csigned _ size => some size
  | .carray _ sub size => do
    let w ← widthOf sub
    pure (.mult [(1, size), (1, w)])
  | .record _ fields => do
    let ws ← widthsOfFields fields
    simplify (.add (ws.map (fun w => ((PyNum.i 1), w))))
  | .enumeration _ literals => some (.num (.i (logceilNat literals.length)))

def widthsOfFields : List (String × Typ) → Option (List MathItem)
  | [] => some []
  | (_, t) :: fs => do
    let w ← widthOf t
    let ws ← widthsOfFields fs
    pure (w :: ws)

end

/-- A bit-string over `{'0','1','U'}`, modelled as its character
sequence. -/
abbrev Slv := List Char

/-- Python `'U' * n`. -/
def uFill (n : Int) : Slv := List.replicate n.toNat 'U'

/-- Evaluate a width expression under the generics and apply `int(...)`. -/
def evalToInt (g : Generics) (e : MathItem) : Except PyError Int :=
  match apply_generics g e with
  | some p => .ok p.trunc
  | none => .error .evalError

/-- Python `pow(2, n)` as a rational (`float` for negative `n`). -/
def rat2pow (n : Int) : Rat := (2 : Rat) ^ n

/-- The `bits` loop of `ConstrainedStdLogicVector.to_slv`: `size` rounds of
`data % 2` / `data >> 1`, returning the little-endian bits and the residual
that the final `assert data == 0` checks. -/
def pyBitsAcc (d : Int) : Nat → (List Int × Int)
  | 0 => ([], d)
  | k + 1 =>
    let r := pyBitsAcc (d.fdiv 2) k
    (d.emod 2 :: r.1, r.2)

/-- `StdLogic.to_slv`. -/
def stdLogicToSlv (data : Val) (_g : Generics) (allow_undefined : Bool) :
    Except PyError Slv :=
  match data with
  | .int 0 => .ok ['0']
  | .int 1 => .ok ['1']
  | .none => if allow_undefined then .ok ['U'] else .error .assertionError
  | _ => .error (.slv .badStdLogic)

/-- `StdLogic.from_slv`: `{'0': 0, '1': 1}.get(slv, None)`. -/
def stdLogicFromSlv (slv : Slv) (_g : Generics) : Val :=
  if slv = ['0'] then .int 0 else if slv = ['1'] then .int 1 else .none

/-- The bit loop of `conversions.uint_to_slv` (little-endian). -/
def uintBits : Int → Nat → List Char
  | _, 0 => []
  | v, k + 1 => (if v.emod 2 != 0 then '1' else '0') :: uintBits (v.fdiv 2) k

/-- `conversions.uint_to_slv`. -/
def uint_to_slv (uint : Option Int) (width : Nat) (allow_undefined : Bool) :
    Except PyError Slv :=
  match uint with
  | Option.none =>
    if allow_undefined then .ok (uFill width) else .error .assertionError
  | some u => .ok (uintBits u width).reverse

/-- One step of the `conversions.slv_to_uint` fold. -/
def slvUintStep (acc : Option Int × Int) (ch : Char) : Option Int × Int :=
  let total := if ch ≠ '0' ∧ ch ≠ '1' then Option.none else acc.1
  match total with
  | Option.none => (Option.none, acc.2)
  | some t => ((some (if ch = '1' then t + acc.2 else t)), acc.2 * 2)

/-- `conversions.slv_to_uint`: folds from the right, poisoning the total to
`None` on any character other than `'0'`/`'1'`. -/
def slv_to_uint (slv : Slv) : Option Int :=
  (slv.reverse.foldl slvUintStep (some 0, 1)).1

/-- The comprehension `[std_logic.to_slv(b, ...) for b in reversed(bits)]`
of `ConstrainedStdLogicVector.to_slv`. -/
def stdLogicMapM (bs : List Int) (g : Generics) (allow_undefined : Bool) :
    Except PyError (List Slv) :=
  match bs with
  | [] => pure []
  | b :: rest => do
    let s ← stdLogicToSlv (.int b) g allow_undefined
    let ss ← stdLogicMapM rest g allow_undefined
    pure (s :: ss)

/-- `ConstrainedStdLogicVector.to_slv` (also `ConstrainedUnsigned`). -/
def cslvToSlv (identifier : Option String) (size : MathItem) (data : Val)
    (g : Generics) (allow_undefined : Bool) : Except PyError Slv := do
  let sizeI ← evalToInt g size
  match data with
  | .none =>
    if allow_undefined then pure (uFill sizeI) else .error .assertionError
  | .int d =>
    let minV : Rat := 0
    let maxV : Rat := rat2pow sizeI - 1
    if (d : Rat) < minV ∨ maxV < (d : Rat) then
      .error (.slv (.range d minV maxV identifier))
    else
      let r := pyBitsAcc d sizeI.toNat
      if r.2 ≠ 0 then .error .assertionError
      else do
        let pieces ← stdLogicMapM r.1.reverse g allow_undefined
        pure pieces.join
  | _ => .error (.slv .notNatural)

/-- One step of the `ConstrainedStdLogicVector.from_slv` fold:
`(data << 1) + b`, poisoned by an undefined bit. -/
def slvBitStep (g : Generics) (acc : Option Int) (c : Char) : Option Int :=
  match acc, stdLogicFromSlv [c] g with
  | some t, .int b => some (t * 2 + b)
  | _, _ => Option.none

/-- `ConstrainedStdLogicVector.from_slv`: fold the characters through
`std_logic.from_slv`, poisoning to `None` on any undefined bit. -/
def cslvFromSlv (slv : Slv) (g : Generics) : Val :=
  match slv.foldl (slvBitStep g) (some 0) with
  | some d => .int d
  | Option.none => .none

/-- The slicing `slv[-width:]`/`slv[:-width]` of the `reduce_slv` methods
(`width == 0` is special-cased in the source; a negative `width` follows
Python slice semantics). -/
def reduceSplit (s : Slv) (w : Int) : Slv × Slv :=
  if w = 0 then ([], s)
  else if 0 < w then (s.drop (s.length - w.toNat), s.take (s.length - w.toNat))
  else (s.drop (-w).toNat, s.take (-w).toNat)

/-- `ConstrainedSigned.to_slv`.  The construction-time
`get_value(self.size)` that fixes `min_value`/`max_value` is evaluated
here; a size whose ground value is a float is outside the model
(`pow(2, float)` is irrational) and maps to `.evalError`. -/
def csignedToSlv (identifier : Option String) (size : MathItem) (data : Val)
    (g : Generics) (allow_undefined : Bool) : Except PyError Slv := do
  let sizeP ← match apply_generics g size with
    | some p => pure p
    | Option.none => Except.error PyError.evalError
  match data with
  | .none =>
    if allow_undefined then
      match sizeP with
      | .i n => pure (uFill n)
      | .f _ => .error .typeError
    else .error .assertionError
  | .int d => do
    let sc ← match get_value size with
      | some (.i n) => pure n
      | _ => Except.error PyError.evalError
    let maxV : Rat := rat2pow (sc - 1) - 1
    let minV : Rat := -(rat2pow (sc - 1))
    if (d : Rat) < minV ∨ maxV < (d : Rat) then
      .error (.slv (.range d minV maxV identifier))
    else do
      let d2 ← (if d < 0 then
          match sizeP with
          | .i n => pure (d + 2 ^ n.toNat)
          | .f _ => Except.error PyError.typeError
        else pure d)
      cslvToSlv identifier size (.int d2) g allow_undefined
  | _ => .error .typeError

/-- `ConstrainedSigned.from_slv`. -/
def csignedFromSlv (identifier : Option String) (size : MathItem)
    (slv : Slv) (g : Generics) : Except PyError Val := do
  let sizeP ← match apply_generics g size with
    | some p => pure p
    | Option.none => Except.error PyError.evalError
  match cslvFromSlv slv g with
  | .none => pure Val.none
  | .int d => do
    let sc ← match get_value size with
      | some (.i n) => pure n
      | _ => Except.error PyError.evalError
    let maxV : Rat := rat2pow (sc - 1) - 1
    let minV : Rat := -(rat2pow (sc - 1))
    let d2 ← (if maxV < (d : Rat) then
        match sizeP with
        | .i n => pure (d - 2 ^ n.toNat)
        | .f _ => Except.error PyError.typeError
      else pure d)
    if (d2 : Rat) < minV then .error .assertionError
    else if maxV < (d2 : Rat) then .error .assertionError
    else pure (.int d2)
  | _ => .error .typeError

/-- Python `str.lower` (ASCII). -/
def pyLower (s : String) : String := String.mk (s.data.map Char.toLower)

/-- `Enumeration.__init__` lowercases its literals at construction. -/
def mkEnumeration (identifier : Option String) (literals : List String) : Typ :=
  .enumeration identifier (literals.map pyLower)

/-- `Enumeration.to_slv`. -/
def enumToSlv (literals : List String) (data : Val) (allow_undefined : Bool) :
    Except PyError Slv :=
  let width := logceilNat literals.length
  match data with
  | .none =>
    if allow_undefined then .ok (uFill width) else .error .assertionError
  | .str s =>
    if literals.contains (pyLower s) then
      uint_to_slv (some (literals.indexOf (pyLower s) : Nat)) width allow_undefined
    else .error (.slv (.enumMissing (pyLower s) literals))
  | _ => .error .attributeError

/-- `Enumeration.reduce_slv`. -/
def enumReduceSlv (literals : List String) (slv : Slv) :
    Except PyError (Val × Slv) :=
  let width := logceilNat literals.length
  let reduced := slv.take (slv.length - width)
  match slv_to_uint (slv.drop (slv.length - width)) with
  | Option.none => .error .typeError
  | some index =>
    if h : index.toNat < literals.length ∧ 0 ≤ index then
      .ok (.str (literals.get ⟨index.toNat, h.1⟩), reduced)
    else .error .indexError

/-- Python `len(x)` for the shapes `ConstrainedArray.to_slv` can receive. -/
def pyLen : Val → Option Int
  | .str s => some (s.length : Int)
  | .list xs => some (xs.length : Int)
  | .dict es => some (es.length : Int)
  | _ => Option.none

/-- Python `s[a:b]` for `0 ≤ a ≤ b`. -/
def pySlice (s : Slv) (a b : Int) : Slv := (s.drop a.toNat).take (b - a).toNat

/-- `data[name] = v` on a Python dict modelled as an ordered association
list. -/
def dictAssign (d : List (String × Val)) (k : String) (v : Val) :
    List (String × Val) :=
  match d with
  | [] => [(k, v)]
  | (k0, v0) :: rest =>
    if k0 = k then (k0, v) :: rest else (k0, v0) :: dictAssign rest k v

mutual

/-- `to_slv(data, generics, allow_undefined)` dispatched over the resolved
type, following `StdLogic.to_slv`, `ConstrainedStdLogicVector.to_slv`,
`ConstrainedSigned.to_slv`, `ConstrainedArray.to_slv` (which delegates to
the unconstrained `Array.to_slv`), `Record.to_slv` and
`Enumeration.to_slv`. -/
def toSlv : Typ → Val → Generics → Bool → Except PyError Slv
  | .std_logic, data, g, au => stdLogicToSlv data g au
  | .cslv id size, data, g, au => cslvToSlv id size data g au
  | .csigned id size, data, g, au => csignedToSlv id size data g au
  | .carray _ sub size, data, g, au => do
    let sizeP ← match apply_generics g size with
      | some p => pure p
      | Option.none => Except.error PyError.evalError
    let data2 ← (match data with
      | .none =>
        match sizeP with
        | .i n => pure (Val.list (List.replicate n.toNat Val.none))
        | .f _ => Except.error PyError.typeError
      | d => pure d)
    match pyLen data2 with
    | Option.none => .error (.slv (.noLength sizeP.toRat))
    | some l =>
      if (l : Rat) ≠ sizeP.toRat then .error (.slv (.lengthMismatch l sizeP.toRat))
      else arrayToSlv sub data2 g au
  | .record id fields, data, g, au => do
    let entries ← (match data with
      | .none => pure ([] : List (String × Val))
      | .dict es => pure es
      | _ => Except.error PyError.attributeError)
    let fieldNames := fields.map Prod.fst
    let invalid := (entries.map Prod.fst).filter (fun k => !(fieldNames.contains k))
    if invalid ≠ [] then .error (.slv (.unknownElems invalid id))
    else do
      let slvs ← fieldsToSlv id fields entries g au
      pure slvs.reverse.join
  | .enumeration _ literals, data, _, au => enumToSlv literals data au
termination_by t _ _ _ => (tsize t, 0, 0)
decreasing_by
  all_goals simp only [tsize, tsizeFields]
  all_goals decreasing_tactic

/-- The unconstrained `Array.to_slv`: concatenate the element encodings of
`reversed(data)` (iterating a string yields its characters). -/
def arrayToSlv (sub : Typ) (data : Val) (g : Generics) (au : Bool) :
    Except PyError Slv :=
  match data with
  | .none => .error (.slv .unconstrainedNone)
  | .list xs => do
    let pieces ← elemsToSlv sub xs.reverse g au
    pure pieces.join
  | .str s => do
    let pieces ← elemsToSlv sub (s.toList.reverse.map (fun c => Val.str (String.mk [c]))) g au
    pure pieces.join
  | _ => .error .typeError
termination_by (tsize sub, 2, 0)

/-- The element comprehension of `Array.to_slv`. -/
def elemsToSlv (sub : Typ) : List Val → Generics → Bool → Except PyError (List Slv)
  | [], _, _ => pure []
  | x :: xs, g, au => do
    let s ← toSlv sub x g au
    let ss ← elemsToSlv sub xs g au
    pure (s :: ss)
termination_by xs _ _ => (tsize sub, 1, xs.length)

/-- The field loop of `Record.to_slv`: encode `data.get(name, None)` per
field, wrapping a raised `ToSlvError` with the element name and record
identifier (other exceptions propagate unwrapped). -/
def fieldsToSlv (id : Option String) :
    List (String × Typ) → List (String × Val) → Generics → Bool →
    Except PyError (List Slv)
  | [], _, _, _ => pure []
  | (name, sub) :: fs, entries, g, au => do
    let s ← (match toSlv sub ((entries.lookup name).getD Val.none) g au with
      | .error (.slv e) => Except.error (PyError.slv (.element name id e))
      | .error e => Except.error e
      | .ok s => pure s)
    let ss ← fieldsToSlv id fs entries g au
    pure (s :: ss)
termination_by fs _ _ _ => (tsizeFields fs, 3, 0)
decreasing_by
  all_goals simp only [tsize, tsizeFields]
  all_goals decreasing_tactic

end

mutual

/-- `reduce_slv(slv, generics)` dispatched over the resolved type: extract
this type's value from the trailing end of `slv` and return it with the
remaining prefix. -/
def reduceSlv : Typ → Slv → Generics → Except PyError (Val × Slv)
  | .std_logic, slv, g =>
    if slv.length = 0 then .error .indexError
    else pure (stdLogicFromSlv (slv.drop (slv.length - 1)) g, slv.take (slv.length - 1))
  | .cslv _ size, slv, g => do
    let w ← evalToInt g size
    let sp := reduceSplit slv w
    pure (cslvFromSlv sp.1 g, sp.2)
  | .csigned id size, slv, g => do
    let w ← evalToInt g size
    let sp := reduceSplit slv w
    let v ← csignedFromSlv id size sp.1 g
    pure (v, sp.2)
  | .carray id sub size, slv, g => do
    let wexpr ← (match widthOf (.carray id sub size) with
      | some w => pure w
      | Option.none => Except.error PyError.evalError)
    let w ← evalToInt g wexpr
    let sp := reduceSplit slv w
    let v ← arrayFromSlv sub size sp.1 g
    pure (v, sp.2)
  | .record id fields, slv, g => do
    let r ← fieldsReduce fields slv g []
    pure (Val.dict r.1, r.2)
  | .enumeration _ literals, slv, _ => enumReduceSlv literals slv
termination_by t _ _ => (tsize t, 1, 0)
decreasing_by
  all_goals simp only [tsize, tsizeFields]
  all_goals decreasing_tactic

/-- The field loop of `Record.reduce_slv`. -/
def fieldsReduce :
    List (String × Typ) → Slv → Generics → List (String × Val) →
    Except PyError (List (String × Val) × Slv)
  | [], slv, _, acc => pure (acc, slv)
  | (name, sub) :: fs, slv, g, acc => do
    let r ← reduceSlv sub slv g
    fieldsReduce fs r.2 g (dictAssign acc name r.1)
termination_by fs _ _ _ => (tsizeFields fs, 0, 0)
decreasing_by
  all_goals simp only [tsize, tsizeFields]
  all_goals decreasing_tactic

/-- `from_slv(slv, generics)` dispatched over the resolved type. -/
def fromSlv : Typ → Slv → Generics → Except PyError Val
  | .std_logic, slv, g => pure (stdLogicFromSlv slv g)
  | .cslv _ _, slv, g => pure (cslvFromSlv slv g)
  | .csigned id size, slv, g => csignedFromSlv id size slv g
  | .carray _ sub size, slv, g => arrayFromSlv sub size slv g
  | .record id fields, slv, g => do
    let r ← reduceSlv (.record id fields) slv g
    if r.2 = [] then pure r.1 else .error .assertionError
  | .enumeration _ literals, slv, _ => do
    let r ← enumReduceSlv literals slv
    if r.2 = [] then pure r.1 else .error .assertionError
termination_by t _ _ => (tsize t, 2, 0)
decreasing_by
  all_goals simp only [tsize, tsizeFields]
  all_goals decreasing_tactic

/-- `ConstrainedArray.from_slv` composed with the unconstrained
`Array.from_slv` it delegates to: split `slv` into `len(slv) // intw`
pieces of the element width, decode each, reverse, and assert the element
count matches the resolved size. -/
def arrayFromSlv (sub : Typ) (size : MathItem) (slv : Slv) (g : Generics) :
    Except PyError Val := do
  let wexpr ← (match widthOf sub with
    | some w => pure w
    | Option.none => Except.error PyError.evalError)
  let w ← (match apply_generics g wexpr with
    | some p => pure p
    | Option.none => Except.error PyError.evalError)
  let intw := w.trunc
  if (intw : Rat) ≠ w.toRat then .error .assertionError
  else if intw = 0 then .error .zeroDivisionError
  else do
    let len : Int := (slv.length : Int)
    if len.fmod intw ≠ 0 then .error .assertionError
    else do
      let n := len.fdiv intw
      if n * intw ≠ len then .error .assertionError
      else do
        let pieces := (List.range n.toNat).map
          (fun (i : Nat) => pySlice slv ((i : Int) * intw) (((i : Int) + 1) * intw))
        let elems ← piecesFromSlv sub pieces g
        let data := elems.reverse
        let sizeP ← (match apply_generics g size with
          | some p => pure p
          | Option.none => Except.error PyError.evalError)
        if (data.length : Rat) = sizeP.toRat then pure (.list data)
        else .error .assertionError
termination_by (tsize sub, 3, 0)

/-- The piece comprehension of `Array.from_slv`. -/
def piecesFromSlv (sub : Typ) : List Slv → Generics → Except PyError (List Val)
  | [], _ => pure []
  | p :: ps, g => do
    let v ← fromSlv sub p g
    let vs ← piecesFromSlv sub ps g
    pure (v :: vs)
termination_by ps _ => (tsize sub, 2, ps.length + 1)

end

/-!  ## Well-formedness of types and values

Decidable predicates gathering the hypotheses under which the codec claims
are stated: every width expression evaluates to a concrete non-negative
integer under the generics (with a record's width agreeing with the sum of
its field widths — the invariant the source establishes through
`simplify`), and values are in range with no undefined parts. -/

/-- The evaluated integer width of a type under the generics. -/
def evalWidthInt (t : Typ) (g : Generics) : Option Int :=
  match (widthOf t).bind (apply_generics g) with
  | some (.i n) => some n
  | _ => Option.none

mutual

/-- All width expressions in the type evaluate to concrete non-negative
integers under `g`; record field names are distinct and the record's own
width expression evaluates to the sum of its field widths. -/
def goodTyp : Typ → Generics → Bool
  | .std_logic, _ => true
  | .cslv _ size, g =>
    match apply_generics g size with
    | some (.i n) => decide (0 ≤ n)
    | _ => false
  | .csigned _ size, g =>
    match get_value size with
    | some (.i n) => decide (0 ≤ n)
    | _ => false
  | .carray _ sub size, g =>
    (match apply_generics g size with
     | some (.i n) => decide (0 ≤ n)
     | _ => false) && goodTyp sub g
  | .record id fields, g =>
    decide ((fields.map Prod.fst).Nodup) && goodFields fields g &&
    (match evalWidthInt (.record id fields) g, sumFieldWidths fields g with
     | some w, some sw => decide (w = sw)
     | _, _ => false)
  | .enumeration _ _, _ => true

def goodFields : List (String × Typ) → Generics → Bool
  | [], _ => true
  | (_, t) :: fs, g => goodTyp t g && goodFields fs g

/-- The sum of the evaluated field widths of a record. -/
def sumFieldWidths : List (String × Typ) → Generics → Option Int
  | [], _ => some 0
  | (_, t) :: fs, g => do
    let a ← evalWidthInt t g
    let b ← sumFieldWidths fs g
    pure (a + b)

end

mutual

/-- Every array element type in `t` has a strictly positive evaluated
width (a zero-width element makes `Array.from_slv` divide by zero). -/
def posElems : Typ → Generics → Bool
  | .carray _ sub _, g =>
    (match evalWidthInt sub g with
     | some w => decide (0 < w)
     | Option.none => false) && posElems sub g
  | .record _ fields, g => posElemsFields fields g
  | _, _ => true

def posElemsFields : List (String × Typ) → Generics → Bool
  | [], _ => true
  | (_, t) :: fs, g => posElems t g && posElemsFields fs g

end

mutual

/-- The value is of the type's shape, carries no undefined (`None`) parts,
and lies within the type's range; record values are taken in declaration
order (Python dict equality is order-insensitive, so this fixes the
canonical representative), and enumeration values are the stored
(lowercase) literals. -/
def goodVal : Typ → Generics → Val → Bool
  | .std_logic, _, v =>
    match v with
    | .int 0 => true
    | .int 1 => true
    | _ => false
  | .cslv _ size, g, v =>
    match apply_generics g size, v with
    | some (.i n), .int d => decide (0 ≤ d) && decide ((d : Rat) ≤ rat2pow n - 1)
    | _, _ => false
  | .csigned _ size, g, v =>
    match get_value size, v with
    | some (.i n), .int d =>
      decide (-(rat2pow (n - 1)) ≤ (d : Rat)) && decide ((d : Rat) ≤ rat2pow (n - 1) - 1)
    | _, _ => false
  | .carray _ sub size, g, v =>
    match apply_generics g size, v with
    | some (.i n), .list xs => decide ((xs.length : Int) = n) && goodValList sub g xs
    | _, _ => false
  | .record _ fields, g, v =>
    match v with
    | .dict entries => goodValFields fields g entries
    | _ => false
  | .enumeration _ literals, _, v =>
    match v with
    | .str s => literals.contains s && decide (pyLower s = s)
    | _ => false

def goodValList (sub : Typ) (g : Generics) : List Val → Bool
  | [] => true
  | x :: xs => goodVal sub g x && goodValList sub g xs

def goodValFields : List (String × Typ) → Generics → List (String × Val) → Bool
  | [], _, [] => true
  | (n, t) :: fs, g, (m, v) :: es => n == m && goodVal t g v && goodValFields fs g es
  | _, _, _ => false

end

/-!  ## Evaluation lemmas -/

/-- Numeric literals evaluate to themselves. -/
theorem apply_generics_num (g : Generics) (k : Int) :
    apply_generics g (.num (.i k)) = some (.i k) := rfl

mutual

/-- A ground expression (one whose `value()` succeeds) contains no
`Generic` leaves, so generic substitution leaves it unchanged. -/
theorem ground_subst (g : Generics) :
    ∀ e p, get_value e = some p → substituteGenerics g e = e
  | .str s, _, _ => rfl
  | .num _, _, _ => rfl
  | .expr _, _, h => by simp [get_value] at h
  | .unk _, _, _ => rfl
  | .func name args, p, h => by
    unfold get_value at h
    simp only [bind, Option.bind] at h
    split at h
    · exact Option.noConfusion h
    rename_i vs hv
    have := ground_subst_list g args vs hv
    simp only [substituteGenerics, this]
  | .pow n e, p, h => by
    unfold get_value at h
    simp only [bind, Option.bind] at h
    split at h
    · exact Option.noConfusion h
    rename_i v hv
    have := ground_subst g e v hv
    simp only [substituteGenerics, this]
  | .mult ps, p, h => by
    unfold get_value at h
    simp only [bind, Option.bind] at h
    split at h
    · exact Option.noConfusion h
    rename_i v hv
    have := ground_subst_pow g ps (.i 1) v hv
    simp only [substituteGenerics, this]
  | .term n e, p, h => by
    unfold get_value at h
    simp only [bind, Option.bind] at h
    split at h
    · exact Option.noConfusion h
    rename_i v hv
    have := ground_subst g e v hv
    simp only [substituteGenerics, this]
  | .add ts, p, h => by
    unfold get_value at h
    simp only [bind, Option.bind] at h
    split at h
    · exact Option.noConfusion h
    rename_i v hv
    have := ground_subst_term g ts (.i 0) v hv
    simp only [substituteGenerics, this]
  | .generic name, _, h => by simp [get_value] at h
  | .const name e, p, h => by simp only [substituteGenerics]

theorem ground_subst_list (g : Generics) :
    ∀ es ps, valueList es = some ps → substGenList g es = es
  | [], _, _ => rfl
  | e :: es, ps, h => by
    unfold valueList at h
    rcases hv : get_value e with _ | v <;> rw [hv] at h
    · exact Option.noConfusion h
    rcases hl : valueList es with _ | vs <;> rw [hl] at h
    · exact Option.noConfusion h
    have h1 := ground_subst g e v hv
    have h2 := ground_subst_list g es vs hl
    simp only [substGenList, h1, h2]

theorem ground_subst_pow (g : Generics) :
    ∀ ps acc r, powerProduct ps acc = some r → substGenPowList g ps = ps
  | [], _, _, _ => rfl
  | (n, e) :: ps, acc, r, h => by
    unfold powerProduct at h
    rcases hv : get_value e with _ | v <;> rw [hv] at h
    · exact Option.noConfusion h
    have h' : ((PyNum.pyPow v n).bind fun w => powerProduct ps (acc.mul w.asNumber)) =
        some r := h
    rcases hw : PyNum.pyPow v n with _ | w <;> rw [hw] at h'
    · exact Option.noConfusion h'
    have h1 := ground_subst g e v hv
    have h2 := ground_subst_pow g ps (acc.mul w.asNumber) r h'
    simp only [substGenPowList, h1, h2]

theorem ground_subst_term (g : Generics) :
    ∀ ts acc r, termTotal ts acc = some r → substGenTermList g ts = ts
  | [], _, _, _ => rfl
  | (n, e) :: ts, acc, r, h => by
    unfold termTotal at h
    rcases hv : get_value e with _ | v <;> rw [hv] at h
    · exact Option.noConfusion h
    have h1 := ground_subst g e v hv
    have h2 := ground_subst_term g ts (acc.add (n.mul v).asNumber) r h
    simp only [substGenTermList, h1, h2]

end

/-- For a ground size expression, `apply_generics` agrees with
`get_value`. -/
theorem apply_generics_ground (g : Generics) (e : MathItem) (p : PyNum)
    (h : get_value e = some p) : apply_generics g e = some p := by
  have hs := ground_subst g e p h
  unfold apply_generics
  rw [hs]
  exact h

/-- Width of a constrained array: the `Multiplication(size, subwidth)`
expression evaluates to the product. -/
theorem apply_generics_mult_width (g : Generics) (a b : MathItem) (n m : Int)
    (ha : apply_generics g a = some (.i n)) (hb : apply_generics g b = some (.i m)) :
    apply_generics g (.mult [(1, a), (1, b)]) = some (.i (n * m)) := by
  unfold apply_generics at *
  simp only [substituteGenerics, substGenPowList]
  unfold get_value
  unfold powerProduct
  rw [ha]
  simp only [PyNum.pyPow, if_pos (by omega : (0:Int) ≤ 1)]
  unfold powerProduct
  rw [hb]
  simp only [PyNum.pyPow, if_pos (by omega : (0:Int) ≤ 1)]
  unfold powerProduct
  simp [PyNum.asNumber, PyNum.mul, bind, Option.bind]

/-!  ## Binary encode/decode lemmas -/

/-- The character emitted for a single bit. -/
def bitChar (b : Int) : Char := if b = 1 then '1' else '0'

theorem pyBitsAcc_length (k : Nat) : ∀ d : Int, (pyBitsAcc d k).1.length = k := by
  induction k with
  | zero => intro d; rfl
  | succ k ih => intro d; simp [pyBitsAcc, ih]

theorem pyBitsAcc_bits (k : Nat) :
    ∀ d : Int, ∀ b ∈ (pyBitsAcc d k).1, b = 0 ∨ b = 1 := by
  induction k with
  | zero => intro d b hb; cases hb
  | succ k ih =>
    intro d b hb
    simp only [pyBitsAcc, List.mem_cons] at hb
    rcases hb with rfl | hb
    · exact Int.emod_two_eq d
    · exact ih _ b hb

theorem pyBitsAcc_residual (k : Nat) :
    ∀ d : Int, 0 ≤ d → d < 2 ^ k → (pyBitsAcc d k).2 = 0 := by
  induction k with
  | zero =>
    intro d h0 h1
    simp only [pyBitsAcc]
    omega
  | succ k ih =>
    intro d h0 h1
    simp only [pyBitsAcc]
    have hp : (2 : Int) ^ (k + 1) = 2 ^ k * 2 := pow_succ 2 k
    rw [Int.fdiv_eq_ediv _ (by omega)]
    exact ih (d / 2) (by omega) (by omega)

theorem stdLogicMapM_bits (g : Generics) (au : Bool) :
    ∀ bs : List Int, (∀ b ∈ bs, b = 0 ∨ b = 1) →
    stdLogicMapM bs g au = .ok (bs.map (fun b => [bitChar b])) := by
  intro bs
  induction bs with
  | nil => intro _; rfl
  | cons b bs ih =>
    intro h
    have hb := h b (by simp)
    have hbs := ih (fun x hx => h x (by simp [hx]))
    rcases hb with rfl | rfl <;>
      simp [stdLogicMapM, hbs, stdLogicToSlv, bitChar, bind, Except.bind, pure, Except.pure]

theorem join_map_singleton {α β : Type} (f : α → β) :
    ∀ l : List α, (l.map (fun b => [f b])).join = l.map f := by
  intro l
  induction l with
  | nil => rfl
  | cons a as ih => simp [ih]

/-- For non-negative widths, `pow(2, n)` agrees with the integer power. -/
theorem rat2pow_eq (n : Int) (hn : 0 ≤ n) :
    rat2pow n = ((2 ^ n.toNat : Int) : Rat) := by
  unfold rat2pow
  have h : (2 : Rat) ^ n = (2 : Rat) ^ ((n.toNat : Int)) := by
    rw [Int.toNat_of_nonneg hn]
  rw [h, zpow_natCast]
  push_cast
  ring

/-- Decoding the emitted bits with the `from_slv` fold recovers the value,
for any already-accumulated prefix `t`. -/
theorem decode_pyBits (g : Generics) (k : Nat) :
    ∀ d t : Int, 0 ≤ d → (pyBitsAcc d k).2 = 0 →
    ((pyBitsAcc d k).1.reverse.map bitChar).foldl (slvBitStep g) (some t) =
      some (t * 2 ^ k + d) := by
  induction k with
  | zero =>
    intro d t h0 hres
    simp only [pyBitsAcc] at hres
    subst hres
    simp [pyBitsAcc]
  | succ k ih =>
    intro d t h0 hres
    simp only [pyBitsAcc] at hres ⊢
    have hfd : d.fdiv 2 = d / 2 := Int.fdiv_eq_ediv _ (by omega)
    have hem : d.emod 2 = d % 2 := rfl
    rw [hfd] at hres ⊢
    rw [hem]
    simp only [List.reverse_cons, List.map_append, List.foldl_append]
    rw [ih (d / 2) t (by positivity) hres]
    have hb : d % 2 = 0 ∨ d % 2 = 1 := Int.emod_two_eq d
    have hstep : slvBitStep g (some (t * 2 ^ k + d / 2)) (bitChar (d % 2)) =
        some ((t * 2 ^ k + d / 2) * 2 + d % 2) := by
      rcases hb with hb | hb <;>
        simp [hb, slvBitStep, stdLogicFromSlv, bitChar]
    simp only [List.map_cons, List.map_nil, List.foldl_cons, List.foldl_nil, hstep]
    have hp : (2 : Int) ^ (k + 1) = 2 ^ k * 2 := pow_succ 2 k
    have h2 : 2 * (d / 2) + d % 2 = d := by omega
    rw [hp]
    congr 1
    linear_combination h2

/-- `ConstrainedStdLogicVector.to_slv` on an in-range integer emits the
big-endian bits. -/
theorem cslvToSlv_int (id : Option String) (size : MathItem) (g : Generics)
    (au : Bool) (n d : Int) (hsize : apply_generics g size = some (.i n))
    (hn : 0 ≤ n) (h0 : 0 ≤ d) (h1 : (d : Rat) ≤ rat2pow n - 1) :
    cslvToSlv id size (.int d) g au =
      .ok ((pyBitsAcc d n.toNat).1.reverse.map bitChar) := by
  have hd2 : d < 2 ^ n.toNat := by
    have := rat2pow_eq n hn
    rw [this] at h1
    have : (d : Rat) ≤ ((2 ^ n.toNat : Int) : Rat) - 1 := h1
    have h2 : (d : Rat) < ((2 ^ n.toNat : Int) : Rat) := by linarith
    exact_mod_cast h2
  have hres := pyBitsAcc_residual n.toNat d h0 hd2
  unfold cslvToSlv evalToInt
  rw [hsize]
  simp only [bind, Except.bind, PyNum.trunc]
  have hrange : ¬ ((d : Rat) < 0 ∨ rat2pow n - 1 < (d : Rat)) := by
    push_neg
    constructor
    · exact_mod_cast h0
    · exact h1
  rw [if_neg hrange]
  rw [if_neg (by simp [hres])]
  rw [stdLogicMapM_bits g au ((pyBitsAcc d n.toNat).1.reverse)
    (fun b hb => pyBitsAcc_bits n.toNat d b (List.mem_reverse.mp hb))]
  simp only [bind, Except.bind, pure, Except.pure]
  rw [join_map_singleton]

/-- Decoding the output of the integer path of
`ConstrainedStdLogicVector.to_slv` recovers the integer. -/
theorem cslvFromSlv_bits (g : Generics) (k : Nat) (d : Int) (h0 : 0 ≤ d)
    (h1 : d < 2 ^ k) :
    cslvFromSlv ((pyBitsAcc d k).1.reverse.map bitChar) g = .int d := by
  unfold cslvFromSlv
  rw [decode_pyBits g k d 0 h0 (pyBitsAcc_residual k d h0 h1)]
  simp

theorem uintBits_length (k : Nat) : ∀ u : Int, (uintBits u k).length = k := by
  induction k with
  | zero => intro u; rfl
  | succ k ih => intro u; simp [uintBits, ih]

/-- The `slv_to_uint` fold over the little-endian bits of `u`. -/
theorem slvUint_fold (k : Nat) :
    ∀ u t f : Int, 0 ≤ u → u < 2 ^ k →
    (uintBits u k).foldl slvUintStep (some t, f) = (some (t + u * f), f * 2 ^ k) := by
  induction k with
  | zero =>
    intro u t f h0 h1
    have : u = 0 := by omega
    subst this
    simp [uintBits]
  | succ k ih =>
    intro u t f h0 h1
    have hfd : u.fdiv 2 = u / 2 := Int.fdiv_eq_ediv _ (by omega)
    have hem : u.emod 2 = u % 2 := rfl
    have hp : (2 : Int) ^ (k + 1) = 2 ^ k * 2 := pow_succ 2 k
    simp only [uintBits, List.foldl_cons, hfd, hem]
    have hb : u % 2 = 0 ∨ u % 2 = 1 := Int.emod_two_eq u
    have hstep : slvUintStep (some t, f) (if u % 2 != 0 then '1' else '0') =
        (some (t + u % 2 * f), f * 2) := by
      rcases hb with hb | hb <;>
        simp [hb, slvUintStep]
    rw [hstep]
    rw [ih (u / 2) (t + u % 2 * f) (f * 2) (by omega) (by omega)]
    have hu : 2 * (u / 2) + u % 2 = u := by omega
    rw [hp, Prod.mk.injEq]
    constructor
    · congr 1
      linear_combination f * hu
    · ring

/-- `slv_to_uint` inverts `uint_to_slv` for in-range values. -/
theorem slv_to_uint_uintBits (k : Nat) (u : Int) (h0 : 0 ≤ u) (h1 : u < 2 ^ k) :
    slv_to_uint (uintBits u k).reverse = some u := by
  unfold slv_to_uint
  rw [List.reverse_reverse]
  rw [slvUint_fold k u 0 1 h0 h1]
  simp

/-!  ## Width-evaluation lemmas -/

theorem evalWidthInt_std (g : Generics) : evalWidthInt .std_logic g = some 1 := rfl

theorem evalWidthInt_enum (g : Generics) (id : Option String) (lits : List String) :
    evalWidthInt (.enumeration id lits) g = some (logceilNat lits.length) := rfl

theorem evalWidthInt_cslv (g : Generics) (id : Option String) (size : MathItem)
    (n : Int) (h : apply_generics g size = some (.i n)) :
    evalWidthInt (.cslv id size) g = some n := by
  simp [evalWidthInt, widthOf, Option.bind, h]

theorem evalWidthInt_csigned (g : Generics) (id : Option String) (size : MathItem)
    (n : Int) (h : get_value size = some (.i n)) :
    evalWidthInt (.csigned id size) g = some n := by
  simp [evalWidthInt, widthOf, Option.bind, apply_generics_ground g size _ h]

theorem evalWidthInt_carray (g : Generics) (id : Option String) (sub : Typ)
    (size ws : MathItem) (n m : Int) (h1 : widthOf sub = some ws)
    (h2 : apply_generics g ws = some (.i m))
    (h3 : apply_generics g size = some (.i n)) :
    evalWidthInt (.carray id sub size) g = some (n * m) := by
  simp [evalWidthInt, widthOf, h1, Option.bind, bind,
    apply_generics_mult_width g size ws n m h3 h2]

/-- A well-formed type has an evaluable integer width. -/
theorem goodTyp_evalWidth :
    ∀ N t g, tsize t ≤ N → goodTyp t g = true → ∃ w, evalWidthInt t g = some w := by
  intro N
  induction N with
  | zero =>
    intro t g ht
    cases t <;> simp [tsize, tsizeFields] at ht
  | succ N ihN =>
    intro t g ht hgood
    cases t with
    | std_logic => exact ⟨1, evalWidthInt_std g⟩
    | enumeration id lits => exact ⟨_, evalWidthInt_enum g id lits⟩
    | cslv id size =>
      unfold goodTyp at hgood
      split at hgood
      · rename_i n hn
        exact ⟨n, evalWidthInt_cslv g id size n hn⟩
      · exact absurd hgood (by simp)
    | csigned id size =>
      unfold goodTyp at hgood
      split at hgood
      · rename_i n hn
        exact ⟨n, evalWidthInt_csigned g id size n hn⟩
      · exact absurd hgood (by simp)
    | carray id sub size =>
      unfold goodTyp at hgood
      rw [Bool.and_eq_true] at hgood
      obtain ⟨hsz, hsub⟩ := hgood
      have hsub' := ihN sub g (by simp [tsize] at ht; omega) hsub
      obtain ⟨m, hm⟩ := hsub'
      unfold evalWidthInt at hm
      rcases hws : widthOf sub with _ | ws <;> rw [hws] at hm
      · simp at hm
      split at hm
      · rename_i p hp
        cases hm
        split at hsz
        · rename_i n hn
          exact ⟨n * m, evalWidthInt_carray g id sub size ws n m hws (by
            simp only [Option.bind] at hp
            exact hp) hn⟩
        · exact absurd hsz (by simp)
      · exact Option.noConfusion hm
    | record id fields =>
      unfold goodTyp at hgood
      rw [Bool.and_eq_true, Bool.and_eq_true] at hgood
      obtain ⟨⟨hnd, hfs⟩, hcons⟩ := hgood
      split at hcons
      · rename_i w sw hw hsw
        exact ⟨w, hw⟩
      · exact absurd hcons (by simp)

/-!  ## Slicing lemmas -/

/-- Splitting off an exactly-width suffix. -/
theorem reduceSplit_append (pre s : Slv) (w : Int) (hw : 0 ≤ w)
    (hs : (s.length : Int) = w) : reduceSplit (pre ++ s) w = (s, pre) := by
  unfold reduceSplit
  by_cases h0 : w = 0
  · subst h0
    have : s = [] := by
      cases s with
      | nil => rfl
      | cons a as => exfalso; simp only [List.length_cons] at hs; push_cast at hs; omega
    subst this
    simp
  · rw [if_neg h0, if_pos (by omega)]
    have hlen : s.length = w.toNat := by omega
    have harith : (pre ++ s).length - w.toNat = pre.length := by
      simp [List.length_append]
      omega
    rw [harith]
    rw [List.drop_left, List.take_left]

/-- `n ≤ 2 ^ logceil(n)`. -/
theorem logceilNat_ge (n : Nat) : n ≤ 2 ^ logceilNat n := by
  unfold logceilNat
  split
  · omega
  · exact Nat.le_pow_clog (by norm_num) n

/-!  ## Output-length lemmas -/

theorem stdLogicToSlv_length (v : Val) (g : Generics) (au : Bool) (s : Slv)
    (h : stdLogicToSlv v g au = .ok s) : s.length = 1 := by
  unfold stdLogicToSlv at h
  split at h
  · cases h; rfl
  · cases h; rfl
  · split at h
    · cases h; rfl
    · exact Except.noConfusion h
  · exact Except.noConfusion h

theorem stdLogicMapM_join_length (g : Generics) (au : Bool) :
    ∀ (bs : List Int) (ss : List Slv), stdLogicMapM bs g au = .ok ss →
      ss.join.length = bs.length := by
  intro bs
  induction bs with
  | nil =>
    intro ss h
    simp only [stdLogicMapM, pure, Except.pure] at h
    cases h
    rfl
  | cons b rest ih =>
    intro ss h
    rcases hs : stdLogicToSlv (.int b) g au with e | s1 <;>
      simp only [stdLogicMapM, hs, bind, Except.bind] at h
    · exact Except.noConfusion h
    rcases hr : stdLogicMapM rest g au with e | ss' <;> rw [hr] at h
    · exact Except.noConfusion h
    simp only [pure, Except.pure] at h
    cases h
    have hj : (s1 :: ss').join = s1 ++ ss'.join := rfl
    rw [hj, List.length_append, stdLogicToSlv_length _ g au s1 hs, ih ss' hr]
    simp [Nat.add_comm]

theorem cslvToSlv_length (id : Option String) (size : MathItem) (g : Generics)
    (au : Bool) (n : Int) (v : Val) (s : Slv)
    (hsize : apply_generics g size = some (.i n)) (hn : 0 ≤ n)
    (h : cslvToSlv id size v g au = .ok s) : (s.length : Int) = n := by
  unfold cslvToSlv evalToInt at h
  rw [hsize] at h
  cases v with
  | none =>
    have h' : (if au then pure (uFill n) else Except.error PyError.assertionError :
        Except PyError Slv) = Except.ok s := h
    split at h'
    · simp only [pure, Except.pure] at h'
      cases h'
      simp only [uFill, List.length_replicate]
      omega
    · exact Except.noConfusion h'
  | int d =>
    have h' : (if (d : Rat) < 0 ∨ rat2pow n - 1 < (d : Rat) then
          Except.error (PyError.slv (.range d 0 (rat2pow n - 1) id))
        else if (pyBitsAcc d n.toNat).2 ≠ 0 then Except.error PyError.assertionError
        else Except.bind (stdLogicMapM (pyBitsAcc d n.toNat).1.reverse g au)
          (fun pieces => pure pieces.join) : Except PyError Slv) = Except.ok s := h
    split at h'
    · exact Except.noConfusion h'
    split at h'
    · exact Except.noConfusion h'
    rcases hm : stdLogicMapM (pyBitsAcc d n.toNat).1.reverse g au with e | ss <;>
      rw [hm] at h' <;> simp only [Except.bind, pure, Except.pure] at h'
    · exact Except.noConfusion h'
    cases h'
    have hj := stdLogicMapM_join_length g au _ ss hm
    rw [hj]
    simp only [List.length_reverse, pyBitsAcc_length]
    omega
  | str s0 => exact Except.noConfusion h
  | list xs => exact Except.noConfusion h
  | dict es => exact Except.noConfusion h

theorem csignedToSlv_length (id : Option String) (size : MathItem)
    (g : Generics) (au : Bool) (m : Int) (v : Val) (s : Slv)
    (hsize : get_value size = some (.i m)) (hm : 0 ≤ m)
    (h : csignedToSlv id size v g au = .ok s) : (s.length : Int) = m := by
  have hag := apply_generics_ground g size _ hsize
  unfold csignedToSlv at h
  rw [hag] at h
  cases v with
  | none =>
    have h' : (if au then pure (uFill m) else Except.error PyError.assertionError :
        Except PyError Slv) = Except.ok s := h
    split at h'
    · simp only [pure, Except.pure] at h'
      cases h'
      simp only [uFill, List.length_replicate]
      omega
    · exact Except.noConfusion h'
  | int d =>
    rw [hsize] at h
    have h' : (if (d : Rat) < -(rat2pow (m - 1)) ∨ rat2pow (m - 1) - 1 < (d : Rat) then
          Except.error (PyError.slv
            (.range d (-(rat2pow (m - 1))) (rat2pow (m - 1) - 1) id))
        else Except.bind (if d < 0 then pure (d + 2 ^ m.toNat) else pure d)
          (fun d2 => cslvToSlv id size (.int d2) g au) :
        Except PyError Slv) = Except.ok s := h
    split at h'
    · exact Except.noConfusion h'
    split at h' <;>
      simp only [pure, Except.pure, Except.bind] at h' <;>
      exact cslvToSlv_length id size g au m _ s hag hm h'
  | str s0 => exact Except.noConfusion h
  | list xs => exact Except.noConfusion h
  | dict es => exact Except.noConfusion h

theorem enumToSlv_length (lits : List String) (v : Val) (au : Bool) (s : Slv)
    (h : enumToSlv lits v au = .ok s) : s.length = logceilNat lits.length := by
  unfold enumToSlv at h
  cases v with
  | none =>
    have h' : (if au then Except.ok (uFill (logceilNat lits.length))
        else Except.error PyError.assertionError : Except PyError Slv) =
        Except.ok s := h
    split at h'
    · cases h'
      simp [uFill]
    · exact Except.noConfusion h'
  | str s0 =>
    have h' : (if lits.contains (pyLower s0) then
          uint_to_slv (some ((lits.indexOf (pyLower s0) : Nat) : Int))
            (logceilNat lits.length) au
        else Except.error (PyError.slv (.enumMissing (pyLower s0) lits)) :
        Except PyError Slv) = Except.ok s := h
    split at h'
    · unfold uint_to_slv at h'
      cases h'
      simp [uintBits_length]
    · exact Except.noConfusion h'
  | int d => exact Except.noConfusion h
  | list xs => exact Except.noConfusion h
  | dict es => exact Except.noConfusion h

theorem evalWidthInt_elim (t : Typ) (g : Generics) (w : Int)
    (h : evalWidthInt t g = some w) :
    ∃ ws, widthOf t = some ws ∧ apply_generics g ws = some (.i w) := by
  unfold evalWidthInt at h
  rcases hw : widthOf t with _ | ws <;> rw [hw] at h
  · simp at h
  · simp only [Option.some_bind] at h
    split at h
    · rename_i p hp
      cases h
      exact ⟨ws, rfl, hp⟩
    · exact Option.noConfusion h

theorem join_reverse_length {α : Type} (l : List (List α)) :
    l.reverse.join.length = l.join.length := by
  simp [List.length_join, List.map_reverse, List.sum_reverse]

/-- Field loop: the joined per-field encodings have total length the sum of
the evaluated field widths. -/
theorem fieldsToSlv_length_aux (N : Nat)
    (ih : ∀ t', tsize t' ≤ N → ∀ g v au s, goodTyp t' g = true →
      toSlv t' v g au = .ok s →
      ∃ w, evalWidthInt t' g = some w ∧ (s.length : Int) = w) :
    ∀ fs : List (String × Typ), tsizeFields fs ≤ N →
      ∀ (id : Option String) (entries : List (String × Val)) g au ss,
      goodFields fs g = true →
      fieldsToSlv id fs entries g au = .ok ss →
      ∃ sw, sumFieldWidths fs g = some sw ∧ (ss.join.length : Int) = sw := by
  intro fs
  induction fs with
  | nil =>
    intro _ id entries g au ss _ h
    simp only [fieldsToSlv, pure, Except.pure] at h
    cases h
    exact ⟨0, rfl, rfl⟩
  | cons f fs ihf =>
    obtain ⟨name, sub⟩ := f
    intro hsz id entries g au ss hgood h
    simp only [goodFields, Bool.and_eq_true] at hgood
    obtain ⟨hgsub, hgfs⟩ := hgood
    rcases ht : toSlv sub ((entries.lookup name).getD Val.none) g au with e | s1
    · exfalso
      cases e <;>
        simp only [fieldsToSlv, ht, bind, Except.bind] at h <;>
        exact Except.noConfusion h
    · simp only [fieldsToSlv, ht, bind, Except.bind, pure, Except.pure] at h
      rcases hr : fieldsToSlv id fs entries g au with e | ss' <;> rw [hr] at h
      · exact Except.noConfusion h
      simp only [pure, Except.pure] at h
      cases h
      have hszf : tsizeFields ((name, sub) :: fs) = tsize sub + tsizeFields fs + 1 := rfl
      obtain ⟨w1, hw1, hl1⟩ := ih sub (by omega) g _ au s1 hgsub ht
      obtain ⟨sw, hsw, hl2⟩ := ihf (by omega) id entries g au ss' hgfs hr
      refine ⟨w1 + sw, ?_, ?_⟩
      · simp only [sumFieldWidths, hw1, hsw]
        rfl
      · have hj : (s1 :: ss').join = s1 ++ ss'.join := rfl
        rw [hj, List.length_append]
        push_cast
        omega

/-- Element loop: the joined per-element encodings have total length the
element count times the element width. -/
theorem elemsToSlv_length_aux (N : Nat)
    (ih : ∀ t', tsize t' ≤ N → ∀ g v au s, goodTyp t' g = true →
      toSlv t' v g au = .ok s →
      ∃ w, evalWidthInt t' g = some w ∧ (s.length : Int) = w)
    (sub : Typ) (hsub : tsize sub ≤ N) (g : Generics) (au : Bool)
    (hgood : goodTyp sub g = true) (w : Int)
    (hw : evalWidthInt sub g = some w) :
    ∀ (xs : List Val) (ss : List Slv), elemsToSlv sub xs g au = .ok ss →
      (ss.join.length : Int) = (xs.length : Int) * w := by
  intro xs
  induction xs with
  | nil =>
    intro ss h
    simp only [elemsToSlv, pure, Except.pure] at h
    cases h
    simp
  | cons x xs ihx =>
    intro ss h
    rcases ht : toSlv sub x g au with e | s1 <;>
      simp only [elemsToSlv, ht, bind, Except.bind] at h
    · exact Except.noConfusion h
    rcases hr : elemsToSlv sub xs g au with e | ss' <;> rw [hr] at h
    · exact Except.noConfusion h
    simp only [pure, Except.pure] at h
    cases h
    obtain ⟨w1, hw1, hl1⟩ := ih sub hsub g x au s1 hgood ht
    rw [hw] at hw1
    cases hw1
    have hl2 := ihx ss' hr
    have hj : (s1 :: ss').join = s1 ++ ss'.join := rfl
    rw [hj, List.length_append, List.length_cons]
    push_cast
    rw [hl1, hl2]
    ring

/-- Record body: once the unknown-field check passes, the joined reversed
field encodings have total length the sum of field widths. -/
theorem record_entries_length_aux (N : Nat)
    (ih : ∀ t', tsize t' ≤ N → ∀ g v au s, goodTyp t' g = true →
      toSlv t' v g au = .ok s →
      ∃ w, evalWidthInt t' g = some w ∧ (s.length : Int) = w)
    (fields : List (String × Typ)) (htf : tsizeFields fields ≤ N)
    (id : Option String) (entries : List (String × Val)) (g : Generics)
    (au : Bool) (s : Slv) (sw : Int)
    (hfs : goodFields fields g = true)
    (hsw : sumFieldWidths fields g = some sw)
    (hok : (if ((entries.map Prod.fst).filter
          (fun k => !((fields.map Prod.fst).contains k))) ≠ [] then
          Except.error (PyError.slv (.unknownElems ((entries.map Prod.fst).filter
            (fun k => !((fields.map Prod.fst).contains k))) id))
        else Except.bind (fieldsToSlv id fields entries g au)
          (fun slvs => pure slvs.reverse.join)) = Except.ok s) :
    (s.length : Int) = sw := by
  split at hok
  · exact Except.noConfusion hok
  rcases hfl : fieldsToSlv id fields entries g au with e | slvs <;>
    rw [hfl] at hok <;> simp only [Except.bind, pure, Except.pure] at hok
  · exact Except.noConfusion hok
  cases hok
  obtain ⟨sw', hsw', hl⟩ := fieldsToSlv_length_aux N ih fields htf id entries
    g au slvs hfs hfl
  rw [hsw] at hsw'
  cases hsw'
  rw [join_reverse_length slvs]
  exact hl

/-- `to_slv` output length equals the evaluated width, for every value it
accepts. -/
theorem toSlv_length_aux :
    ∀ N t, tsize t ≤ N → ∀ g v au s, goodTyp t g = true →
      toSlv t v g au = .ok s →
      ∃ w, evalWidthInt t g = some w ∧ (s.length : Int) = w := by
  intro N
  induction N with
  | zero =>
    intro t ht
    cases t <;> simp [tsize, tsizeFields] at ht
  | succ N ihN =>
    intro t ht g v au s hgood hok
    cases t with
    | std_logic =>
      simp only [toSlv] at hok
      refine ⟨1, evalWidthInt_std g, ?_⟩
      rw [stdLogicToSlv_length v g au s hok]
      rfl
    | cslv id size =>
      simp only [toSlv] at hok
      unfold goodTyp at hgood
      split at hgood
      · rename_i n hn
        rw [decide_eq_true_eq] at hgood
        exact ⟨n, evalWidthInt_cslv g id size n hn,
          cslvToSlv_length id size g au n v s hn hgood hok⟩
      · exact absurd hgood (by simp)
    | csigned id size =>
      simp only [toSlv] at hok
      unfold goodTyp at hgood
      split at hgood
      · rename_i m hm
        rw [decide_eq_true_eq] at hgood
        exact ⟨m, evalWidthInt_csigned g id size m hm,
          csignedToSlv_length id size g au m v s hm hgood hok⟩
      · exact absurd hgood (by simp)
    | carray id sub size =>
      unfold goodTyp at hgood
      rw [Bool.and_eq_true] at hgood
      obtain ⟨hsz, hsub⟩ := hgood
      have hszn : ∃ n, apply_generics g size = some (.i n) ∧ 0 ≤ n := by
        split at hsz
        · rename_i n hn
          rw [decide_eq_true_eq] at hsz
          exact ⟨n, hn, hsz⟩
        · exact absurd hsz (by simp)
      obtain ⟨n, hn, hn0⟩ := hszn
      have htsub : tsize sub ≤ N := by
        simp only [tsize] at ht
        omega
      obtain ⟨m, hm⟩ := goodTyp_evalWidth N sub g htsub hsub
      obtain ⟨ws, hws, hwsm⟩ := evalWidthInt_elim sub g m hm
      refine ⟨n * m, evalWidthInt_carray g id sub size ws n m hws hwsm hn, ?_⟩
      simp only [toSlv, hn, bind, Except.bind, pure, Except.pure] at hok
      rcases hdata2 : (match v with
        | .none =>
          match PyNum.i n with
          | PyNum.i n => pure (Val.list (List.replicate n.toNat Val.none))
          | PyNum.f _ => Except.error PyError.typeError
        | d => pure d : Except PyError Val) with e | data2
      · exfalso
        cases v <;> simp only [pure, Except.pure] at hdata2 <;>
          exact Except.noConfusion hdata2
      have hok2 : (match pyLen data2 with
          | Option.none => Except.error (.slv (.noLength (PyNum.i n).toRat))
          | some l =>
            if (l : Rat) ≠ (PyNum.i n).toRat then
              Except.error (.slv (.lengthMismatch l (PyNum.i n).toRat))
            else arrayToSlv sub data2 g au) = Except.ok s := by
        cases v <;> simp only [pure, Except.pure] at hdata2 hok <;>
          (try cases hdata2) <;> exact hok
      clear hok hdata2
      rcases hlen : pyLen data2 with _ | l <;> rw [hlen] at hok2
      · exact Except.noConfusion hok2
      have hok3 : (if (l : Rat) ≠ (PyNum.i n).toRat then
            Except.error (PyError.slv (.lengthMismatch l (PyNum.i n).toRat))
          else arrayToSlv sub data2 g au) = Except.ok s := hok2
      clear hok2
      split at hok3
      · exact Except.noConfusion hok3
      · rename_i hleq
        have hleq' : (l : Rat) = (PyNum.i n).toRat := by
          by_contra hne
          exact hleq hne
        have hlen_n : l = n := by
          have h5 : (l : Rat) = (n : Rat) := hleq'
          exact_mod_cast h5
        subst hlen_n
        cases data2 with
        | str s0 =>
          simp only [arrayToSlv, bind, Except.bind] at hok3
          rcases he : elemsToSlv sub (s0.toList.reverse.map
              (fun c => Val.str (String.mk [c]))) g au with e | ss <;>
            rw [he] at hok3
          · exact Except.noConfusion hok3
          simp only [pure, Except.pure] at hok3
          cases hok3
          have := elemsToSlv_length_aux N (fun t' ht' => ihN t' ht') sub htsub
            g au hsub m hm _ ss he
          simp only [List.length_map, List.length_reverse] at this
          rw [this]
          have hlchars : (s0.toList.length : Int) = l := by
            simp only [pyLen] at hlen
            cases hlen
            rfl
          rw [hlchars]
        | list xs =>
          simp only [arrayToSlv, bind, Except.bind] at hok3
          rcases he : elemsToSlv sub xs.reverse g au with e | ss <;>
            rw [he] at hok3
          · exact Except.noConfusion hok3
          simp only [pure, Except.pure] at hok3
          cases hok3
          have := elemsToSlv_length_aux N (fun t' ht' => ihN t' ht') sub htsub
            g au hsub m hm _ ss he
          simp only [List.length_reverse] at this
          rw [this]
          have hlelems : (xs.length : Int) = l := by
            simp only [pyLen] at hlen
            cases hlen
            rfl
          rw [hlelems]
        | none => simp [pyLen] at hlen
        | int d => simp [pyLen] at hlen
        | dict es => simp only [arrayToSlv] at hok3; exact Except.noConfusion hok3
    | record id fields =>
      unfold goodTyp at hgood
      rw [Bool.and_eq_true, Bool.and_eq_true] at hgood
      obtain ⟨⟨hnd, hfs⟩, hcons⟩ := hgood
      have hconsE : ∃ w sw, evalWidthInt (.record id fields) g = some w ∧
          sumFieldWidths fields g = some sw ∧ w = sw := by
        split at hcons
        · rename_i w sw hw hsw
          rw [decide_eq_true_eq] at hcons
          exact ⟨w, sw, hw, hsw, hcons⟩
        · exact absurd hcons (by simp)
      obtain ⟨w, sw, hw, hsw, hwsw⟩ := hconsE
      refine ⟨w, hw, ?_⟩
      have htf : tsizeFields fields ≤ N := by
        simp only [tsize] at ht
        omega
      rw [hwsw]
      cases v with
      | none =>
        simp only [toSlv] at hok
        exact record_entries_length_aux N (fun t' ht' => ihN t' ht') fields htf
          id [] g au s sw hfs hsw hok
      | dict es =>
        simp only [toSlv] at hok
        exact record_entries_length_aux N (fun t' ht' => ihN t' ht') fields htf
          id es g au s sw hfs hsw hok
      | int d => simp [toSlv, bind, Except.bind] at hok
      | str s0 => simp [toSlv, bind, Except.bind] at hok
      | list xs => simp [toSlv, bind, Except.bind] at hok
    | enumeration id lits =>
      simp only [toSlv] at hok
      refine ⟨logceilNat lits.length, evalWidthInt_enum g id lits, ?_⟩
      rw [enumToSlv_length lits v au s hok]

/-!  ## Round-trip support lemmas -/

/-- Assigning a fresh key appends it at the end of the dict. -/
theorem dictAssign_notMem (k : String) (v : Val) :
    ∀ acc : List (String × Val), (∀ q ∈ acc, q.1 ≠ k) →
    dictAssign acc k v = acc ++ [(k, v)] := by
  intro acc
  induction acc with
  | nil => intro _; rfl
  | cons q acc ih =>
    intro h
    have hq : q.1 ≠ k := h q (by simp)
    simp only [dictAssign, if_neg hq, List.cons_append, List.cons.injEq, true_and]
    exact ih (fun r hr => h r (by simp [hr]))

/-- An order-canonical record value lists exactly the field names. -/
theorem goodValFields_names :
    ∀ (fs : List (String × Typ)) (g : Generics) (es : List (String × Val)),
    goodValFields fs g es = true → es.map Prod.fst = fs.map Prod.fst := by
  intro fs
  induction fs with
  | nil =>
    intro g es h
    cases es with
    | nil => rfl
    | cons e es => simp [goodValFields] at h
  | cons f fs ih =>
    obtain ⟨n, t⟩ := f
    intro g es h
    cases es with
    | nil => simp [goodValFields] at h
    | cons e es =>
      obtain ⟨m, v⟩ := e
      simp only [goodValFields, Bool.and_eq_true, beq_iff_eq] at h
      obtain ⟨⟨hnm, _⟩, hrest⟩ := h
      simp only [List.map_cons, hnm, List.cons.injEq, true_and]
      exact ih g es hrest

/-- A join of equal-width blocks has length `count * width`. -/
theorem blocks_join_length (m : Int) :
    ∀ ss : List Slv, (∀ p ∈ ss, (p.length : Int) = m) →
    (ss.join.length : Int) = (ss.length : Int) * m := by
  intro ss
  induction ss with
  | nil => intro _; simp
  | cons p ss ih =>
    intro h
    have hp : (p.length : Int) = m := h p (by simp)
    have hss := ih (fun q hq => h q (by simp [hq]))
    have hj : (p :: ss).join = p ++ ss.join := rfl
    rw [hj, List.length_append, List.length_cons]
    push_cast
    rw [hp, hss]
    ring

/-- Slicing block `i` back out of a join of equal-width blocks. -/
theorem pySlice_join (m : Int) (hm : 0 < m) :
    ∀ (i : Nat) (ss : List Slv), (∀ p ∈ ss, (p.length : Int) = m) →
    ∀ (h : i < ss.length),
    pySlice ss.join ((i : Int) * m) (((i : Int) + 1) * m) = ss.get ⟨i, h⟩ := by
  intro i
  induction i with
  | zero =>
    intro ss hall h
    cases ss with
    | nil => cases h
    | cons p ss =>
      have hp : (p.length : Int) = m := hall p (by simp)
      have hj : (p :: ss).join = p ++ ss.join := rfl
      show pySlice (p :: ss).join (0 * m) ((0 + 1) * m) = p
      rw [hj]
      unfold pySlice
      have e0 : ((0 : Int) * m).toNat = 0 := by simp
      have e1 : ((0 : Int) + 1) * m - 0 * m = m := by ring
      rw [e0, e1, List.drop_zero]
      exact List.take_left' (by omega)
  | succ i ih =>
    intro ss hall h
    cases ss with
    | nil => cases h
    | cons p ss =>
      have hp : (p.length : Int) = m := hall p (by simp)
      have hall' : ∀ q ∈ ss, (q.length : Int) = m := fun q hq => hall q (by simp [hq])
      have h' : i < ss.length := by
        simp only [List.length_cons] at h
        omega
      have hget : (p :: ss).get ⟨i + 1, h⟩ = ss.get ⟨i, h'⟩ := rfl
      rw [hget]
      rw [← ih ss hall' h']
      unfold pySlice
      have hj : (p :: ss).join = p ++ ss.join := rfl
      rw [hj]
      have hc : ((i + 1 : Nat) : Int) = (i : Int) + 1 := by push_cast; ring
      rw [hc]
      have hA : 0 ≤ (i : Int) * m := by positivity
      have hsum : ((i : Nat) + 1 : Int) * m = (i : Int) * m + m := by push_cast; ring
      have htn : (((i : Nat) + 1 : Int) * m).toNat = p.length + ((i : Int) * m).toNat := by
        omega
      have e1 : (((i : Nat) + 1 : Int) + 1) * m - ((i : Nat) + 1 : Int) * m = m := by
        ring
      have e2 : ((i : Int) + 1) * m - (i : Int) * m = m := by ring
      rw [e1, e2]
      have hdrop : (p ++ ss.join).drop ((((i : Nat) + 1 : Int)) * m).toNat =
          ss.join.drop (((i : Int)) * m).toNat := by
        rw [htn, ← List.drop_drop, List.drop_left]
      rw [hdrop]

/-- Slicing a join of `ss.length` equal-width blocks yields `ss` itself. -/
theorem pySlice_join_all (m : Int) (hm : 0 < m) (ss : List Slv)
    (hall : ∀ p ∈ ss, (p.length : Int) = m) :
    (List.range ss.length).map
      (fun (i : Nat) => pySlice ss.join ((i : Int) * m) (((i : Int) + 1) * m)) = ss := by
  apply List.ext_get
  · simp
  · intro i h1 h2
    simp only [List.get_map, List.get_range]
    exact pySlice_join m hm i ss hall (by simpa using h2)

/-- Decoding pieces that each decode cleanly. -/
theorem piecesFromSlv_ok (sub : Typ) (g : Generics) :
    ∀ (ss : List Slv) (vs : List Val),
    List.Forall₂ (fun p v => fromSlv sub p g = .ok v) ss vs →
    piecesFromSlv sub ss g = .ok vs := by
  intro ss vs h
  induction h with
  | nil => simp only [piecesFromSlv]; rfl
  | cons hpv _ ih =>
    simp only [piecesFromSlv, hpv, ih, bind, Except.bind, pure, Except.pure]

/-- Encode/decode round trip for the constrained vector codec. -/
theorem cslv_rt (id : Option String) (size : MathItem) (g : Generics)
    (au : Bool) (n d : Int) (hsize : apply_generics g size = some (.i n))
    (hn : 0 ≤ n) (h0 : 0 ≤ d) (h1 : (d : Rat) ≤ rat2pow n - 1) :
    ∃ s, cslvToSlv id size (.int d) g au = .ok s ∧
      cslvFromSlv s g = .int d ∧ (s.length : Int) = n := by
  have hd2 : d < 2 ^ n.toNat := by
    rw [rat2pow_eq n hn] at h1
    have h2 : (d : Rat) < ((2 ^ n.toNat : Int) : Rat) := by linarith
    exact_mod_cast h2
  refine ⟨(pyBitsAcc d n.toNat).1.reverse.map bitChar,
    cslvToSlv_int id size g au n d hsize hn h0 h1,
    cslvFromSlv_bits g n.toNat d h0 hd2, ?_⟩
  simp only [List.length_map, List.length_reverse, pyBitsAcc_length]
  omega

/-- Encode/decode round trip for the enumeration codec. -/
theorem enum_rt (lits : List String) (lit : String) (au : Bool)
    (hmem : lits.contains lit = true) (hlow : pyLower lit = lit) :
    ∃ s, enumToSlv lits (.str lit) au = .ok s ∧
      (∀ pre : Slv, enumReduceSlv lits (pre ++ s) = .ok (.str lit, pre)) ∧
      s.length = logceilNat lits.length := by
  have hmem' : lit ∈ lits := List.mem_of_elem_eq_true hmem
  have hidx : lits.indexOf lit < lits.length := List.indexOf_lt_length.mpr hmem'
  have hlt2 : lits.indexOf lit < 2 ^ logceilNat lits.length :=
    lt_of_lt_of_le hidx (logceilNat_ge _)
  refine ⟨(uintBits ((lits.indexOf lit : Nat) : Int) (logceilNat lits.length)).reverse,
    ?_, ?_, by simp [uintBits_length]⟩
  · unfold enumToSlv
    show (if lits.contains (pyLower lit) then
        uint_to_slv (some ((lits.indexOf (pyLower lit) : Nat) : Int))
          (logceilNat lits.length) au
      else Except.error (PyError.slv (.enumMissing (pyLower lit) lits))) =
      Except.ok (uintBits ((lits.indexOf lit : Nat) : Int)
        (logceilNat lits.length)).reverse
    rw [hlow, hmem]
    rfl
  · intro pre
    simp only [enumReduceSlv]
    have hslen : ((uintBits ((lits.indexOf lit : Nat) : Int)
        (logceilNat lits.length)).reverse).length = logceilNat lits.length := by
      simp [uintBits_length]
    have harith : (pre ++ (uintBits ((lits.indexOf lit : Nat) : Int)
        (logceilNat lits.length)).reverse).length - logceilNat lits.length =
        pre.length := by
      rw [List.length_append, hslen]
      omega
    rw [harith, List.drop_left, List.take_left]
    rw [slv_to_uint_uintBits (logceilNat lits.length) _ (by positivity)
      (by exact_mod_cast hlt2)]
    have hcond : (((lits.indexOf lit : Nat) : Int)).toNat < lits.length ∧
        (0 : Int) ≤ ((lits.indexOf lit : Nat) : Int) := by
      constructor
      · simpa using hidx
      · positivity
    show (if h : (((lits.indexOf lit : Nat) : Int)).toNat < lits.length ∧
        (0 : Int) ≤ ((lits.indexOf lit : Nat) : Int) then
        Except.ok (Val.str (lits.get ⟨(((lits.indexOf lit : Nat) : Int)).toNat, h.1⟩),
          pre)
      else Except.error PyError.indexError) = Except.ok (Val.str lit, pre)
    rw [dif_pos hcond]
    have hget : lits.get ⟨(((lits.indexOf lit : Nat) : Int)).toNat, hcond.1⟩ = lit := by
      simp only [Int.toNat_natCast]
      exact List.indexOf_get _
    rw [hget]

/-- A signed range that contains an integer forces a positive size. -/
theorem csigned_small_bound (m d : Int) (hm : 0 ≤ m)
    (hmin : -(rat2pow (m - 1)) ≤ (d : Rat))
    (hmax : (d : Rat) ≤ rat2pow (m - 1) - 1) : 1 ≤ m := by
  by_contra hlt
  push_neg at hlt
  have hm0 : m = 0 := by omega
  subst hm0
  have hhalf : rat2pow ((0 : Int) - 1) = 1 / 2 := by
    show (2 : Rat) ^ ((0 : Int) - 1) = 1 / 2
    norm_num
  rw [hhalf] at hmin hmax
  have h2 : ((2 * d : Int) : Rat) = -1 := by push_cast; linarith
  have h3 : (2 * d : Int) = -1 := by exact_mod_cast h2
  omega

/-- Encode/decode round trip for the signed codec. -/
theorem csigned_rt (id : Option String) (size : MathItem) (g : Generics)
    (au : Bool) (m d : Int) (hsize : get_value size = some (.i m)) (hm : 0 ≤ m)
    (hmin : -(rat2pow (m - 1)) ≤ (d : Rat))
    (hmax : (d : Rat) ≤ rat2pow (m - 1) - 1) :
    ∃ s, csignedToSlv id size (.int d) g au = .ok s ∧
      csignedFromSlv id size s g = .ok (.int d) ∧ (s.length : Int) = m := by
  have hag := apply_generics_ground g size _ hsize
  have hm1 : 1 ≤ m := csigned_small_bound m d hm hmin hmax
  have hm1' : 0 ≤ m - 1 := by omega
  have hpow : rat2pow (m - 1) = ((2 ^ (m - 1).toNat : Int) : Rat) := rat2pow_eq _ hm1'
  have hdmin : -(2 ^ (m - 1).toNat) ≤ d := by
    rw [hpow] at hmin
    exact_mod_cast hmin
  have hdmax : d ≤ 2 ^ (m - 1).toNat - 1 := by
    rw [hpow] at hmax
    exact_mod_cast hmax
  have hmsplit : m.toNat = (m - 1).toNat + 1 := by omega
  have hpow2 : (2 : Int) ^ m.toNat = 2 ^ (m - 1).toNat * 2 := by
    rw [hmsplit, pow_succ]
  have hnrange : ¬ ((d : Rat) < -(rat2pow (m - 1)) ∨ rat2pow (m - 1) - 1 < (d : Rat)) := by
    push_neg
    exact ⟨hmin, hmax⟩
  rcases lt_or_ge d 0 with hdlt | hdge
  · -- negative value: encoded as d + 2^m
    have h2 : 0 ≤ d + 2 ^ m.toNat := by omega
    have h3 : ((d + 2 ^ m.toNat : Int) : Rat) ≤ rat2pow m - 1 := by
      rw [rat2pow_eq m hm]
      have : d + 2 ^ m.toNat ≤ 2 ^ m.toNat - 1 := by omega
      exact_mod_cast this
    obtain ⟨s, hs_enc, hs_dec, hs_len⟩ := cslv_rt id size g au m (d + 2 ^ m.toNat)
      hag hm h2 h3
    refine ⟨s, ?_, ?_, hs_len⟩
    · unfold csignedToSlv
      rw [hag, hsize]
      show (if (d : Rat) < -(rat2pow (m - 1)) ∨ rat2pow (m - 1) - 1 < (d : Rat) then
          Except.error (PyError.slv
            (.range d (-(rat2pow (m - 1))) (rat2pow (m - 1) - 1) id))
        else Except.bind (if d < 0 then pure (d + 2 ^ m.toNat) else pure d)
          (fun x => cslvToSlv id size (.int x) g au)) = Except.ok s
      rw [if_neg hnrange, if_pos hdlt]
      exact hs_enc
    · unfold csignedFromSlv
      rw [hag, hs_dec, hsize]
      show (Except.bind (if rat2pow (m - 1) - 1 < ((d + 2 ^ m.toNat : Int) : Rat) then
            pure (d + 2 ^ m.toNat - 2 ^ m.toNat) else pure (d + 2 ^ m.toNat))
          (fun x2 => if (x2 : Rat) < -(rat2pow (m - 1)) then
              Except.error PyError.assertionError
            else if rat2pow (m - 1) - 1 < (x2 : Rat) then
              Except.error PyError.assertionError
            else pure (Val.int x2))) = Except.ok (Val.int d)
      have hgt : rat2pow (m - 1) - 1 < ((d + 2 ^ m.toNat : Int) : Rat) := by
        rw [hpow]
        have : (2 ^ (m - 1).toNat : Int) - 1 < d + 2 ^ m.toNat := by omega
        exact_mod_cast this
      rw [if_pos hgt]
      have hsub : d + 2 ^ m.toNat - 2 ^ m.toNat = d := by ring
      rw [hsub]
      show (if (d : Rat) < -(rat2pow (m - 1)) then Except.error PyError.assertionError
        else if rat2pow (m - 1) - 1 < (d : Rat) then Except.error PyError.assertionError
        else pure (Val.int d)) = Except.ok (Val.int d)
      rw [if_neg (not_lt.mpr hmin), if_neg (not_lt.mpr hmax)]
      rfl
  · -- non-negative value: encoded as itself
    have h3 : ((d : Int) : Rat) ≤ rat2pow m - 1 := by
      rw [rat2pow_eq m hm]
      have : d ≤ 2 ^ m.toNat - 1 := by omega
      exact_mod_cast this
    obtain ⟨s, hs_enc, hs_dec, hs_len⟩ := cslv_rt id size g au m d hag hm hdge h3
    refine ⟨s, ?_, ?_, hs_len⟩
    · unfold csignedToSlv
      rw [hag, hsize]
      show (if (d : Rat) < -(rat2pow (m - 1)) ∨ rat2pow (m - 1) - 1 < (d : Rat) then
          Except.error (PyError.slv
            (.range d (-(rat2pow (m - 1))) (rat2pow (m - 1) - 1) id))
        else Except.bind (if d < 0 then pure (d + 2 ^ m.toNat) else pure d)
          (fun x => cslvToSlv id size (.int x) g au)) = Except.ok s
      rw [if_neg hnrange, if_neg (not_lt.mpr hdge)]
      exact hs_enc
    · unfold csignedFromSlv
      rw [hag, hs_dec, hsize]
      show (Except.bind (if rat2pow (m - 1) - 1 < ((d : Int) : Rat) then
            pure (d - 2 ^ m.toNat) else pure d)
          (fun x2 => if (x2 : Rat) < -(rat2pow (m - 1)) then
              Except.error PyError.assertionError
            else if rat2pow (m - 1) - 1 < (x2 : Rat) then
              Except.error PyError.assertionError
            else pure (Val.int x2))) = Except.ok (Val.int d)
      rw [if_neg (not_lt.mpr hmax)]
      show (if (d : Rat) < -(rat2pow (m - 1)) then Except.error PyError.assertionError
        else if rat2pow (m - 1) - 1 < (d : Rat) then Except.error PyError.assertionError
        else pure (Val.int d)) = Except.ok (Val.int d)
      rw [if_neg (not_lt.mpr hmin), if_neg (not_lt.mpr hmax)]
      rfl

/-- Element loop of `Array.to_slv`: encodes every element of a good list. -/
theorem elemsToSlv_rt (sub : Typ) (g : Generics) (au : Bool) (m : Int) :
    ∀ xs : List Val,
      (∀ x ∈ xs, ∃ s, toSlv sub x g au = .ok s ∧ fromSlv sub s g = .ok x ∧
        (s.length : Int) = m) →
      ∃ ss, elemsToSlv sub xs g au = .ok ss ∧
        List.Forall₂ (fun s x => fromSlv sub s g = .ok x ∧ (s.length : Int) = m)
          ss xs := by
  intro xs
  induction xs with
  | nil =>
    intro _
    exact ⟨[], by simp only [elemsToSlv]; rfl, List.Forall₂.nil⟩
  | cons x xs ih =>
    intro h
    obtain ⟨s, hs, hf, hl⟩ := h x (by simp)
    obtain ⟨ss, hss, hrel⟩ := ih (fun y hy => h y (by simp [hy]))
    refine ⟨s :: ss, ?_, List.Forall₂.cons ⟨hf, hl⟩ hrel⟩
    simp only [elemsToSlv, hs, hss, bind, Except.bind, pure, Except.pure]

/-- `Array.from_slv` on a join of clean equal-width encodings recovers the
reversed element list. -/
theorem arrayFromSlv_join (sub : Typ) (size : MathItem) (g : Generics)
    (ws : MathItem) (m n : Int)
    (hws : widthOf sub = some ws) (hm : apply_generics g ws = some (.i m))
    (hm0 : 0 < m) (hn : apply_generics g size = some (.i n))
    (ss : List Slv) (ys : List Val)
    (hrel : List.Forall₂ (fun s y => fromSlv sub s g = .ok y ∧
      (s.length : Int) = m) ss ys)
    (hcount : (ys.length : Int) = n) :
    arrayFromSlv sub size ss.join g = .ok (.list ys.reverse) := by
  have hall : ∀ p ∈ ss, (p.length : Int) = m := by
    clear hcount
    induction hrel with
    | nil => intro p hp; cases hp
    | cons h1 _ ih =>
      intro p hp
      rcases List.mem_cons.mp hp with rfl | hp'
      · exact h1.2
      · exact ih p hp'
  have hLL : ss.length = ys.length := hrel.length_eq
  have hjoin := blocks_join_length m ss hall
  have hfmod : ((ss.join.length : Int)).fmod m = 0 := by
    rw [hjoin, Int.fmod_eq_emod _ (le_of_lt hm0)]
    exact Int.mul_emod_left _ _
  have hfdiv : ((ss.join.length : Int)).fdiv m = (ss.length : Int) := by
    rw [hjoin]
    exact Int.mul_fdiv_cancel _ (by omega)
  simp only [arrayFromSlv, hws, hm, hn, bind, Except.bind, pure, Except.pure,
    PyNum.trunc, PyNum.toRat]
  rw [if_neg (by simp), if_neg (by omega), if_neg (by rw [hfmod]; simp),
    if_neg (by rw [hfdiv, hjoin]; simp)]
  rw [hfdiv, Int.toNat_natCast]
  rw [pySlice_join_all m hm0 ss hall]
  rw [piecesFromSlv_ok sub g ss ys (hrel.imp (fun _ _ h => h.1))]
  show (if ((ys.reverse.length : Nat) : Rat) = ((n : Int) : Rat) then
      Except.ok (Val.list ys.reverse) else Except.error PyError.assertionError) =
    Except.ok (Val.list ys.reverse)
  rw [if_pos (by
    simp only [List.length_reverse]
    exact_mod_cast hcount)]

theorem goodValList_mem (sub : Typ) (g : Generics) :
    ∀ xs : List Val, goodValList sub g xs = true → ∀ x ∈ xs, goodVal sub g x = true := by
  intro xs
  induction xs with
  | nil => intro _ x hx; cases hx
  | cons y ys ih =>
    intro h x hx
    simp only [goodValList, Bool.and_eq_true] at h
    rcases List.mem_cons.mp hx with rfl | hx'
    · exact h.1
    · exact ih h.2 x hx'

theorem goodValFields_zip (g : Generics) :
    ∀ (fs : List (String × Typ)) (es : List (String × Val)),
    goodValFields fs g es = true →
    ∀ p ∈ fs.zip es, goodVal p.1.2 g p.2.2 = true := by
  intro fs
  induction fs with
  | nil => intro es _ p hp; simp [List.zip] at hp
  | cons f fs ih =>
    obtain ⟨n, t⟩ := f
    intro es h p hp
    cases es with
    | nil => simp [goodValFields] at h
    | cons e es' =>
      obtain ⟨m, v⟩ := e
      simp only [goodValFields, Bool.and_eq_true] at h
      rw [List.zip_cons_cons] at hp
      rcases List.mem_cons.mp hp with rfl | hp'
      · exact h.1.2
      · exact ih es' h.2 p hp'

theorem goodFields_mem (g : Generics) :
    ∀ fs : List (String × Typ), goodFields fs g = true →
    ∀ p ∈ fs, goodTyp p.2 g = true := by
  intro fs
  induction fs with
  | nil => intro _ p hp; cases hp
  | cons f fs ih =>
    intro h p hp
    simp only [goodFields, Bool.and_eq_true] at h
    rcases List.mem_cons.mp hp with rfl | hp'
    · exact h.1
    · exact ih h.2 p hp'

theorem posElemsFields_mem (g : Generics) :
    ∀ fs : List (String × Typ), posElemsFields fs g = true →
    ∀ p ∈ fs, posElems p.2 g = true := by
  intro fs
  induction fs with
  | nil => intro _ p hp; cases hp
  | cons f fs ih =>
    intro h p hp
    simp only [posElemsFields, Bool.and_eq_true] at h
    rcases List.mem_cons.mp hp with rfl | hp'
    · exact h.1
    · exact ih h.2 p hp'

theorem tsize_mem_fields :
    ∀ fs : List (String × Typ), ∀ p ∈ fs, tsize p.2 < tsizeFields fs := by
  intro fs
  induction fs with
  | nil => intro p hp; cases hp
  | cons f fs ih =>
    intro p hp
    have hstep : tsizeFields (f :: fs) = tsize f.2 + tsizeFields fs + 1 := rfl
    rcases List.mem_cons.mp hp with rfl | hp'
    · omega
    · have := ih p hp'
      omega

/-- Looking up the `i`-th declared name in an order-canonical entry list
returns the `i`-th value. -/
theorem lookup_zip_self :
    ∀ (fs : List (String × Typ)) (es : List (String × Val)),
      es.map Prod.fst = fs.map Prod.fst → (fs.map Prod.fst).Nodup →
      ∀ p ∈ fs.zip es, es.lookup p.1.1 = some p.2.2 := by
  intro fs
  induction fs with
  | nil => intro es _ _ p hp; simp [List.zip] at hp
  | cons f fs ih =>
    obtain ⟨name, sub⟩ := f
    intro es hnames hnd p hp
    cases es with
    | nil => simp at hnames
    | cons e es' =>
      obtain ⟨m0, v⟩ := e
      simp only [List.map_cons, List.cons.injEq] at hnames
      obtain ⟨hm0, hnames'⟩ := hnames
      subst hm0
      simp only [List.map_cons, List.nodup_cons] at hnd
      rw [List.zip_cons_cons] at hp
      rcases List.mem_cons.mp hp with rfl | hp'
      · simp [List.lookup]
      · have hne : m0 ≠ p.1.1 := by
          intro hcontra
          apply hnd.1
          rw [hcontra]
          have hm : p.1 ∈ fs := (List.mem_zip hp').1
          exact List.mem_map.mpr ⟨p.1, hm, rfl⟩
        have hskip : ((m0, v) :: es').lookup p.1.1 = es'.lookup p.1.1 := by
          simp only [List.lookup]
          rw [show (p.1.1 == m0) = false from beq_eq_false_iff_ne.mpr (Ne.symm hne)]
        rw [hskip]
        exact ih es' hnames' hnd.2 p hp'

/-- Field loop of `Record.to_slv`: encodes every field of an order-canonical
good record value, with the decode property carried per field. -/
theorem fieldsToSlv_rt (g : Generics) (au : Bool) (id : Option String)
    (entries : List (String × Val)) :
    ∀ (fs : List (String × Typ)) (es : List (String × Val)),
      (∀ p ∈ fs.zip es, ∃ s, toSlv p.1.2 p.2.2 g au = .ok s ∧
        (∀ pre : Slv, reduceSlv p.1.2 (pre ++ s) g = .ok (p.2.2, pre))) →
      (∀ p ∈ fs.zip es, entries.lookup p.1.1 = some p.2.2) →
      fs.length = es.length →
      ∃ ss, fieldsToSlv id fs entries g au = .ok ss ∧
        List.Forall₂ (fun (s : Slv) (p : (String × Typ) × (String × Val)) =>
          ∀ pre : Slv, reduceSlv p.1.2 (pre ++ s) g = .ok (p.2.2, pre))
          ss (fs.zip es) := by
  intro fs
  induction fs with
  | nil =>
    intro es _ _ _
    exact ⟨[], by simp only [fieldsToSlv]; rfl, by
      cases es <;> exact List.Forall₂.nil⟩
  | cons f fs ih =>
    obtain ⟨name, sub⟩ := f
    intro es h hlook hlen
    cases es with
    | nil => simp at hlen
    | cons e es' =>
      obtain ⟨m0, v⟩ := e
      obtain ⟨s, hs, hred⟩ := h ((name, sub), (m0, v)) (by
        rw [List.zip_cons_cons]; simp)
      obtain ⟨ss, hss, hrel⟩ := ih es'
        (fun p hp => h p (by rw [List.zip_cons_cons]; exact List.mem_cons_of_mem _ hp))
        (fun p hp => hlook p (by rw [List.zip_cons_cons]; exact List.mem_cons_of_mem _ hp))
        (by simpa using hlen)
      refine ⟨s :: ss, ?_, ?_⟩
      · have hl0 : entries.lookup name = some v := hlook ((name, sub), (m0, v)) (by
          rw [List.zip_cons_cons]; simp)
        simp only [fieldsToSlv, hl0, Option.getD_some, hs, hss, bind,
          Except.bind, pure, Except.pure]
      · rw [List.zip_cons_cons]
        exact List.Forall₂.cons hred hrel

/-- Field loop of `Record.reduce_slv`: peels the reverse-order field
encodings off the trailing end and rebuilds the entries in declaration
order. -/
theorem fieldsReduce_rt (g : Generics) :
    ∀ (fs : List (String × Typ)) (es : List (String × Val)) (ss : List Slv),
      List.Forall₂ (fun (s : Slv) (p : (String × Typ) × (String × Val)) =>
        ∀ pre : Slv, reduceSlv p.1.2 (pre ++ s) g = .ok (p.2.2, pre)) ss (fs.zip es) →
      es.map Prod.fst = fs.map Prod.fst →
      (fs.map Prod.fst).Nodup →
      ∀ acc : List (String × Val),
        (∀ k ∈ fs.map Prod.fst, ∀ q ∈ acc, q.1 ≠ k) →
        ∀ pre : Slv,
          fieldsReduce fs (pre ++ ss.reverse.join) g acc = .ok (acc ++ es, pre) := by
  intro fs
  induction fs with
  | nil =>
    intro es ss hrel hnames _ acc _ pre
    have hes : es = [] := by
      cases es with
      | nil => rfl
      | cons e es => simp at hnames
    subst hes
    have hss : ss = [] := by
      cases hrel
      rfl
    subst hss
    simp [fieldsReduce]
    rfl
  | cons f fs ih =>
    obtain ⟨name, sub⟩ := f
    intro es ss hrel hnames hnd acc hdisj pre
    cases es with
    | nil => simp at hnames
    | cons e es' =>
      obtain ⟨m0, v⟩ := e
      simp only [List.map_cons, List.cons.injEq] at hnames
      obtain ⟨hm0, hnames'⟩ := hnames
      subst hm0
      rw [List.zip_cons_cons] at hrel
      rcases hrel with _ | @⟨s1, _, ss', _, hh, ht⟩
      have hdecomp : pre ++ (s1 :: ss').reverse.join =
          (pre ++ ss'.reverse.join) ++ s1 := by
        simp [List.reverse_cons, List.append_assoc]
      have hred : reduceSlv sub ((pre ++ ss'.reverse.join) ++ s1) g =
          .ok (v, pre ++ ss'.reverse.join) := hh (pre ++ ss'.reverse.join)
      simp only [fieldsReduce, hdecomp, hred, bind, Except.bind]
      rw [dictAssign_notMem m0 v acc (hdisj m0 (by simp))]
      have hnd' : (fs.map Prod.fst).Nodup := by
        simp only [List.map_cons, List.nodup_cons] at hnd
        exact hnd.2
      have hdisj' : ∀ k ∈ fs.map Prod.fst, ∀ q ∈ acc ++ [(m0, v)], q.1 ≠ k := by
        intro k hk q hq
        rcases List.mem_append.mp hq with hq | hq
        · exact hdisj k (by simp [hk]) q hq
        · simp only [List.mem_singleton] at hq
          subst hq
          intro hcontra
          simp only [List.map_cons, List.nodup_cons] at hnd
          have hc : m0 = k := hcontra
          exact hnd.1 (by rw [hc]; exact hk)
      have hrec := ih es' ss' ht hnames' hnd' (acc ++ [(m0, v)]) hdisj' pre
      rw [hrec]
      simp [List.append_assoc]

/-- Pointwise consequence on the left list of a `Forall₂`. -/
theorem forall2_left_mem {α β : Type} (P : α → Prop) (R : α → β → Prop)
    (h : ∀ a b, R a b → P a) :
    ∀ {l₁ : List α} {l₂ : List β}, List.Forall₂ R l₁ l₂ → ∀ a ∈ l₁, P a := by
  intro l₁ l₂ hrel
  induction hrel with
  | nil => intro a ha; cases ha
  | cons h1 _ ih =>
    intro a ha
    rcases List.mem_cons.mp ha with rfl | ha'
    · exact h _ _ h1
    · exact ih a ha'

/-- Round trip: encoding an in-range, fully-defined value of a
well-formed type and decoding the result (off the trailing end of an
arbitrary prefix, or standalone) recovers the value exactly. -/
theorem roundtrip_aux :
    ∀ N t, tsize t ≤ N → ∀ g v au, goodTyp t g = true → posElems t g = true →
      goodVal t g v = true →
      ∃ s, toSlv t v g au = .ok s ∧
        (∀ pre : Slv, reduceSlv t (pre ++ s) g = .ok (v, pre)) ∧
        fromSlv t s g = .ok v := by
  intro N
  induction N with
  | zero =>
    intro t ht
    cases t <;> simp [tsize, tsizeFields] at ht
  | succ N ihN =>
    intro t ht g v au hgood hpos hval
    cases t with
    | std_logic =>
      unfold goodVal at hval
      split at hval
      · refine ⟨['0'], by simp only [toSlv]; rfl, ?_, by simp only [fromSlv]; rfl⟩
        intro pre
        simp only [reduceSlv]
        rw [if_neg (by simp)]
        have hlen : (pre ++ ['0']).length - 1 = pre.length := by simp
        rw [hlen, List.drop_left, List.take_left]
        rfl
      · refine ⟨['1'], by simp only [toSlv]; rfl, ?_, by simp only [fromSlv]; rfl⟩
        intro pre
        simp only [reduceSlv]
        rw [if_neg (by simp)]
        have hlen : (pre ++ ['1']).length - 1 = pre.length := by simp
        rw [hlen, List.drop_left, List.take_left]
        rfl
      · exact absurd hval (by simp)
    | cslv id size =>
      unfold goodTyp at hgood
      unfold goodVal at hval
      split at hgood
      · rename_i n hn
        rw [decide_eq_true_eq] at hgood
        rw [hn] at hval
        cases v with
        | int d =>
          have hval' : (decide (0 ≤ d) && decide ((d : Rat) ≤ rat2pow n - 1)) = true :=
            hval
          rw [Bool.and_eq_true, decide_eq_true_eq, decide_eq_true_eq] at hval'
          obtain ⟨h0, h1⟩ := hval'
          obtain ⟨s, henc, hdec, hlen⟩ := cslv_rt id size g au n d hn hgood h0 h1
          refine ⟨s, by simp only [toSlv]; exact henc, ?_, ?_⟩
          · intro pre
            simp only [reduceSlv, evalToInt, hn, bind, Except.bind, PyNum.trunc]
            rw [reduceSplit_append pre s n hgood hlen]
            simp only [hdec]
            rfl
          · simp only [fromSlv, hdec]
            rfl
        | none => exact Bool.noConfusion (show (false : Bool) = true from hval)
        | str s0 => exact Bool.noConfusion (show (false : Bool) = true from hval)
        | list xs => exact Bool.noConfusion (show (false : Bool) = true from hval)
        | dict es => exact Bool.noConfusion (show (false : Bool) = true from hval)
      · exact absurd hgood (by simp)
    | csigned id size =>
      unfold goodTyp at hgood
      unfold goodVal at hval
      split at hgood
      · rename_i m hm
        rw [decide_eq_true_eq] at hgood
        rw [hm] at hval
        cases v with
        | int d =>
          have hval' : (decide (-(rat2pow (m - 1)) ≤ (d : Rat)) &&
              decide ((d : Rat) ≤ rat2pow (m - 1) - 1)) = true := hval
          rw [Bool.and_eq_true, decide_eq_true_eq, decide_eq_true_eq] at hval'
          obtain ⟨hmin, hmax⟩ := hval'
          obtain ⟨s, henc, hdec, hlen⟩ := csigned_rt id size g au m d hm hgood
            hmin hmax
          have hag := apply_generics_ground g size _ hm
          refine ⟨s, by simp only [toSlv]; exact henc, ?_, ?_⟩
          · intro pre
            simp only [reduceSlv, evalToInt, hag, bind, Except.bind, PyNum.trunc]
            rw [reduceSplit_append pre s m hgood hlen]
            simp only [hdec]
            rfl
          · simp only [fromSlv]
            exact hdec
        | none => exact Bool.noConfusion (show (false : Bool) = true from hval)
        | str s0 => exact Bool.noConfusion (show (false : Bool) = true from hval)
        | list xs => exact Bool.noConfusion (show (false : Bool) = true from hval)
        | dict es => exact Bool.noConfusion (show (false : Bool) = true from hval)
      · exact absurd hgood (by simp)
    | enumeration id lits =>
      unfold goodVal at hval
      cases v with
      | str lit =>
        have hval' : (lits.contains lit && decide (pyLower lit = lit)) = true := hval
        rw [Bool.and_eq_true, decide_eq_true_eq] at hval'
        obtain ⟨hmem, hlow⟩ := hval'
        obtain ⟨s, henc, hred, hlen⟩ := enum_rt lits lit au hmem hlow
        refine ⟨s, by simp only [toSlv]; exact henc, ?_, ?_⟩
        · intro pre
          simp only [reduceSlv]
          exact hred pre
        · have hred0 : enumReduceSlv lits s = .ok (.str lit, ([] : Slv)) := hred []
          simp only [fromSlv, hred0, bind, Except.bind]
          rfl
      | none => exact Bool.noConfusion (show (false : Bool) = true from hval)
      | int d => exact Bool.noConfusion (show (false : Bool) = true from hval)
      | list xs => exact Bool.noConfusion (show (false : Bool) = true from hval)
      | dict es => exact Bool.noConfusion (show (false : Bool) = true from hval)
    | carray id sub size =>
      unfold goodTyp at hgood
      rw [Bool.and_eq_true] at hgood
      obtain ⟨hsz, hgsub⟩ := hgood
      have hszn : ∃ n, apply_generics g size = some (.i n) ∧ 0 ≤ n := by
        split at hsz
        · rename_i n hn
          rw [decide_eq_true_eq] at hsz
          exact ⟨n, hn, hsz⟩
        · exact absurd hsz (by simp)
      obtain ⟨n, hn, hn0⟩ := hszn
      unfold posElems at hpos
      rw [Bool.and_eq_true] at hpos
      obtain ⟨hpw, hpsub⟩ := hpos
      have hpwE : ∃ m, evalWidthInt sub g = some m ∧ 0 < m := by
        split at hpw
        · rename_i m hm
          rw [decide_eq_true_eq] at hpw
          exact ⟨m, hm, hpw⟩
        · exact absurd hpw (by simp)
      obtain ⟨m, hm, hm0⟩ := hpwE
      obtain ⟨ws, hws, hwsm⟩ := evalWidthInt_elim sub g m hm
      unfold goodVal at hval
      rw [hn] at hval
      cases v with
      | list xs =>
        have hval' : (decide ((xs.length : Int) = n) && goodValList sub g xs) = true :=
          hval
        rw [Bool.and_eq_true, decide_eq_true_eq] at hval'
        obtain ⟨hxslen, hgvl⟩ := hval'
        have htsub : tsize sub ≤ N := by
          simp only [tsize] at ht
          omega
        have helem : ∀ x ∈ xs.reverse, ∃ s, toSlv sub x g au = .ok s ∧
            fromSlv sub s g = .ok x ∧ (s.length : Int) = m := by
          intro x hx
          have hx' : x ∈ xs := List.mem_reverse.mp hx
          obtain ⟨s, he, _, hf⟩ := ihN sub htsub g x au hgsub hpsub
            (goodValList_mem sub g xs hgvl x hx')
          refine ⟨s, he, hf, ?_⟩
          obtain ⟨w, hw, hsl⟩ := toSlv_length_aux N sub htsub g x au s hgsub he
          rw [hm] at hw
          cases hw
          exact hsl
        obtain ⟨ss, hss, hrel⟩ := elemsToSlv_rt sub g au m xs.reverse helem
        have hallm := forall2_left_mem (fun s => (s.length : Int) = m) _
          (fun _ _ hr => hr.2) hrel
        have hjoin := blocks_join_length m ss hallm
        have hssn : (ss.length : Int) = n := by
          have h5 := hrel.length_eq
          rw [h5, List.length_reverse]
          exact hxslen
        have hlenjoin : (ss.join.length : Int) = n * m := by
          rw [hjoin, hssn]
        have hafs : arrayFromSlv sub size ss.join g = .ok (.list xs) := by
          have h6 := arrayFromSlv_join sub size g ws m n hws hwsm hm0 hn ss
            xs.reverse hrel (by rw [List.length_reverse]; exact hxslen)
          rw [List.reverse_reverse] at h6
          exact h6
        refine ⟨ss.join, ?_, ?_, ?_⟩
        · have hceq : (((xs.length : Int)) : Rat) = ((n : Int) : Rat) := by
            exact_mod_cast hxslen
          simp only [toSlv, hn, bind, Except.bind, pure, Except.pure, pyLen,
            PyNum.toRat]
          rw [if_neg (not_not_intro hceq)]
          simp only [arrayToSlv, hss, bind, Except.bind, pure, Except.pure]
        · intro pre
          have hwidth : apply_generics g (MathItem.mult [(1, size), (1, ws)]) =
              some (.i (n * m)) := apply_generics_mult_width g size ws n m hn hwsm
          simp only [reduceSlv, widthOf, hws, Option.some_bind, bind, Except.bind,
            pure, Except.pure, evalToInt, hwidth, PyNum.trunc]
          rw [reduceSplit_append pre ss.join (n * m)
            (mul_nonneg hn0 (le_of_lt hm0)) hlenjoin]
          simp only [hafs]
        · simp only [fromSlv]
          exact hafs
      | none => exact Bool.noConfusion (show (false : Bool) = true from hval)
      | int d => exact Bool.noConfusion (show (false : Bool) = true from hval)
      | str s0 => exact Bool.noConfusion (show (false : Bool) = true from hval)
      | dict es => exact Bool.noConfusion (show (false : Bool) = true from hval)
    | record id fields =>
      unfold goodTyp at hgood
      rw [Bool.and_eq_true, Bool.and_eq_true] at hgood
      obtain ⟨⟨hnd, hfs⟩, _⟩ := hgood
      rw [decide_eq_true_eq] at hnd
      have hpf : posElemsFields fields g = true := by
        simpa only [posElems] using hpos
      unfold goodVal at hval
      cases v with
      | dict entries =>
        have hgvf : goodValFields fields g entries = true := hval
        have hnames := goodValFields_names fields g entries hgvf
        have htf : tsizeFields fields ≤ N := by
          simp only [tsize] at ht
          omega
        have hlen : fields.length = entries.length := by
          have h7 := congrArg List.length hnames
          simpa using h7.symm
        have hzip : ∀ p ∈ fields.zip entries, ∃ s, toSlv p.1.2 p.2.2 g au = .ok s ∧
            (∀ pre : Slv, reduceSlv p.1.2 (pre ++ s) g = .ok (p.2.2, pre)) := by
          intro p hp
          have hp1 : p.1 ∈ fields := (List.mem_zip hp).1
          have hts : tsize p.1.2 ≤ N := by
            have h8 := tsize_mem_fields fields p.1 hp1
            omega
          obtain ⟨s, he, hr, _⟩ := ihN p.1.2 hts g p.2.2 au
            (goodFields_mem g fields hfs p.1 hp1)
            (posElemsFields_mem g fields hpf p.1 hp1)
            (goodValFields_zip g fields entries hgvf p hp)
          exact ⟨s, he, hr⟩
        have hlook := lookup_zip_self fields entries hnames hnd
        obtain ⟨ss, hss, hrel⟩ := fieldsToSlv_rt g au id entries fields entries
          hzip hlook hlen
        have hreduce : ∀ pre : Slv,
            fieldsReduce fields (pre ++ ss.reverse.join) g [] =
              .ok ([] ++ entries, pre) :=
          fieldsReduce_rt g fields entries ss hrel hnames hnd []
            (fun k _ q hq => absurd hq (List.not_mem_nil q))
        refine ⟨ss.reverse.join, ?_, ?_, ?_⟩
        · have hinv : (entries.map Prod.fst).filter
              (fun k => !((fields.map Prod.fst).contains k)) = [] := by
            rw [List.filter_eq_nil]
            intro k hk
            rw [hnames] at hk
            simp only [Bool.not_eq_true', Bool.not_eq_false]
            obtain ⟨a, ha, hae⟩ := List.mem_map.mp hk
            have hmem2 : (k, a.2) ∈ fields := by
              have hpa : (k, a.2) = a := by
                rw [← hae]
              rw [hpa]
              exact ha
            exact List.elem_eq_true_of_mem (List.mem_map.mpr ⟨(k, a.2), hmem2, rfl⟩)
          simp only [toSlv, bind, Except.bind, pure, Except.pure]
          rw [hinv]
          rw [if_neg (by simp)]
          simp only [hss, bind, Except.bind, pure, Except.pure]
        · intro pre
          simp only [reduceSlv, bind, Except.bind, hreduce, List.nil_append]
          rfl
        · have hr0 : reduceSlv (.record id fields) (ss.reverse.join) g =
              .ok (.dict entries, ([] : Slv)) := by
            have h9 := hreduce []
            simp only [reduceSlv, bind, Except.bind]
            rw [show (([] : Slv) ++ ss.reverse.join) = ss.reverse.join from rfl] at h9
            rw [h9]
            rfl
          simp only [fromSlv, hr0, bind, Except.bind]
          rfl
      | none => exact Bool.noConfusion (show (false : Bool) = true from hval)
      | int d => exact Bool.noConfusion (show (false : Bool) = true from hval)
      | str s0 => exact Bool.noConfusion (show (false : Bool) = true from hval)
      | list xs => exact Bool.noConfusion (show (false : Bool) = true from hval)

/-- Enumeration round trip without assuming the input is already
lowercase: the encoder looks up the lowercased input and the decoder
returns the stored literal. -/
theorem enum_rt2 (lits : List String) (lit : String) (au : Bool)
    (hmem : lits.contains (pyLower lit) = true) :
    ∃ s, enumToSlv lits (.str lit) au = .ok s ∧
      (∀ pre : Slv, enumReduceSlv lits (pre ++ s) = .ok (.str (pyLower lit), pre)) ∧
      s.length = logceilNat lits.length := by
  have hmem' : pyLower lit ∈ lits := List.mem_of_elem_eq_true hmem
  have hidx : lits.indexOf (pyLower lit) < lits.length :=
    List.indexOf_lt_length.mpr hmem'
  have hlt2 : lits.indexOf (pyLower lit) < 2 ^ logceilNat lits.length :=
    lt_of_lt_of_le hidx (logceilNat_ge _)
  refine ⟨(uintBits ((lits.indexOf (pyLower lit) : Nat) : Int)
      (logceilNat lits.length)).reverse, ?_, ?_, by simp [uintBits_length]⟩
  · unfold enumToSlv
    show (if lits.contains (pyLower lit) then
        uint_to_slv (some ((lits.indexOf (pyLower lit) : Nat) : Int))
          (logceilNat lits.length) au
      else Except.error (PyError.slv (.enumMissing (pyLower lit) lits))) =
      Except.ok (uintBits ((lits.indexOf (pyLower lit) : Nat) : Int)
        (logceilNat lits.length)).reverse
    rw [hmem]
    rfl
  · intro pre
    simp only [enumReduceSlv]
    have hslen : ((uintBits ((lits.indexOf (pyLower lit) : Nat) : Int)
        (logceilNat lits.length)).reverse).length = logceilNat lits.length := by
      simp [uintBits_length]
    have harith : (pre ++ (uintBits ((lits.indexOf (pyLower lit) : Nat) : Int)
        (logceilNat lits.length)).reverse).length - logceilNat lits.length =
        pre.length := by
      rw [List.length_append, hslen]
      omega
    rw [harith, List.drop_left, List.take_left]
    rw [slv_to_uint_uintBits (logceilNat lits.length) _ (by positivity)
      (by exact_mod_cast hlt2)]
    have hcond : (((lits.indexOf (pyLower lit) : Nat) : Int)).toNat < lits.length ∧
        (0 : Int) ≤ ((lits.indexOf (pyLower lit) : Nat) : Int) := by
      constructor
      · simpa using hidx
      · positivity
    show (if h : (((lits.indexOf (pyLower lit) : Nat) : Int)).toNat < lits.length ∧
        (0 : Int) ≤ ((lits.indexOf (pyLower lit) : Nat) : Int) then
        Except.ok (Val.str
          (lits.get ⟨(((lits.indexOf (pyLower lit) : Nat) : Int)).toNat, h.1⟩), pre)
      else Except.error PyError.indexError) = Except.ok (Val.str (pyLower lit), pre)
    rw [dif_pos hcond]
    have hget : lits.get ⟨(((lits.indexOf (pyLower lit) : Nat) : Int)).toNat, hcond.1⟩
        = pyLower lit := by
      simp only [Int.toNat_natCast]
      exact List.indexOf_get _
    rw [hget]

/-!  ## Resolver bookkeeping invariants (for the partition property) -/

/-- One body step of the resolver preserves the bookkeeping invariants:
the failed-name list mirrors the failed mapping, the available-name list
is the initial names plus the resolved keys, buckets only grow (by the
processed name), buckets stay inside the unresolved key set `U` and stay
disjoint, and a step that reports no change left the state untouched. -/
theorem resolveBody_inv {α β : Type} {U avail0 : List String}
    {unresolved : List (String × α)} {dependencies : List (String × List String)}
    {f : String → α → List (String × β) → Except Unit β}
    {name : String} {st st' : RState α β}
    (h : resolveBody unresolved dependencies f name st = .ok st')
    (hU : name ∈ U)
    (hA1 : st.failedNames = st.failed.map Prod.fst)
    (hA2 : st.availableNames = avail0 ++ st.resolved.map Prod.fst)
    (hnav : name ∉ st.availableNames)
    (hnf : name ∉ st.failedNames)
    (hA7 : ∀ n ∈ st.resolved.map Prod.fst, n ∈ U)
    (hA8 : ∀ n ∈ st.failed.map Prod.fst, n ∈ U)
    (hA9 : ∀ n, n ∈ st.resolved.map Prod.fst → n ∈ st.failed.map Prod.fst → False) :
    st'.failedNames = st'.failed.map Prod.fst ∧
    st'.availableNames = avail0 ++ st'.resolved.map Prod.fst ∧
    (∀ n ∈ st'.resolved.map Prod.fst, n ∈ U) ∧
    (∀ n ∈ st'.failed.map Prod.fst, n ∈ U) ∧
    (∀ n, n ∈ st'.resolved.map Prod.fst → n ∈ st'.failed.map Prod.fst → False) ∧
    (∀ n, n ∈ st'.resolved.map Prod.fst → n ∈ st.resolved.map Prod.fst ∨ n = name) ∧
    (∀ n, n ∈ st'.failed.map Prod.fst → n ∈ st.failed.map Prod.fst ∨ n = name) ∧
    (∀ n, n ∈ st.resolved.map Prod.fst → n ∈ st'.resolved.map Prod.fst) ∧
    (∀ n, n ∈ st.failed.map Prod.fst → n ∈ st'.failed.map Prod.fst) ∧
    (st'.anyChanges = false → st' = st) := by
  unfold resolveBody at h
  split at h
  · exact Except.noConfusion h
  · exact Except.noConfusion h
  split at h
  · -- dependency already failed: name joins the failed bucket
    simp only [pure, Except.pure] at h
    cases h
    refine ⟨?_, hA2, hA7, ?_, ?_, fun n hn => Or.inl hn, ?_,
      fun n hn => hn, ?_, ?_⟩
    · simp only [List.map_append, List.map_cons, List.map_nil]
      rw [hA1]
    · intro n hn
      simp only [List.map_append, List.map_cons, List.map_nil,
        List.mem_append, List.mem_singleton] at hn
      rcases hn with hn | rfl
      · exact hA8 n hn
      · exact hU
    · intro n hres hfail
      simp only [List.map_append, List.map_cons, List.map_nil,
        List.mem_append, List.mem_singleton] at hfail
      rcases hfail with hfail | rfl
      · exact hA9 n hres hfail
      · exact hnav (by rw [hA2]; exact List.mem_append_right _ hres)
    · intro n hn
      simp only [List.map_append, List.map_cons, List.map_nil,
        List.mem_append, List.mem_singleton] at hn
      rcases hn with hn | rfl
      · exact Or.inl hn
      · exact Or.inr rfl
    · intro n hn
      simp only [List.map_append, List.map_cons, List.map_nil, List.mem_append]
      exact Or.inl hn
    · intro hfalse
      exact absurd hfalse (by simp)
  split at h
  · split at h
    · -- resolve_function raised: name joins the failed bucket
      simp only [pure, Except.pure] at h
      cases h
      refine ⟨?_, hA2, hA7, ?_, ?_, fun n hn => Or.inl hn, ?_,
        fun n hn => hn, ?_, ?_⟩
      · simp only [List.map_append, List.map_cons, List.map_nil]
        rw [hA1]
      · intro n hn
        simp only [List.map_append, List.map_cons, List.map_nil,
          List.mem_append, List.mem_singleton] at hn
        rcases hn with hn | rfl
        · exact hA8 n hn
        · exact hU
      · intro n hres hfail
        simp only [List.map_append, List.map_cons, List.map_nil,
          List.mem_append, List.mem_singleton] at hfail
        rcases hfail with hfail | rfl
        · exact hA9 n hres hfail
        · exact hnav (by rw [hA2]; exact List.mem_append_right _ hres)
      · intro n hn
        simp only [List.map_append, List.map_cons, List.map_nil,
          List.mem_append, List.mem_singleton] at hn
        rcases hn with hn | rfl
        · exact Or.inl hn
        · exact Or.inr rfl
      · intro n hn
        simp only [List.map_append, List.map_cons, List.map_nil, List.mem_append]
        exact Or.inl hn
      · intro hfalse
        exact absurd hfalse (by simp)
    · split at h
      · exact Except.noConfusion h
      · -- resolved: name joins the resolved bucket
        simp only [pure, Except.pure] at h
        cases h
        refine ⟨hA1, ?_, ?_, hA8, ?_, ?_, fun n hn => Or.inl hn, ?_,
          fun n hn => hn, ?_⟩
        · simp only [List.map_append, List.map_cons, List.map_nil]
          rw [hA2, List.append_assoc]
        · intro n hn
          simp only [List.map_append, List.map_cons, List.map_nil,
            List.mem_append, List.mem_singleton] at hn
          rcases hn with hn | rfl
          · exact hA7 n hn
          · exact hU
        · intro n hres hfail
          simp only [List.map_append, List.map_cons, List.map_nil,
            List.mem_append, List.mem_singleton] at hres
          rcases hres with hres | rfl
          · exact hA9 n hres hfail
          · exact hnf (by rw [hA1]; exact hfail)
        · intro n hn
          simp only [List.map_append, List.map_cons, List.map_nil,
            List.mem_append, List.mem_singleton] at hn
          rcases hn with hn | rfl
          · exact Or.inl hn
          · exact Or.inr rfl
        · intro n hn
          simp only [List.map_append, List.map_cons, List.map_nil, List.mem_append]
          exact Or.inl hn
        · intro hfalse
          exact absurd hfalse (by simp)
  · -- dependencies not yet available: no change
    simp only [pure, Except.pure] at h
    cases h
    exact ⟨hA1, hA2, hA7, hA8, hA9, fun n hn => Or.inl hn, fun n hn => Or.inl hn,
      fun n hn => hn, fun n hn => hn, fun _ => rfl⟩

/-- The change flag is monotone along a pass. -/
theorem onePass_mono_flag {α β : Type}
    {unresolved : List (String × α)} {dependencies : List (String × List String)}
    {f : String → α → List (String × β) → Except Unit β} :
    ∀ (ns : List String) (st st' : RState α β),
    onePass unresolved dependencies f ns st = .ok st' →
    st.anyChanges = true → st'.anyChanges = true := by
  intro ns
  induction ns with
  | nil =>
    intro st st' h hc
    unfold onePass at h
    simp only [pure, Except.pure] at h
    cases h
    exact hc
  | cons name rest ih =>
    intro st st' h hc
    unfold onePass at h
    simp only [bind, Except.bind] at h
    rcases hb : resolveBody unresolved dependencies f name st with e | st1 <;>
      rw [hb] at h
    · exact Except.noConfusion h
    exact ih st1 st' h ((resolveBody_shape hb).2.2.1 hc)

/-- One full pass preserves the bookkeeping invariants; buckets grow only
by processed names, and a pass reporting no change left the state
untouched. -/
theorem onePass_inv {α β : Type} {U avail0 : List String}
    {unresolved : List (String × α)} {dependencies : List (String × List String)}
    {f : String → α → List (String × β) → Except Unit β} :
    ∀ (ns : List String) (st st' : RState α β),
    onePass unresolved dependencies f ns st = .ok st' →
    ns.Nodup → (∀ n ∈ ns, n ∈ U) →
    (∀ n ∈ ns, n ∉ st.availableNames) → (∀ n ∈ ns, n ∉ st.failedNames) →
    st.failedNames = st.failed.map Prod.fst →
    st.availableNames = avail0 ++ st.resolved.map Prod.fst →
    (∀ n ∈ st.resolved.map Prod.fst, n ∈ U) →
    (∀ n ∈ st.failed.map Prod.fst, n ∈ U) →
    (∀ n, n ∈ st.resolved.map Prod.fst → n ∈ st.failed.map Prod.fst → False) →
    st'.failedNames = st'.failed.map Prod.fst ∧
    st'.availableNames = avail0 ++ st'.resolved.map Prod.fst ∧
    (∀ n ∈ st'.resolved.map Prod.fst, n ∈ U) ∧
    (∀ n ∈ st'.failed.map Prod.fst, n ∈ U) ∧
    (∀ n, n ∈ st'.resolved.map Prod.fst → n ∈ st'.failed.map Prod.fst → False) ∧
    (∀ n, n ∈ st'.resolved.map Prod.fst → n ∈ st.resolved.map Prod.fst ∨ n ∈ ns) ∧
    (∀ n, n ∈ st'.failed.map Prod.fst → n ∈ st.failed.map Prod.fst ∨ n ∈ ns) ∧
    (∀ n, n ∈ st.resolved.map Prod.fst → n ∈ st'.resolved.map Prod.fst) ∧
    (∀ n, n ∈ st.failed.map Prod.fst → n ∈ st'.failed.map Prod.fst) ∧
    (st'.anyChanges = false → st' = st) := by
  intro ns
  induction ns with
  | nil =>
    intro st st' h _ _ _ _ hA1 hA2 hA7 hA8 hA9
    unfold onePass at h
    simp only [pure, Except.pure] at h
    cases h
    exact ⟨hA1, hA2, hA7, hA8, hA9, fun n hn => Or.inl hn, fun n hn => Or.inl hn,
      fun n hn => hn, fun n hn => hn, fun _ => rfl⟩
  | cons name rest ih =>
    intro st st' h hnd hU hnav hnf hA1 hA2 hA7 hA8 hA9
    unfold onePass at h
    simp only [bind, Except.bind] at h
    rcases hb : resolveBody unresolved dependencies f name st with e | st1 <;>
      rw [hb] at h
    · exact Except.noConfusion h
    simp only [List.nodup_cons] at hnd
    obtain ⟨b1, b2, b3, b4, b5, b6, b7, b8, b9, b10⟩ :=
      @resolveBody_inv α β U avail0 unresolved dependencies f name st st1 hb
        (hU name (by simp))
        hA1 hA2 (hnav name (by simp)) (hnf name (by simp)) hA7 hA8 hA9
    have hnav1 : ∀ n ∈ rest, n ∉ st1.availableNames := by
      intro n hn hmem
      rw [b2] at hmem
      rcases List.mem_append.mp hmem with hmem | hmem
      · exact hnav n (by simp [hn]) (by rw [hA2]; exact List.mem_append_left _ hmem)
      · rcases b6 n hmem with hmem2 | rfl
        · exact hnav n (by simp [hn])
            (by rw [hA2]; exact List.mem_append_right _ hmem2)
        · exact hnd.1 hn
    have hnf1 : ∀ n ∈ rest, n ∉ st1.failedNames := by
      intro n hn hmem
      rw [b1] at hmem
      rcases b7 n hmem with hmem2 | rfl
      · exact hnf n (by simp [hn]) (by rw [hA1]; exact hmem2)
      · exact hnd.1 hn
    obtain ⟨c1, c2, c3, c4, c5, c6, c7, c8, c9, c10⟩ :=
      ih st1 st' h hnd.2 (fun n hn => hU n (by simp [hn])) hnav1 hnf1
        b1 b2 b3 b4 b5
    refine ⟨c1, c2, c3, c4, c5, ?_, ?_, ?_, ?_, ?_⟩
    · intro n hn
      rcases c6 n hn with hn2 | hn2
      · rcases b6 n hn2 with hn3 | rfl
        · exact Or.inl hn3
        · exact Or.inr (by simp)
      · exact Or.inr (by simp [hn2])
    · intro n hn
      rcases c7 n hn with hn2 | hn2
      · rcases b7 n hn2 with hn3 | rfl
        · exact Or.inl hn3
        · exact Or.inr (by simp)
      · exact Or.inr (by simp [hn2])
    · exact fun n hn => c8 n (b8 n hn)
    · exact fun n hn => c9 n (b9 n hn)
    · intro hfalse
      by_cases hflag : st1.anyChanges = true
      · have htrue := onePass_mono_flag rest st1 st' h hflag
        rw [hfalse] at htrue
        exact Bool.noConfusion htrue
      · have hf1 : st1.anyChanges = false := Bool.eq_false_iff.mpr hflag
        rw [c10 hfalse]
        exact b10 hf1

/-- The no-change fallback preserves the bookkeeping invariants while
moving the dumped names into the failed bucket. -/
theorem dumpFailures_inv {α β : Type} {U avail0 : List String}
    {unresolved : List (String × α)} :
    ∀ (ns : List String) (st st' : RState α β),
    dumpFailures unresolved ns st = .ok st' →
    (∀ n ∈ ns, n ∈ U) →
    (∀ n ∈ ns, n ∉ st.availableNames) →
    st.failedNames = st.failed.map Prod.fst →
    st.availableNames = avail0 ++ st.resolved.map Prod.fst →
    (∀ n ∈ st.resolved.map Prod.fst, n ∈ U) →
    (∀ n ∈ st.failed.map Prod.fst, n ∈ U) →
    (∀ n, n ∈ st.resolved.map Prod.fst → n ∈ st.failed.map Prod.fst → False) →
    st'.failedNames = st'.failed.map Prod.fst ∧
    st'.availableNames = avail0 ++ st'.resolved.map Prod.fst ∧
    st'.resolved = st.resolved ∧
    st'.availableNames = st.availableNames ∧
    (∀ n ∈ st'.resolved.map Prod.fst, n ∈ U) ∧
    (∀ n ∈ st'.failed.map Prod.fst, n ∈ U) ∧
    (∀ n, n ∈ st'.resolved.map Prod.fst → n ∈ st'.failed.map Prod.fst → False) ∧
    (∀ n, n ∈ st.failed.map Prod.fst → n ∈ st'.failed.map Prod.fst) := by
  intro ns
  induction ns with
  | nil =>
    intro st st' h _ _ hA1 hA2 hA7 hA8 hA9
    unfold dumpFailures at h
    simp only [pure, Except.pure] at h
    cases h
    exact ⟨hA1, hA2, rfl, rfl, hA7, hA8, hA9, fun n hn => hn⟩
  | cons name rest ih =>
    intro st st' h hU hnav hA1 hA2 hA7 hA8 hA9
    have hUname : name ∈ U := hU name (by simp)
    have hnavname : name ∉ st.availableNames := hnav name (by simp)
    have hUrest : ∀ n ∈ rest, n ∈ U := fun n hn => hU n (by simp [hn])
    have hnavrest : ∀ n ∈ rest, n ∉ st.availableNames := fun n hn => hnav n (by simp [hn])
    unfold dumpFailures at h
    rcases hitem : unresolved.lookup name with _ | item <;> rw [hitem] at h
    · exact Except.noConfusion h
    obtain ⟨c1, c2, c3, c4, c5, c6, c7, c8⟩ := ih _ st' h hUrest hnavrest
      (by simp only [List.map_append, List.map_cons, List.map_nil]; rw [hA1])
      hA2 hA7
      (by
        intro x hx
        simp only [List.map_append, List.map_cons, List.map_nil, List.mem_append,
          List.mem_singleton] at hx
        rcases hx with hx | rfl
        · exact hA8 x hx
        · exact hUname)
      (by
        intro x hres hfail
        simp only [List.map_append, List.map_cons, List.map_nil, List.mem_append,
          List.mem_singleton] at hfail
        rcases hfail with hfail | rfl
        · exact hA9 x hres hfail
        · exact hnavname (by rw [hA2]; exact List.mem_append_right _ hres))
    refine ⟨c1, c2, c3, c4, c5, c6, c7, ?_⟩
    intro x hx
    exact c8 x (by simp only [List.map_append, List.map_cons, List.map_nil,
      List.mem_append]; exact Or.inl hx)

/-- Loop invariant of `resolve_dependencies`: when the loop returns, the
resolved and failed key sets are disjoint subsets of the unresolved key
set that together with the remaining names cover it. -/
theorem resolveLoop_inv {α β : Type} {avail0 : List String}
    {unresolved : List (String × α)} {dependencies : List (String × List String)}
    {f : String → α → List (String × β) → Except Unit β} :
    ∀ (k : Nat) (names : List String) (st : RState α β)
      (res : List (String × β)) (fail : List (String × α)),
    names.length ≤ k →
    resolveLoop unresolved dependencies f names st = .ok (res, fail) →
    names.Nodup →
    (∀ n ∈ names, n ∈ unresolved.map Prod.fst) →
    (∀ n ∈ names, n ∉ st.availableNames) →
    (∀ n ∈ names, n ∉ st.failedNames) →
    st.failedNames = st.failed.map Prod.fst →
    st.availableNames = avail0 ++ st.resolved.map Prod.fst →
    (∀ n ∈ st.resolved.map Prod.fst, n ∈ unresolved.map Prod.fst) →
    (∀ n ∈ st.failed.map Prod.fst, n ∈ unresolved.map Prod.fst) →
    (∀ n, n ∈ st.resolved.map Prod.fst → n ∈ st.failed.map Prod.fst → False) →
    (∀ n ∈ unresolved.map Prod.fst,
      n ∈ st.resolved.map Prod.fst ∨ n ∈ st.failed.map Prod.fst ∨ n ∈ names) →
    (∀ n ∈ unresolved.map Prod.fst, n ∉ avail0) →
    (res = st.resolved ∨ True) ∧
    (∀ n ∈ unresolved.map Prod.fst,
      n ∈ res.map Prod.fst ∨ n ∈ fail.map Prod.fst) ∧
    (∀ n ∈ res.map Prod.fst, n ∈ unresolved.map Prod.fst) ∧
    (∀ n ∈ fail.map Prod.fst, n ∈ unresolved.map Prod.fst) ∧
    (∀ n, n ∈ res.map Prod.fst → n ∈ fail.map Prod.fst → False) := by
  intro k
  induction k with
  | zero =>
    intro names st res fail hlen h hnd hNU hnav hnf hA1 hA2 hA7 hA8 hA9 hcov havail
    have hnil : names = [] := List.length_eq_zero.mp (Nat.le_zero.mp hlen)
    subst hnil
    simp only [resolveLoop, pure, Except.pure] at h
    cases h
    refine ⟨Or.inl rfl, ?_, hA7, hA8, hA9⟩
    intro n hn
    rcases hcov n hn with hr | hf | habs
    · exact Or.inl hr
    · exact Or.inr hf
    · cases habs
  | succ k ihk =>
    intro names st res fail hlen h hnd hNU hnav hnf hA1 hA2 hA7 hA8 hA9 hcov havail
    cases names with
    | nil =>
      simp only [resolveLoop, pure, Except.pure] at h
      cases h
      refine ⟨Or.inl rfl, ?_, hA7, hA8, hA9⟩
      intro n hn
      rcases hcov n hn with hr | hf | habs
      · exact Or.inl hr
      · exact Or.inr hf
      · cases habs
    | cons name rest =>
      rw [resolveLoop] at h
      split at h
      · exact Except.noConfusion h
      rename_i st' hp
      obtain ⟨p1, p2, p3⟩ := onePass_progress hp
      obtain ⟨c1, c2, c3, c4, c5, c6, c7, c8, c9, c10⟩ :=
        @onePass_inv α β (unresolved.map Prod.fst) avail0 unresolved dependencies f
          (name :: rest) ({ st with anyChanges := false }) st' hp hnd hNU hnav hnf
          hA1 hA2 hA7 hA8 hA9
      split at h
      · -- the pass made progress: recurse on the filtered names
        rename_i hc
        set names1 := (name :: rest).filter
          (fun n => !(st'.availableNames.contains n) &&
                    !(st'.failedNames.contains n)) with hnames1
        have hlen1 : names1.length ≤ k := by
          rcases p3 hc with hfalse | ⟨n, hn, hmem⟩
          · simp at hfalse
          · have hlt : names1.length < (name :: rest).length := by
              refine filter_length_lt hn ?_
              rcases hmem with hmem | hmem
              · have hc2 : st'.availableNames.contains n = true :=
                  List.elem_eq_true_of_mem hmem
                simp only [hc2, Bool.not_true, Bool.false_and]
              · have hc2 : st'.failedNames.contains n = true :=
                  List.elem_eq_true_of_mem hmem
                simp only [hc2, Bool.not_true, Bool.and_false]
            simp only [List.length_cons] at hlt
            simp only [List.length_cons] at hlen
            omega
        have hmemf : ∀ n ∈ names1, n ∈ (name :: rest) ∧
            n ∉ st'.availableNames ∧ n ∉ st'.failedNames := by
          intro n hn
          rw [hnames1, List.mem_filter] at hn
          obtain ⟨hmem, hpred⟩ := hn
          rw [Bool.and_eq_true, Bool.not_eq_true', Bool.not_eq_true'] at hpred
          refine ⟨hmem, ?_, ?_⟩
          · intro hcon
            have hc2 : st'.availableNames.contains n = true :=
              List.elem_eq_true_of_mem hcon
            rw [hc2] at hpred
            exact Bool.noConfusion hpred.1
          · intro hcon
            have hc2 : st'.failedNames.contains n = true :=
              List.elem_eq_true_of_mem hcon
            rw [hc2] at hpred
            exact Bool.noConfusion hpred.2
        refine ihk names1 st' res fail hlen1 h
          (List.Nodup.filter _ hnd)
          (fun n hn => hNU n (hmemf n hn).1)
          (fun n hn => (hmemf n hn).2.1)
          (fun n hn => (hmemf n hn).2.2)
          c1 c2 c3 c4 c5 ?_ havail |>.imp (fun _ => Or.inr trivial) (fun x => x)
        intro n hn
        rcases hcov n hn with hr | hf | hm
        · exact Or.inl (c8 n hr)
        · exact Or.inr (Or.inl (c9 n hf))
        · by_cases hn1 : n ∈ names1
          · exact Or.inr (Or.inr hn1)
          · rcases Decidable.em (st'.availableNames.contains n = true) with hc1 | hc1
            · have hmem1 : n ∈ st'.availableNames := List.mem_of_elem_eq_true hc1
              rw [c2] at hmem1
              rcases List.mem_append.mp hmem1 with hm1 | hm1
              · exact absurd hm1 (havail n hn)
              · exact Or.inl hm1
            · rcases Decidable.em (st'.failedNames.contains n = true) with hc2 | hc2
              · have hmem2 : n ∈ st'.failedNames := List.mem_of_elem_eq_true hc2
                rw [c1] at hmem2
                exact Or.inr (Or.inl hmem2)
              · exfalso
                apply hn1
                rw [hnames1, List.mem_filter]
                refine ⟨hm, ?_⟩
                have hf1 : st'.availableNames.contains n = false :=
                  Bool.eq_false_iff.mpr hc1
                have hf2 : st'.failedNames.contains n = false :=
                  Bool.eq_false_iff.mpr hc2
                rw [hf1, hf2]
                rfl
      · -- no progress: dump the remaining names into `failed` and finish
        rename_i hc
        split at h
        · exact Except.noConfusion h
        rename_i st'' hd
        have hcfalse : st'.anyChanges = false := Bool.eq_false_iff.mpr hc
        have hst' : st' = { st with anyChanges := false } := c10 hcfalse
        obtain ⟨d1, d2, d3, d4, d5, d6, d7, d8⟩ :=
          @dumpFailures_inv α β (unresolved.map Prod.fst) avail0 unresolved
            (name :: rest) st' st'' hd hNU
            (by rw [hst']; exact hnav)
            (by rw [hst']; exact hA1)
            (by rw [hst']; exact hA2)
            (by rw [hst']; exact hA7)
            (by rw [hst']; exact hA8)
            (by rw [hst']; exact hA9)
        obtain ⟨e1, e2⟩ := dumpFailures_all hd
        set names2 := (name :: rest).filter
          (fun n => !(st''.availableNames.contains n) &&
                    !(st''.failedNames.contains n)) with hnames2
        have hlen2 : names2.length ≤ k := by
          have hlt : names2.length < (name :: rest).length := by
            refine filter_length_lt (List.mem_cons_self name rest) ?_
            have hc2 : st''.failedNames.contains name = true :=
              List.elem_eq_true_of_mem (e2 name (by simp))
            simp only [hc2, Bool.not_true, Bool.and_false]
          simp only [List.length_cons] at hlt
          simp only [List.length_cons] at hlen
          omega
        have hmemf : ∀ n ∈ names2, n ∈ (name :: rest) ∧
            n ∉ st''.availableNames ∧ n ∉ st''.failedNames := by
          intro n hn
          rw [hnames2, List.mem_filter] at hn
          obtain ⟨hmem, hpred⟩ := hn
          rw [Bool.and_eq_true, Bool.not_eq_true', Bool.not_eq_true'] at hpred
          refine ⟨hmem, ?_, ?_⟩
          · intro hcon
            have hc2 : st''.availableNames.contains n = true :=
              List.elem_eq_true_of_mem hcon
            rw [hc2] at hpred
            exact Bool.noConfusion hpred.1
          · intro hcon
            have hc2 : st''.failedNames.contains n = true :=
              List.elem_eq_true_of_mem hcon
            rw [hc2] at hpred
            exact Bool.noConfusion hpred.2
        refine ihk names2 st'' res fail hlen2 h
          (List.Nodup.filter _ hnd)
          (fun n hn => hNU n (hmemf n hn).1)
          (fun n hn => (hmemf n hn).2.1)
          (fun n hn => (hmemf n hn).2.2)
          d1 d2 d5 d6 d7 ?_ havail |>.imp (fun _ => Or.inr trivial) (fun x => x)
        intro n hn
        rcases hcov n hn with hr | hf | hm
        · refine Or.inl ?_
          rw [d3, hst']
          exact hr
        · refine Or.inr (Or.inl ?_)
          refine d8 n ?_
          rw [hst']
          exact hf
        · refine Or.inr (Or.inl ?_)
          have := e2 n hm
          rw [d1] at this
          exact this

/-!  ## Claim-level results -/

/-- Encoding a list of per-element results in order. -/
theorem elemsToSlv_of_forall2 (sub : Typ) (g : Generics) (au : Bool) :
    ∀ (xs : List Val) (ss : List Slv),
    List.Forall₂ (fun x s => toSlv sub x g au = .ok s) xs ss →
    elemsToSlv sub xs g au = .ok ss := by
  intro xs ss h
  induction h with
  | nil => simp only [elemsToSlv]; rfl
  | cons h1 _ ih =>
    simp only [elemsToSlv, h1, ih, bind, Except.bind, pure, Except.pure]

/-- Encoding a list of per-field results in order. -/
theorem fieldsToSlv_of_forall2 (id : Option String) (g : Generics) (au : Bool)
    (entries : List (String × Val)) :
    ∀ (fs : List (String × Typ)) (ss : List Slv),
    List.Forall₂ (fun (p : String × Typ) (s : Slv) =>
      toSlv p.2 ((entries.lookup p.1).getD Val.none) g au = .ok s) fs ss →
    fieldsToSlv id fs entries g au = .ok ss := by
  intro fs
  induction fs with
  | nil =>
    intro ss h
    cases h
    simp only [fieldsToSlv]
    rfl
  | cons p fs ih =>
    obtain ⟨name, sub⟩ := p
    intro ss h
    rcases h with _ | @⟨_, s, _, ss', h1, ht⟩
    simp only at h1
    simp only [fieldsToSlv, h1, ih ss' ht, bind, Except.bind, pure, Except.pure]

/-- C1 counterexample: the well-formed constrained array type
`array (1 element) of std_logic_vector(-1 downto 0)` (element width 0)
accepts the fully-defined in-range value `[0]` — the type's width
evaluates to the integer 0 — yet `from_slv(to_slv(v))` raises
`ZeroDivisionError` instead of returning `v`. -/
theorem C1_counterexample :
    goodTyp (.carray Option.none (.cslv Option.none (.num (.i 0)))
      (.num (.i 1))) [] = true ∧
    goodVal (.carray Option.none (.cslv Option.none (.num (.i 0)))
      (.num (.i 1))) [] (.list [.int 0]) = true ∧
    evalWidthInt (.carray Option.none (.cslv Option.none (.num (.i 0)))
      (.num (.i 1))) [] = some 0 ∧
    toSlv (.carray Option.none (.cslv Option.none (.num (.i 0))) (.num (.i 1)))
      (.list [.int 0]) [] false = .ok [] ∧
    fromSlv (.carray Option.none (.cslv Option.none (.num (.i 0))) (.num (.i 1)))
      [] [] = .error .zeroDivisionError := by
  refine ⟨rfl, ?_, ?_, ?_, ?_⟩
  · show (decide ((1 : Int) = 1) &&
      (decide ((0 : Int) ≤ 0) && decide ((0 : Rat) ≤ rat2pow 0 - 1) && true)) = true
    norm_num [rat2pow]
  · exact evalWidthInt_carray [] Option.none _ (.num (.i 1)) (.num (.i 0)) 1 0
      rfl rfl rfl
  · simp [toSlv, arrayToSlv, elemsToSlv, cslvToSlv, evalToInt, apply_generics,
      substituteGenerics, get_value, PyNum.asNumber, PyNum.trunc, PyNum.toRat,
      rat2pow, uFill, pyBitsAcc, stdLogicMapM, pyLen, bind, Except.bind, pure,
      Except.pure]
  · simp [fromSlv, arrayFromSlv, widthOf, apply_generics, substituteGenerics,
      get_value, PyNum.asNumber, PyNum.trunc, PyNum.toRat, bind, Except.bind,
      pure, Except.pure]

/-- C1 (amended): for every resolved type whose widths evaluate to concrete
non-negative integers under the generics **and whose array element widths
are positive**, and every fully-defined in-range value,
`from_slv(to_slv(v, g), g)` returns `v`.  The positive-element-width
condition is required: `C1_counterexample` shows a width-0 element type on
which decoding raises `ZeroDivisionError`. -/
theorem C1_roundtrip (t : Typ) (g : Generics) (v : Val) (au : Bool)
    (hgood : goodTyp t g = true) (hpos : posElems t g = true)
    (hval : goodVal t g v = true) :
    ∃ s, toSlv t v g au = .ok s ∧ fromSlv t s g = .ok v := by
  obtain ⟨s, h1, _, h3⟩ := roundtrip_aux (tsize t) t le_rfl g v au hgood hpos hval
  exact ⟨s, h1, h3⟩

/-- Witness for `C1_roundtrip` at a concrete enumeration type. -/
theorem C1_roundtrip_witness :
    ∃ s, toSlv (.enumeration Option.none ["run", "stop"]) (.str "run") [] false =
        .ok s ∧
      fromSlv (.enumeration Option.none ["run", "stop"]) s [] = .ok (.str "run") :=
  C1_roundtrip (.enumeration Option.none ["run", "stop"]) [] (.str "run") false
    (by rfl) (by rfl) (by rfl)

/-- C2: record encoding concatenates the per-field encodings with the
last-declared field first, array encoding concatenates the per-element
encodings with element N−1 first and element 0 last, and decoding consumes
the encoded value off the trailing end of the string, leaving any prefix
untouched. -/
theorem C2_concat_order :
    (∀ (id : Option String) (fields : List (String × Typ))
       (entries : List (String × Val)) (g : Generics) (au : Bool) (ss : List Slv),
       ((entries.map Prod.fst).filter
         (fun k => !((fields.map Prod.fst).contains k))) = [] →
       List.Forall₂ (fun (p : String × Typ) (s : Slv) =>
         toSlv p.2 ((entries.lookup p.1).getD Val.none) g au = .ok s) fields ss →
       toSlv (.record id fields) (.dict entries) g au = .ok ss.reverse.join) ∧
    (∀ (sub : Typ) (xs : List Val) (g : Generics) (au : Bool) (ss : List Slv),
       List.Forall₂ (fun x s => toSlv sub x g au = .ok s) xs ss →
       arrayToSlv sub (.list xs) g au = .ok ss.reverse.join) ∧
    (∀ (t : Typ) (g : Generics) (v : Val) (au : Bool),
       goodTyp t g = true → posElems t g = true → goodVal t g v = true →
       ∃ s, toSlv t v g au = .ok s ∧
         ∀ pre : Slv, reduceSlv t (pre ++ s) g = .ok (v, pre)) := by
  refine ⟨?_, ?_, ?_⟩
  · intro id fields entries g au ss hinv hrel
    simp only [toSlv, bind, Except.bind, pure, Except.pure]
    rw [hinv]
    rw [if_neg (by simp)]
    simp only [fieldsToSlv_of_forall2 id g au entries fields ss hrel, bind,
      Except.bind, pure, Except.pure]
  · intro sub xs g au ss hrel
    have hrev := List.rel_reverse hrel
    simp only [arrayToSlv, elemsToSlv_of_forall2 sub g au _ _ hrev, bind,
      Except.bind, pure, Except.pure]
  · intro t g v au hg hp hv
    obtain ⟨s, h1, h2, _⟩ := roundtrip_aux (tsize t) t le_rfl g v au hg hp hv
    exact ⟨s, h1, h2⟩

/-- Witness for `C2_concat_order` at a two-field record, a two-element
array and the trailing-end decode of a single bit. -/
theorem C2_concat_order_witness :
    toSlv (.record Option.none [("a", .std_logic), ("b", .std_logic)])
      (.dict [("a", .int 0), ("b", .int 1)]) [] false = .ok ['1', '0'] ∧
    arrayToSlv .std_logic (.list [.int 0, .int 1]) [] false = .ok ['1', '0'] ∧
    (∃ s, toSlv .std_logic (.int 1) [] false = .ok s ∧
      ∀ pre : Slv, reduceSlv .std_logic (pre ++ s) [] = .ok (.int 1, pre)) := by
  refine ⟨?_, ?_, ?_⟩
  · exact C2_concat_order.1 Option.none [("a", .std_logic), ("b", .std_logic)]
      [("a", .int 0), ("b", .int 1)] [] false [['0'], ['1']] (by rfl)
      (List.Forall₂.cons (by simp only [toSlv]; rfl)
        (List.Forall₂.cons (by simp only [toSlv]; rfl) List.Forall₂.nil))
  · exact C2_concat_order.2.1 .std_logic [.int 0, .int 1] [] false [['0'], ['1']]
      (List.Forall₂.cons (by simp only [toSlv]; rfl)
        (List.Forall₂.cons (by simp only [toSlv]; rfl) List.Forall₂.nil))
  · exact C2_concat_order.2.2 .std_logic [] (.int 1) false rfl rfl rfl

/-- C3: the two cited `resolve_dependencies` copies disagree when the
per-item resolve function raises.  In `resolution.py` the exception is
caught, the item lands in the returned `failed` mapping and the run
completes; in the `slvcodec/package.py` copy the *same* input propagates
the exception out of the whole run, because that copy calls
`resolve_function` once outside its `try` block (lines 199–200). -/
theorem C3_exception_contrast :
    resolve_dependencies ([] : List (String × Unit)) [("a", ())] [("a", [])]
      (fun _ _ _ => (.error () : Except Unit Unit)) = .ok ([], [("a", ())]) ∧
    package_resolve_dependencies ([] : List (String × Unit)) [("a", ())] [("a", [])]
      (fun _ _ _ => (.error () : Except Unit Unit)) = .error .resolveError := by
  constructor
  · simp [resolve_dependencies, resolveLoop, onePass, resolveBody, dumpFailures,
      List.lookup, bind, Except.bind, pure, Except.pure]
  · simp [package_resolve_dependencies, resolveLoopPkg, onePassPkg, resolveBodyPkg,
      List.lookup, bind, Except.bind, pure, Except.pure]

/-- C4 counterexample: on a genuine dependency cycle the run terminates
and **returns normally** with both items in the failed mapping — the
no-progress stall is logged and dumped into `failed`, not raised as a
`ResolutionError` as the spec states. -/
theorem C4_counterexample :
    resolve_dependencies ([] : List (String × Unit)) [("x", ()), ("y", ())]
      [("x", ["y"]), ("y", ["x"])] (fun _ _ _ => (.ok () : Except Unit Unit)) =
      .ok ([], [("x", ()), ("y", ())]) := by
  simp [resolve_dependencies, resolveLoop, onePass, resolveBody, dumpFailures,
    List.lookup, bind, Except.bind, pure, Except.pure]

/-- C4 (amended): a `resolve_dependencies` run on the two-item cycle
`a needs b, b needs a` terminates for every item payload and resolve
function, returning normally with the empty resolved mapping and both
items in the failed mapping (no exception is raised and the loop does not
run forever; the stall is handled by dumping the remaining names into
`failed`). -/
theorem C4_cycle_terminates {α β : Type} (va vb : α)
    (f : String → α → List (String × β) → Except Unit β) :
    resolve_dependencies ([] : List (String × β)) [("a", va), ("b", vb)]
      [("a", ["b"]), ("b", ["a"])] f = .ok ([], [("a", va), ("b", vb)]) := by
  simp [resolve_dependencies, resolveLoop, onePass, resolveBody, dumpFailures,
    List.lookup, bind, Except.bind, pure, Except.pure]

/-- C5 counterexample: a constrained vector whose size expression
evaluates to `-1` is accepted (`to_slv(None)` returns the empty string via
`'U' * -1`), but the output length `0` differs from the evaluated width
`-1`. -/
theorem C5_counterexample :
    evalWidthInt (.cslv Option.none (.num (.i (-1)))) [] = some (-1) ∧
    toSlv (.cslv Option.none (.num (.i (-1)))) .none [] true = .ok [] ∧
    (([] : Slv).length : Int) ≠ -1 := by
  refine ⟨evalWidthInt_cslv [] Option.none (.num (.i (-1))) (-1) rfl, ?_, by decide⟩
  simp only [toSlv]
  rfl

/-- C5 (amended): for every type whose width expressions evaluate to
concrete **non-negative** integers under the generics, and every value
`to_slv` accepts, the returned string's length equals the evaluated width
exactly.  Non-negativity is required: `C5_counterexample` shows a width
`-1` vector whose accepted output has length `0`. -/
theorem C5_length (t : Typ) (g : Generics) (v : Val) (au : Bool) (s : Slv)
    (hgood : goodTyp t g = true) (hok : toSlv t v g au = .ok s) :
    ∃ w, evalWidthInt t g = some w ∧ (s.length : Int) = w :=
  toSlv_length_aux (tsize t) t le_rfl g v au s hgood hok

/-- Witness for `C5_length` at a concrete enumeration encode. -/
theorem C5_length_witness :
    ∃ w, evalWidthInt (.enumeration Option.none ["a", "b"]) [] = some w ∧
      (((['1'] : Slv).length : Int)) = w :=
  C5_length (.enumeration Option.none ["a", "b"]) [] (.str "b") false ['1']
    (by rfl) (by simp only [toSlv]; rfl)

/-- C6 counterexample: a record value missing a required field is **not**
rejected — `Record.to_slv` reads the missing field with
`data.get(name, None)` and encodes it as undefined filler, returning
`'UU'` for a record whose only field is a width-2 vector. -/
theorem C6_counterexample :
    toSlv (.record Option.none [("a", .cslv Option.none (.num (.i 2)))])
      (.dict []) [] true = .ok ['U', 'U'] := by
  simp [toSlv, fieldsToSlv, cslvToSlv, evalToInt, apply_generics,
    substituteGenerics, get_value, PyNum.asNumber, PyNum.trunc, uFill, bind,
    Except.bind, pure, Except.pure]

/-- C6 (amended): an unknown field name in the value mapping makes
`Record.to_slv` fail with a `ToSlvError` naming the unknown fields, and a
constrained array fails with a `ToSlvError` carrying the mismatched
element count — but a *missing* record field is silently encoded as
undefined filler rather than rejected (`C6_counterexample`). -/
theorem C6_shape_errors :
    (∀ (id : Option String) (fields : List (String × Typ))
       (entries : List (String × Val)) (g : Generics) (au : Bool),
       ((entries.map Prod.fst).filter
         (fun k => !((fields.map Prod.fst).contains k))) ≠ [] →
       toSlv (.record id fields) (.dict entries) g au =
         .error (.slv (.unknownElems ((entries.map Prod.fst).filter
           (fun k => !((fields.map Prod.fst).contains k))) id))) ∧
    (∀ (id : Option String) (sub : Typ) (size : MathItem) (g : Generics)
       (au : Bool) (xs : List Val) (n : Int),
       apply_generics g size = some (.i n) →
       ((xs.length : Int) : Rat) ≠ ((n : Int) : Rat) →
       toSlv (.carray id sub size) (.list xs) g au =
         .error (.slv (.lengthMismatch (xs.length : Int) ((PyNum.i n).toRat)))) := by
  constructor
  · intro id fields entries g au h
    simp only [toSlv, bind, Except.bind, pure, Except.pure]
    rw [if_pos h]
  · intro id sub size g au xs n hn hne
    simp only [toSlv, hn, bind, Except.bind, pure, Except.pure, pyLen,
      PyNum.toRat]
    rw [if_pos hne]

/-- Witness for `C6_shape_errors` at a concrete unknown field and a
concrete element-count mismatch. -/
theorem C6_shape_errors_witness :
    toSlv (.record Option.none [("a", .std_logic)]) (.dict [("b", .int 0)]) []
      false = .error (.slv (.unknownElems ["b"] Option.none)) ∧
    toSlv (.carray Option.none .std_logic (.num (.i 2))) (.list [.int 0]) []
      false = .error (.slv (.lengthMismatch 1 ((PyNum.i 2).toRat))) := by
  constructor
  · exact C6_shape_errors.1 Option.none [("a", .std_logic)] [("b", .int 0)] []
      false (by decide)
  · exact C6_shape_errors.2 Option.none .std_logic (.num (.i 2)) [] false
      [.int 0] 2 rfl (by decide)

/-- C7 counterexample: the non-integral decimal literal `"6.2"` is **not**
a parse error — `as_number` converts it to the float `31/5` and
`parse_integers` rebuilds it as that float number. -/
theorem C7_counterexample :
    as_number (.str "6.2") = some (.f (31 / 5)) ∧
    parse_integers (.str "6.2") = .num (.f (31 / 5)) := by
  have h : pyFloatOfString "6.2" = some (31 / 5) := by
    simp [pyFloatOfString]
    norm_num
  constructor
  · simp [as_number, h, PyNum.asNumber]
    norm_num
  · simp [parse_integers, as_number, h, PyNum.asNumber]
    norm_num

/-- C7 (amended): a decimal literal equal to its own integer truncation is
parsed as that integer; any **other** decimal literal is kept as the float
it denotes — no parse error is raised (`C7_counterexample`). -/
theorem C7_decimal (s : String) (q : Rat) (hq : pyFloatOfString s = some q) :
    (q.den = 1 → as_number (.str s) = some (.i q.num)) ∧
    (q.den ≠ 1 → as_number (.str s) = some (.f q)) := by
  constructor <;> intro hden <;>
    simp [as_number, hq, PyNum.asNumber, hden]

/-- Witness for `C7_decimal` at the integral decimal literal `"6.0"`. -/
theorem C7_decimal_witness :
    pyFloatOfString "6.0" = some 6 ∧ (6 : Rat).den = 1 ∧
    as_number (.str "6.0") = some (.i (6 : Rat).num) := by
  have hq : pyFloatOfString "6.0" = some 6 := by simp [pyFloatOfString]
  exact ⟨hq, by decide, (C7_decimal "6.0" 6 hq).1 (by decide)⟩

set_option maxHeartbeats 4000000 in
/-- C8 counterexample: `simplify` is not idempotent.  On the 7-level
nested-`Term` expression `Addition([Term(2, Term(2, … Term(2, 'x')))])`
the 5-pass budget is exhausted before the fixed point, and re-running
`simplify` on the result produces a tree that is not Python-`==` to it. -/
theorem C8_counterexample :
    ∃ v1 v2,
      simplify (.add [((PyNum.i 2), .term (.i 2) (.term (.i 2) (.term (.i 2)
        (.term (.i 2) (.term (.i 2) (.term (.i 2) (.str "x")))))))]) = some v1 ∧
      simplify v1 = some v2 ∧ pyEq v2 v1 = false := by
  refine ⟨.add [((PyNum.i 64), .term (.i 2) (.str "x"))],
    .add [((PyNum.i 128), .str "x")], ?_, ?_, rfl⟩
  · simp [simplify, msize, msizeTermList, simplifyF, simpLoop,
      simpStep, simpList, powSimpList, termSimpList, addCombine, multCombine,
      funcCombine, dictAddNum, dictAddInt, dictSetNum, itemNonzero, pyEq,
      MathItem.toPyObj, eraseTermList, erasePowList,
      eraseList, PyObj.beq, beqObjList, PyNum.toRat, PyNum.add,
      PyNum.mul, PyNum.numEq, bind, Option.bind, pure, is_number, as_number,
      pyFloatOfString, pyIntOf, pyIntOfString, PyNum.asNumber, PyNum.trunc,
      get_value, valueList, powerProduct, termTotal]
  · simp [simplify, msize, msizeTermList, simplifyF, simpLoop,
      simpStep, simpList, powSimpList, termSimpList, addCombine, multCombine,
      funcCombine, dictAddNum, dictAddInt, dictSetNum, itemNonzero, pyEq,
      MathItem.toPyObj, eraseTermList, erasePowList,
      eraseList, PyObj.beq, beqObjList, PyNum.toRat, PyNum.add,
      PyNum.mul, PyNum.numEq, bind, Option.bind, pure, is_number, as_number,
      pyFloatOfString, pyIntOf, pyIntOfString, PyNum.asNumber, PyNum.trunc,
      get_value, valueList, powerProduct, termTotal]

/-- C8 (amended): `simplify` stabilises exactly when a single pass reaches
the Python-`==` fixed point the loop tests for: if one simplification pass
maps `v` to a tree `w` that is `==` to `v`, then `simplify v` returns that
pass's result, which is `==` to `v`.  Full idempotence fails on inputs
that exhaust the 5-pass budget (`C8_counterexample`). -/
theorem C8_fixpoint (v w : MathItem) (hstep : simpStep (msize v + 9) v = some w)
    (heq : pyEq v w = true) :
    ∃ v', simplify v = some v' ∧ pyEq v v' = true := by
  refine ⟨w, ?_, heq⟩
  show simplifyF (msize v + 10) v = some w
  have h10 : msize v + 10 = (msize v + 9) + 1 := rfl
  rw [h10]
  simp only [simplifyF, simpLoop, hstep, heq, bind, Option.bind, if_true,
    pure, Option.pure_def]

/-- Witness for `C8_fixpoint` at a numeric literal (a one-pass fixed
point). -/
theorem C8_fixpoint_witness :
    ∃ v', simplify (.num (.i 3)) = some v' ∧ pyEq (.num (.i 3)) v' = true :=
  C8_fixpoint (.num (.i 3)) (.num (.i 3)) (by simp only [simpStep]) (by rfl)

/-- C9: for every `resolution.py` `resolve_dependencies` run over
unresolved items with distinct names that returns, the resolved and
failed mappings have disjoint key sets whose union is exactly the
unresolved key set (the model passes `available` by value, mirroring the
source's `available.copy()` which leaves the caller's mapping
unmodified). -/
theorem C9_partition {α β : Type} (available : List (String × β))
    (unresolved : List (String × α)) (dependencies : List (String × List String))
    (f : String → α → List (String × β) → Except Unit β)
    (res : List (String × β)) (fail : List (String × α))
    (hnd : (unresolved.map Prod.fst).Nodup)
    (h : resolve_dependencies available unresolved dependencies f = .ok (res, fail)) :
    (∀ n, n ∈ unresolved.map Prod.fst ↔
      (n ∈ res.map Prod.fst ∨ n ∈ fail.map Prod.fst)) ∧
    (∀ n, ¬(n ∈ res.map Prod.fst ∧ n ∈ fail.map Prod.fst)) := by
  simp only [resolve_dependencies] at h
  split at h
  · exact Except.noConfusion h
  rename_i hassert
  have havail : ∀ n ∈ unresolved.map Prod.fst, n ∉ available.map Prod.fst := by
    intro n hn hmem
    apply hassert
    rw [List.any_eq_true]
    exact ⟨n, hn, List.elem_eq_true_of_mem hmem⟩
  obtain ⟨_, hcover, hres, hfail, hdisj⟩ :=
    @resolveLoop_inv α β (available.map Prod.fst) unresolved dependencies f
      (unresolved.map Prod.fst).length (unresolved.map Prod.fst) _ res fail
      le_rfl h hnd (fun n hn => hn) (fun n hn => havail n hn)
      (fun n _ hmem => absurd hmem (List.not_mem_nil n))
      rfl (by simp)
      (fun n hn => absurd hn (by simp))
      (fun n hn => absurd hn (by simp))
      (fun n hn _ => absurd hn (by simp))
      (fun n hn => Or.inr (Or.inr hn))
      havail
  refine ⟨?_, ?_⟩
  · intro n
    constructor
    · intro hn
      exact hcover n hn
    · intro hn
      rcases hn with hn | hn
      · exact hres n hn
      · exact hfail n hn
  · intro n hboth
    exact hdisj n hboth.1 hboth.2

/-- Witness for `C9_partition` at a concrete one-item run. -/
theorem C9_partition_witness :
    (∀ n, n ∈ ([("a", ())] : List (String × Unit)).map Prod.fst ↔
      (n ∈ ([("a", 7)] : List (String × Nat)).map Prod.fst ∨
       n ∈ ([] : List (String × Unit)).map Prod.fst)) ∧
    (∀ n, ¬(n ∈ ([("a", 7)] : List (String × Nat)).map Prod.fst ∧
      n ∈ ([] : List (String × Unit)).map Prod.fst)) :=
  C9_partition ([] : List (String × Nat)) [("a", ())] [("a", [])]
    (fun _ _ _ => .ok 7) [("a", 7)] [] (by decide)
    (by simp [resolve_dependencies, resolveLoop, onePass, resolveBody,
      dumpFailures, List.lookup, bind, Except.bind, pure, Except.pure])

/-- C10: `Enumeration` lowercases its literal list at construction,
`to_slv` matches the input literal case-insensitively (it looks up the
lowercased input), and `from_slv` of the encoding returns the stored
lowercase form — so decoding the encoding of a mixed-case literal yields
its lowercase version. -/
theorem C10_enum_case (id : Option String) (lits : List String) (lit : String)
    (g : Generics) (au : Bool)
    (hmem : (lits.map pyLower).contains (pyLower lit) = true) :
    mkEnumeration id lits = .enumeration id (lits.map pyLower) ∧
    ∃ s, toSlv (mkEnumeration id lits) (.str lit) g au = .ok s ∧
      fromSlv (mkEnumeration id lits) s g = .ok (.str (pyLower lit)) := by
  refine ⟨rfl, ?_⟩
  obtain ⟨s, henc, hred, _⟩ := enum_rt2 (lits.map pyLower) lit au hmem
  refine ⟨s, ?_, ?_⟩
  · show toSlv (.enumeration id (lits.map pyLower)) (.str lit) g au = .ok s
    simp only [toSlv]
    exact henc
  · show fromSlv (.enumeration id (lits.map pyLower)) s g = .ok (.str (pyLower lit))
    have hred0 : enumReduceSlv (lits.map pyLower) s =
        .ok (.str (pyLower lit), ([] : Slv)) := hred []
    simp only [fromSlv, hred0, bind, Except.bind]
    rfl

/-- Witness for `C10_enum_case`: decoding the encoding of `"RUN"` against
literals constructed from `["Run", "Stop"]` yields `"run"`. -/
theorem C10_enum_case_witness :
    mkEnumeration Option.none ["Run", "Stop"] =
      .enumeration Option.none ["run", "stop"] ∧
    ∃ s, toSlv (mkEnumeration Option.none ["Run", "Stop"]) (.str "RUN") [] false =
        .ok s ∧
      fromSlv (mkEnumeration Option.none ["Run", "Stop"]) s [] = .ok (.str "run") :=
  C10_enum_case Option.none ["Run", "Stop"] "RUN" [] false (by rfl)

end Slvcodec
